import Mathlib

/-!
Verification of the `bonafide.py` storage layer of the bb.py repository:
the order-preserving tuple codec (`_bytes_write_one`, `_bytes_read_one`,
`bytes_write`, `bytes_read`, `bytes_next`), the permutation-index planner
(`nstore_indices`), the n-tuple store and its single-pattern query
(`nstore_add`, `nstore_query`), the `transactional` wrapper, and the
pool-size default.  Byte strings are modelled as `List Nat` with every
element `< 256`; Python tuples of scalars as lists of an inductive `Value`
type.
-/

set_option maxHeartbeats 1000000
set_option maxRecDepth 8000

/-! ## Byte-lexicographic comparison on byte strings (SQLite BLOB order) -/

/-- Lexicographic comparison of byte strings; a proper prefix sorts first. -/
def lexCmp : List Nat → List Nat → Ordering
  | [], [] => .eq
  | [], _ :: _ => .lt
  | _ :: _, [] => .gt
  | a :: as, b :: bs =>
    match compare a b with
    | .eq => lexCmp as bs
    | o => o

/-- `a` is byte-wise `<` `b`. -/
def lexLt (a b : List Nat) : Prop := lexCmp a b = .lt

/-- `a` is byte-wise `≤` `b`. -/
def lexLe (a b : List Nat) : Prop := lexCmp a b ≠ .gt

theorem lexCmp_eq_iff (a b : List Nat) : lexCmp a b = .eq ↔ a = b := by
  induction a generalizing b with
  | nil => cases b <;> simp [lexCmp]
  | cons x as ih =>
    cases b with
    | nil => simp [lexCmp]
    | cons y bs =>
      rcases h : compare x y with hc | hc | hc
      · simp only [lexCmp, h]
        have : x ≠ y := ne_of_lt (compare_lt_iff_lt.mp h)
        simp [this]
      · have hxy : x = y := compare_eq_iff_eq.mp h
        simp only [lexCmp, h, ih]
        simp [hxy]
      · simp only [lexCmp, h]
        have : x ≠ y := ne_of_gt (compare_gt_iff_gt.mp h)
        simp [this]

theorem lexCmp_refl (a : List Nat) : lexCmp a a = .eq :=
  (lexCmp_eq_iff a a).mpr rfl

theorem lexCmp_swap (a b : List Nat) : (lexCmp a b).swap = lexCmp b a := by
  induction a generalizing b with
  | nil => cases b <;> rfl
  | cons x as ih =>
    cases b with
    | nil => rfl
    | cons y bs =>
      rcases lt_trichotomy x y with h | h | h
      · have h1 : compare x y = .lt := compare_lt_iff_lt.mpr h
        have h2 : compare y x = .gt := compare_gt_iff_gt.mpr h
        simp [lexCmp, h1, h2, Ordering.swap]
      · subst h
        have h1 : compare x x = .eq := compare_eq_iff_eq.mpr rfl
        simp [lexCmp, h1, ih]
      · have h1 : compare x y = .gt := compare_gt_iff_gt.mpr h
        have h2 : compare y x = .lt := compare_lt_iff_lt.mpr h
        simp [lexCmp, h1, h2, Ordering.swap]

theorem lexCmp_gt_iff_lt (a b : List Nat) : lexCmp a b = .gt ↔ lexCmp b a = .lt := by
  rw [← lexCmp_swap b a]
  cases lexCmp b a <;> simp [Ordering.swap]

theorem lexCmp_append_cancel (c a b : List Nat) :
    lexCmp (c ++ a) (c ++ b) = lexCmp a b := by
  induction c with
  | nil => rfl
  | cons x cs ih =>
    have h : compare x x = .eq := compare_eq_iff_eq.mpr rfl
    simp [lexCmp, h, ih]

/-! ## Python scalar values supported by the codec

A Python `str` is modelled by its UTF-8 byte sequence (the codec only ever
touches `value.encode("utf-8")`), a `float` by its IEEE-754 big-endian
64-bit pattern (the codec only touches `struct.pack(">d", value)`), a
`uuid.UUID` by its 16 `value.bytes`, and a `BBH` by its payload, which in
Python is either a `bytes` of length 32 or a hex `str` of length 64. -/

inductive Value where
  | vnull : Value
  | vbool (b : Bool) : Value
  | vbytes (bs : List Nat) : Value
  | vstr (bs : List Nat) : Value
  | vint (n : Int) : Value
  | vfloat (bits : Nat) : Value
  | vuuid (bs : List Nat) : Value
  | vbbhBytes (bs : List Nat) : Value
  | vbbhHex (cs : List Nat) : Value
  | vtuple (vs : List Value) : Value
deriving Repr

/-- Mutual induction principle for `Value` (value part), packaging the
two motives of the nested recursor. -/
theorem Value.indV (P : Value → Prop) (Q : List Value → Prop)
    (hnull : P .vnull) (hbool : ∀ b, P (.vbool b))
    (hbytes : ∀ bs, P (.vbytes bs)) (hstr : ∀ bs, P (.vstr bs))
    (hint : ∀ n, P (.vint n)) (hfloat : ∀ bits, P (.vfloat bits))
    (huuid : ∀ bs, P (.vuuid bs)) (hbbhB : ∀ bs, P (.vbbhBytes bs))
    (hbbhH : ∀ cs, P (.vbbhHex cs))
    (htuple : ∀ vs, Q vs → P (.vtuple vs))
    (hnil : Q []) (hcons : ∀ v vs, P v → Q vs → Q (v :: vs)) :
    ∀ v, P v :=
  fun v =>
    @Value.rec P Q hnull hbool hbytes hstr hint hfloat huuid hbbhB hbbhH
      htuple hnil hcons v

/-- Mutual induction principle for `Value` (list part). -/
theorem Value.indL (P : Value → Prop) (Q : List Value → Prop)
    (hnull : P .vnull) (hbool : ∀ b, P (.vbool b))
    (hbytes : ∀ bs, P (.vbytes bs)) (hstr : ∀ bs, P (.vstr bs))
    (hint : ∀ n, P (.vint n)) (hfloat : ∀ bits, P (.vfloat bits))
    (huuid : ∀ bs, P (.vuuid bs)) (hbbhB : ∀ bs, P (.vbbhBytes bs))
    (hbbhH : ∀ cs, P (.vbbhHex cs))
    (htuple : ∀ vs, Q vs → P (.vtuple vs))
    (hnil : Q []) (hcons : ∀ v vs, P v → Q vs → Q (v :: vs)) :
    ∀ vs, Q vs := by
  intro vs
  induction vs with
  | nil => exact hnil
  | cons v vs ih =>
    exact hcons v vs
      (Value.indV P Q hnull hbool hbytes hstr hint hfloat huuid hbbhB hbbhH
        htuple hnil hcons v) ih

mutual

/-- Structural (bit-level) equality test on values. -/
def beqV : Value → Value → Bool
  | .vnull, .vnull => true
  | .vbool b, .vbool c => b == c
  | .vbytes bs, .vbytes cs => bs == cs
  | .vstr bs, .vstr cs => bs == cs
  | .vint n, .vint m => n == m
  | .vfloat x, .vfloat y => x == y
  | .vuuid bs, .vuuid cs => bs == cs
  | .vbbhBytes bs, .vbbhBytes cs => bs == cs
  | .vbbhHex bs, .vbbhHex cs => bs == cs
  | .vtuple vs, .vtuple ws => beqL vs ws
  | _, _ => false

/-- Structural equality test on lists of values. -/
def beqL : List Value → List Value → Bool
  | [], [] => true
  | v :: vs, w :: ws => beqV v w && beqL vs ws
  | _, _ => false

end

theorem beqV_iff : ∀ v w, beqV v w = true ↔ v = w := by
  refine Value.indV (fun v => ∀ w, beqV v w = true ↔ v = w)
    (fun vs => ∀ ws, beqL vs ws = true ↔ vs = ws)
    ?_ ?_ ?_ ?_ ?_ ?_ ?_ ?_ ?_ ?_ ?_ ?_
  · intro w; cases w <;> simp [beqV]
  · intro b w; cases w <;> simp [beqV]
  · intro bs w; cases w <;> simp [beqV]
  · intro bs w; cases w <;> simp [beqV]
  · intro n w; cases w <;> simp [beqV]
  · intro bits w; cases w <;> simp [beqV]
  · intro bs w; cases w <;> simp [beqV]
  · intro bs w; cases w <;> simp [beqV]
  · intro cs w; cases w <;> simp [beqV]
  · intro vs ih w; cases w <;> simp [beqV, ih]
  · intro ws; cases ws <;> simp [beqL]
  · intro v vs ihv ihl ws
    cases ws with
    | nil => simp [beqL]
    | cons w ws => simp [beqL, ihv, ihl]

theorem beqL_iff : ∀ vs ws, beqL vs ws = true ↔ vs = ws := by
  refine Value.indL (fun v => ∀ w, beqV v w = true ↔ v = w)
    (fun vs => ∀ ws, beqL vs ws = true ↔ vs = ws)
    ?_ ?_ ?_ ?_ ?_ ?_ ?_ ?_ ?_ ?_ ?_ ?_
  · intro w; cases w <;> simp [beqV]
  · intro b w; cases w <;> simp [beqV]
  · intro bs w; cases w <;> simp [beqV]
  · intro bs w; cases w <;> simp [beqV]
  · intro n w; cases w <;> simp [beqV]
  · intro bits w; cases w <;> simp [beqV]
  · intro bs w; cases w <;> simp [beqV]
  · intro bs w; cases w <;> simp [beqV]
  · intro cs w; cases w <;> simp [beqV]
  · intro vs ih w; cases w <;> simp [beqV, ih]
  · intro ws; cases ws <;> simp [beqL]
  · intro v vs ihv ihl ws
    cases ws with
    | nil => simp [beqL]
    | cons w ws => simp [beqL, ihv, ihl]

instance : DecidableEq Value := fun v w =>
  decidable_of_iff (beqV v w = true) (beqV_iff v w)

/-- `bytes.replace(b"\x00", b"\xff")` applied byte by byte: the escape used
for the Bytes and String encodings. -/
def escByte (b : Nat) : List Nat := if b = 0 then [0, 0xFF] else [b]

/-- `value.replace(b"\x00", b"\x00\xff")`. -/
def esc (bs : List Nat) : List Nat := (bs.map escByte).flatten

/-- The inverse replacement `data.replace(b"\x00\xff", b"\x00")`
(left-to-right, non-overlapping, as Python's `bytes.replace`). -/
def unesc : List Nat → List Nat
  | [] => []
  | [b] => [b]
  | b :: c :: rest =>
    if b = 0 ∧ c = 0xFF then 0 :: unesc rest
    else b :: unesc (c :: rest)

/-- `struct.pack(">Q", v)` generalised to `k` bytes: big-endian bytes of `v`. -/
def beBytes : Nat → Nat → List Nat
  | 0, _ => []
  | k + 1, v => (v / 256 ^ k) % 256 :: beBytes k v

/-- `struct.unpack(">Q", bs)`: big-endian byte list to natural number. -/
def fromBE (bs : List Nat) : Nat := bs.foldl (fun acc b => acc * 256 + b) 0

/-- The float bit-munging of `_bytes_write_one`: on the 8 big-endian bytes of
the IEEE-754 pattern, invert all bytes if the sign bit is set, otherwise flip
only the sign bit. -/
def floatMunge (bits : Nat) : List Nat :=
  match beBytes 8 bits with
  | b0 :: rest => if b0 &&& 0x80 ≠ 0 then (b0 :: rest).map (fun b => b ^^^ 0xFF)
                  else (b0 ^^^ 0x80) :: rest
  | [] => []

/-- The inverse munging of `_bytes_read_one`. -/
def floatUnmunge (bs : List Nat) : List Nat :=
  match bs with
  | b0 :: rest => if b0 &&& 0x80 ≠ 0 then (b0 ^^^ 0x80) :: rest
                  else (b0 :: rest).map (fun b => b ^^^ 0xFF)
  | [] => []

/-- Python truthiness of `value == 0` for a float: only `+0.0` (pattern 0)
and `-0.0` (pattern `2^63`) compare equal to the integer 0. -/
def floatIsZero (bits : Nat) : Bool := bits = 0 || bits = 2 ^ 63

/-- ASCII code of a hex digit (lowercase, as produced by `bytes.hex()`). -/
def hexDigitChar (d : Nat) : Nat := if d < 10 then 48 + d else 87 + d

/-- `bytes.hex()`: lowercase hex string (as ASCII codes) of a byte list. -/
def hexOfBytes (bs : List Nat) : List Nat :=
  (bs.map (fun b => [hexDigitChar (b / 16), hexDigitChar (b % 16)])).flatten

/-- Numeric value of an ASCII hex-digit code. -/
def hexVal (c : Nat) : Nat :=
  if 48 ≤ c ∧ c ≤ 57 then c - 48
  else if 97 ≤ c ∧ c ≤ 102 then c - 87
  else if 65 ≤ c ∧ c ≤ 70 then c - 55
  else 0

/-- Is `c` the ASCII code of a hex digit? -/
def isHexDigit (c : Nat) : Bool :=
  (48 ≤ c && c ≤ 57) || (97 ≤ c && c ≤ 102) || (65 ≤ c && c ≤ 70)

/-- `bytes.fromhex` on an even-length string of hex digits (ASCII codes). -/
def fromhexD : List Nat → List Nat
  | c1 :: c2 :: rest => (hexVal c1 * 16 + hexVal c2) :: fromhexD rest
  | _ => []

/-- Tag constants of the order-preserving encoding. -/
def tNULL : Nat := 0x00
def tBYTES : Nat := 0x01
def tSTRING : Nat := 0x02
def tNESTED : Nat := 0x03
def tINTZERO : Nat := 0x04
def tINTPOS : Nat := 0x05
def tINTNEG : Nat := 0x06
def tFLOAT : Nat := 0x07
def tTRUE : Nat := 0x08
def tFALSE : Nat := 0x09
def tUUID : Nat := 0x0A
def tBBH : Nat := 0x0B

mutual

/-- `_bytes_write_one(value, nested)`: encode one scalar.  The branch
structure follows the Python dispatch: `None`, `bool`, `bytes`, `str`,
`value == 0` (which also captures `±0.0`), positive/negative `int`,
`float`, `UUID`, `BBH` (raw bytes or hex string), nested tuple. -/
def encOne (nested : Bool) : Value → List Nat
  | .vnull => if nested then [tNULL, 0xFF] else [tNULL]
  | .vbool b => if b then [tTRUE] else [tFALSE]
  | .vbytes bs => tBYTES :: (esc bs ++ [0])
  | .vstr bs => tSTRING :: (esc bs ++ [0])
  | .vint n =>
    if n = 0 then [tINTZERO]
    else if 0 < n then tINTPOS :: beBytes 8 n.toNat
    else tINTNEG :: beBytes 8 (2 ^ 64 - 1 + n).toNat
  | .vfloat bits =>
    if floatIsZero bits then [tINTZERO] else tFLOAT :: floatMunge bits
  | .vuuid bs => tUUID :: bs
  | .vbbhBytes bs => tBBH :: bs
  | .vbbhHex cs => tBBH :: fromhexD cs
  | .vtuple vs => tNESTED :: (encList vs ++ [0])

/-- Concatenation of the nested-form encodings of the elements. -/
def encList : List Value → List Nat
  | [] => []
  | v :: vs => encOne true v ++ encList vs

end

/-- `bytes_write(items)`: concatenation of top-level encodings. -/
def bytes_write (items : List Value) : List Nat :=
  match items with
  | [] => []
  | v :: vs => encOne false v ++ bytes_write vs

mutual

/-- Is the value supported by the codec (encoding does not raise)?  Bytes are
in range, ints fit `struct.pack(">Q", ...)` after folding, the float pattern
is 64-bit, `UUID.bytes` has 16 bytes, a raw `BBH` payload has exactly 32
bytes, a hex `BBH` payload has exactly 64 hex-digit characters. -/
def validV : Value → Bool
  | .vnull => true
  | .vbool _ => true
  | .vbytes bs => bs.all (· < 256)
  | .vstr bs => bs.all (· < 256)
  | .vint n => -(2 ^ 64 - 1) ≤ n ∧ n ≤ 2 ^ 64 - 1
  | .vfloat bits => bits < 2 ^ 64
  | .vuuid bs => bs.length = 16 && bs.all (· < 256)
  | .vbbhBytes bs => bs.length = 32 && bs.all (· < 256)
  | .vbbhHex cs => cs.length = 64 && cs.all isHexDigit
  | .vtuple vs => validL vs

/-- All values of a list are supported. -/
def validL : List Value → Bool
  | [] => true
  | v :: vs => validV v && validL vs

end

mutual

/-- The value produced by decoding the encoding of a supported value: a raw
or hex `BBH` payload comes back as the lowercase hex string, a `±0.0` float
comes back as the integer 0; everything else is unchanged. -/
def canonV : Value → Value
  | .vfloat bits => if floatIsZero bits then .vint 0 else .vfloat bits
  | .vbbhBytes bs => .vbbhHex (hexOfBytes bs)
  | .vbbhHex cs => .vbbhHex (hexOfBytes (fromhexD cs))
  | .vtuple vs => .vtuple (canonL vs)
  | v => v

/-- `canonV` on each element. -/
def canonL : List Value → List Value
  | [] => []
  | v :: vs => canonV v :: canonL vs

end

/-! ## The successor operator `bytes_next` -/

/-- Helper walking the reversed byte string: skip trailing `0xFF` bytes,
increment the first other byte, drop what followed it. -/
def bytesNextGo : List Nat → Option (List Nat)
  | [] => none
  | b :: r => if b = 0xFF then bytesNextGo r else some (((b + 1) :: r).reverse)

/-- `bytes_next(data)`: `b"\x00"` for empty input, `None` when every byte is
`0xFF`, otherwise increment the rightmost byte `< 0xFF` and truncate. -/
def bytes_next (d : List Nat) : Option (List Nat) :=
  if d = [] then some [0] else bytesNextGo d.reverse

theorem bytesNextGo_eq_none_iff (l : List Nat) :
    bytesNextGo l = none ↔ ∀ b ∈ l, b = 0xFF := by
  induction l with
  | nil => simp [bytesNextGo]
  | cons b r ih =>
    by_cases hb : b = 0xFF
    · simp [bytesNextGo, hb, ih]
    · simp [bytesNextGo, hb]

theorem bytes_next_eq_none_iff (d : List Nat) (hne : d ≠ []) :
    bytes_next d = none ↔ ∀ b ∈ d, b = 0xFF := by
  unfold bytes_next
  rw [if_neg hne, bytesNextGo_eq_none_iff]
  constructor
  · intro h b hb; exact h b (List.mem_reverse.mpr hb)
  · intro h b hb; exact h b (List.mem_reverse.mp hb)

theorem bytesNextGo_eval (k : Nat) (c : Nat) (r : List Nat) (hc : c ≠ 0xFF) :
    bytesNextGo (List.replicate k 0xFF ++ c :: r) = some (r.reverse ++ [c + 1]) := by
  induction k with
  | zero =>
    simp only [List.replicate, List.nil_append, bytesNextGo, if_neg hc]
    simp
  | succ k ih => simpa [bytesNextGo] using ih

/-- Evaluation of `bytes_next` on the decomposition at the rightmost
non-`0xFF` byte. -/
theorem bytes_next_eval (u : List Nat) (c : Nat) (k : Nat) (hc : c ≠ 0xFF) :
    bytes_next (u ++ c :: List.replicate k 0xFF) = some (u ++ [c + 1]) := by
  have hne : u ++ c :: List.replicate k 0xFF ≠ [] := by simp
  unfold bytes_next
  rw [if_neg hne]
  have hrev : (u ++ c :: List.replicate k 0xFF).reverse
      = List.replicate k 0xFF ++ c :: u.reverse := by
    simp [List.reverse_append, List.reverse_replicate]
  rw [hrev, bytesNextGo_eval k c u.reverse hc]
  simp

/-- Every byte string that is not entirely `0xFF` splits at its rightmost
non-`0xFF` byte. -/
theorem exists_rightmost_non_ff (d : List Nat) (h : ¬ ∀ b ∈ d, b = 0xFF) :
    ∃ u c k, d = u ++ c :: List.replicate k 0xFF ∧ c ≠ 0xFF := by
  induction d with
  | nil => simp at h
  | cons b r ih =>
    by_cases hr : ∀ x ∈ r, x = 0xFF
    · have hb : b ≠ 0xFF := by
        intro hb
        apply h
        intro x hx
        rcases List.mem_cons.mp hx with h1 | h1
        · exact h1 ▸ hb
        · exact hr x h1
      refine ⟨[], b, r.length, ?_, hb⟩
      have : r = List.replicate r.length 0xFF := List.eq_replicate_iff.mpr ⟨rfl, hr⟩
      simpa using this
    · obtain ⟨u, c, k, hd, hc⟩ := ih hr
      exact ⟨b :: u, c, k, by simp [hd], hc⟩

/-- Characterization of strict lexicographic order: the two strings diverge
at a common position, or the first is a proper prefix of the second. -/
theorem lexLt_char (a b : List Nat) :
    lexCmp a b = .lt ↔
      (∃ p x y s t, x < y ∧ a = p ++ x :: s ∧ b = p ++ y :: t) ∨
      (∃ y t, b = a ++ y :: t) := by
  induction a generalizing b with
  | nil =>
    cases b with
    | nil =>
      simp only [lexCmp]
      constructor
      · intro h; cases h
      · rintro (⟨p, x, y, s, t, _, ha, _⟩ | ⟨y, t, hb⟩)
        · exact absurd ha (by simp)
        · exact absurd hb (by simp)
    | cons y t =>
      simp only [lexCmp]
      constructor
      · intro _; exact Or.inr ⟨y, t, by simp⟩
      · intro _; trivial
  | cons x s ih =>
    cases b with
    | nil =>
      simp only [lexCmp]
      constructor
      · intro h; cases h
      · rintro (⟨p, x', y', s', t', _, _, hb⟩ | ⟨y', t', hb⟩) <;>
          exact absurd hb (by simp)
    | cons y t =>
      rcases lt_trichotomy x y with hxy | hxy | hxy
      · have h1 : compare x y = .lt := compare_lt_iff_lt.mpr hxy
        simp only [lexCmp, h1]
        constructor
        · intro _; exact Or.inl ⟨[], x, y, s, t, hxy, rfl, rfl⟩
        · intro _; trivial
      · subst hxy
        have h1 : compare x x = .eq := compare_eq_iff_eq.mpr rfl
        simp only [lexCmp, h1, ih]
        constructor
        · rintro (⟨p, x', y', s', t', hlt, hs, ht⟩ | ⟨y', t', ht⟩)
          · exact Or.inl ⟨x :: p, x', y', s', t', hlt, by simp [hs], by simp [ht]⟩
          · exact Or.inr ⟨y', t', by simp [ht]⟩
        · rintro (⟨p, x', y', s', t', hlt, hs, ht⟩ | ⟨y', t', ht⟩)
          · cases p with
            | nil =>
              simp only [List.nil_append, List.cons.injEq] at hs ht
              rw [← hs.1, ← ht.1] at hlt
              exact absurd hlt (lt_irrefl x)
            | cons p0 p' =>
              simp only [List.cons_append, List.cons.injEq] at hs ht
              exact Or.inl ⟨p', x', y', s', t', hlt, hs.2, ht.2⟩
          · simp only [List.cons_append, List.cons.injEq] at ht
            exact Or.inr ⟨y', t', ht.2⟩
      · have h1 : compare x y = .gt := compare_gt_iff_gt.mpr hxy
        simp only [lexCmp, h1]
        constructor
        · intro h; cases h
        · rintro (⟨p, x', y', s', t', hlt, hs, ht⟩ | ⟨y', t', ht⟩)
          · cases p with
            | nil =>
              simp only [List.nil_append, List.cons.injEq] at hs ht
              rw [← hs.1, ← ht.1] at hlt
              exact absurd hlt (not_lt.mpr (le_of_lt hxy))
            | cons p0 p' =>
              simp only [List.cons_append, List.cons.injEq] at hs ht
              exact absurd (hs.1.trans ht.1.symm) (ne_of_gt hxy)
          · simp only [List.cons_append, List.cons.injEq] at ht
            exact absurd ht.1.symm (ne_of_gt hxy)

/-! ## The decoder `_bytes_read_one` / `bytes_read` -/

/-- The terminator scan of the Bytes/String branches of `_bytes_read_one`:
walk the data, stepping over escaped `0x00 0xFF` pairs, until an unescaped
`0x00` (or the end of the data); return the raw escaped content and the
remainder after the terminator. -/
def scanTerm : List Nat → List Nat × List Nat
  | [] => ([], [])
  | [b] => if b = 0 then ([], []) else ([b], [])
  | b :: c :: rest =>
    if b = 0 then
      if c = 0xFF then
        let p := scanTerm rest
        (0 :: 0xFF :: p.1, p.2)
      else ([], c :: rest)
    else
      let p := scanTerm (c :: rest)
      (b :: p.1, p.2)

mutual

/-- `_bytes_read_one(data, pos)` as a fuelled consumer of the byte list from
position `pos` on.  Mirrors the Python branch order; `none` models the
exceptions (unknown tag, short `struct.unpack`/UUID slice, empty data). -/
def readOne : Nat → List Nat → Option (Value × List Nat)
  | 0, _ => none
  | _ + 1, [] => none
  | fuel + 1, c :: rest =>
    if c = tNULL then some (.vnull, rest)
    else if c = tBYTES then
      let p := scanTerm rest
      some (.vbytes (unesc p.1), p.2)
    else if c = tSTRING then
      let p := scanTerm rest
      some (.vstr (unesc p.1), p.2)
    else if c = tINTZERO then some (.vint 0, rest)
    else if c = tINTPOS then
      if 8 ≤ rest.length then some (.vint (fromBE (rest.take 8)), rest.drop 8)
      else none
    else if c = tINTNEG then
      if 8 ≤ rest.length then
        some (.vint ((fromBE (rest.take 8) : Int) - (2 ^ 64 - 1)), rest.drop 8)
      else none
    else if c = tFLOAT then
      if 8 ≤ rest.length then
        some (.vfloat (fromBE (floatUnmunge (rest.take 8))), rest.drop 8)
      else none
    else if c = tTRUE then some (.vbool true, rest)
    else if c = tFALSE then some (.vbool false, rest)
    else if c = tUUID then
      if 16 ≤ rest.length then some (.vuuid (rest.take 16), rest.drop 16)
      else none
    else if c = tBBH then
      some (.vbbhHex (hexOfBytes (rest.take 32)), rest.drop 32)
    else if c = tNESTED then
      match readNestedLoop fuel rest with
      | some (vs, r) => some (.vtuple vs, r)
      | none => none
    else none

/-- The element loop of the Nested branch: a `0x00 0xFF` pair is a `None`
element, a bare `0x00` (or the end of the data) terminates the tuple,
anything else is one recursive element read. -/
def readNestedLoop : Nat → List Nat → Option (List Value × List Nat)
  | 0, _ => none
  | _ + 1, [] => some ([], [])
  | fuel + 1, c :: rest =>
    if c = 0 then
      match rest with
      | 0xFF :: rest2 =>
        match readNestedLoop fuel rest2 with
        | some (vs, r) => some (.vnull :: vs, r)
        | none => none
      | _ => some ([], rest)
    else
      match readOne fuel (c :: rest) with
      | some (v, r) =>
        match readNestedLoop fuel r with
        | some (vs, r2) => some (v :: vs, r2)
        | none => none
      | none => none

end

/-- The loop of `bytes_read`: read scalars until the data is exhausted. -/
def readAll : Nat → List Nat → Option (List Value)
  | 0, _ => none
  | _ + 1, [] => some []
  | fuel + 1, d =>
    match readOne (5 * d.length + 5) d with
    | some (v, r) =>
      match readAll fuel r with
      | some vs => some (v :: vs)
      | none => none
    | none => none

/-- `bytes_read(data)`: decode a whole key back to a tuple. -/
def bytes_read (d : List Nat) : Option (List Value) := readAll (d.length + 1) d

/-! ## Support lemmas for the codec proofs -/

/-- The tag byte the encoder emits for a value (taking the Python dispatch
into account: `±0.0` gets the IntZero tag). -/
def tagOf : Value → Nat
  | .vnull => tNULL
  | .vbool b => if b then tTRUE else tFALSE
  | .vbytes _ => tBYTES
  | .vstr _ => tSTRING
  | .vint n => if n = 0 then tINTZERO else if 0 < n then tINTPOS else tINTNEG
  | .vfloat bits => if floatIsZero bits then tINTZERO else tFLOAT
  | .vuuid _ => tUUID
  | .vbbhBytes _ => tBBH
  | .vbbhHex _ => tBBH
  | .vtuple _ => tNESTED

theorem tagOf_lt_twelve (v : Value) : tagOf v < 12 := by
  cases v <;>
    simp only [tagOf, tNULL, tTRUE, tFALSE, tBYTES, tSTRING, tINTZERO,
      tINTPOS, tINTNEG, tFLOAT, tUUID, tBBH, tNESTED] <;>
    (repeat' split) <;> omega

theorem enc_cons (nf : Bool) (v : Value) :
    ∃ t, encOne nf v = tagOf v :: t := by
  cases v with
  | vnull => cases nf <;> exact ⟨_, rfl⟩
  | vbool b => cases b <;> exact ⟨_, rfl⟩
  | vbytes bs => exact ⟨_, rfl⟩
  | vstr bs => exact ⟨_, rfl⟩
  | vint n =>
    by_cases h0 : n = 0
    · refine ⟨[], ?_⟩
      simp [encOne, tagOf, h0]
    · by_cases hpos : 0 < n
      · refine ⟨beBytes 8 n.toNat, ?_⟩
        simp [encOne, tagOf, h0, hpos]
      · refine ⟨beBytes 8 (2 ^ 64 - 1 + n).toNat, ?_⟩
        simp [encOne, tagOf, h0, hpos]
  | vfloat bits =>
    by_cases hz : floatIsZero bits
    · refine ⟨[], ?_⟩
      simp [encOne, tagOf, hz]
    · refine ⟨floatMunge bits, ?_⟩
      simp [encOne, tagOf, hz]
  | vuuid bs => exact ⟨_, rfl⟩
  | vbbhBytes bs => exact ⟨_, rfl⟩
  | vbbhHex cs => exact ⟨_, rfl⟩
  | vtuple vs => exact ⟨_, rfl⟩

theorem tagOf_eq_zero_iff (v : Value) : tagOf v = 0 ↔ v = .vnull := by
  cases v <;>
    simp only [tagOf, tNULL, tTRUE, tFALSE, tBYTES, tSTRING, tINTZERO,
      tINTPOS, tINTNEG, tFLOAT, tUUID, tBBH, tNESTED] <;>
    (repeat' split) <;> simp

/-- Only the encoding of `None` depends on the nesting flag. -/
theorem encOne_true_eq_false (v : Value) (h : v ≠ .vnull) :
    encOne true v = encOne false v := by
  cases v with
  | vnull => exact absurd rfl h
  | vbool b => rfl
  | vbytes bs => rfl
  | vstr bs => rfl
  | vint n => rfl
  | vfloat bits => rfl
  | vuuid bs => rfl
  | vbbhBytes bs => rfl
  | vbbhHex cs => rfl
  | vtuple vs => rfl

/-- A continuation is safe when it does not start with `0xFF`, so that it
cannot be mistaken for an escape or a nested `None`. -/
def safeRest (r : List Nat) : Prop := ∀ h t, r = h :: t → h < 0xFF

theorem safeRest_nil : safeRest [] := by intro h t hc; cases hc

theorem safeRest_cons {h : Nat} {t : List Nat} (hh : h < 0xFF) :
    safeRest (h :: t) := by
  intro h' t' hc
  cases hc
  exact hh

theorem safeRest_enc_cons (nf : Bool) (v : Value) (r : List Nat) :
    safeRest (encOne nf v ++ r) := by
  obtain ⟨t, ht⟩ := enc_cons nf v
  rw [ht]
  exact safeRest_cons (lt_trans (tagOf_lt_twelve v) (by norm_num))

theorem safeRest_encList (vs : List Value) (r : List Nat) (hr : safeRest r) :
    safeRest (encList vs ++ r) := by
  cases vs with
  | nil => simpa [encList]
  | cons v vs =>
    have : encList (v :: vs) ++ r = encOne true v ++ (encList vs ++ r) := by
      simp [encList]
    rw [this]
    exact safeRest_enc_cons true v _

theorem unesc_esc (bs : List Nat) : unesc (esc bs) = bs := by
  induction bs with
  | nil => rfl
  | cons b bs ih =>
    by_cases hb : b = 0
    · subst hb
      have h1 : esc (0 :: bs) = 0 :: 0xFF :: esc bs := by simp [esc, escByte]
      rw [h1, unesc]
      simp [ih]
    · have h1 : esc (b :: bs) = b :: esc bs := by simp [esc, escByte, hb]
      rw [h1]
      cases hs : esc bs with
      | nil =>
        have hbs : bs = [] := by
          cases bs with
          | nil => rfl
          | cons x xs =>
            exfalso
            have hne : esc (x :: xs) ≠ [] := by
              by_cases hx : x = 0 <;> simp [esc, escByte, hx]
            exact hne hs
        simp [hbs, unesc]
      | cons c cs =>
        rw [unesc, ← hs, ih]
        simp [hb]

theorem scanTerm_esc (bs : List Nat) (r : List Nat) (hr : safeRest r) :
    scanTerm (esc bs ++ 0 :: r) = (esc bs, r) := by
  induction bs with
  | nil =>
    cases r with
    | nil => simp [esc, scanTerm]
    | cons h t =>
      have hne : h ≠ 0xFF := ne_of_lt (hr h t rfl)
      show scanTerm (0 :: h :: t) = ([], h :: t)
      simp [scanTerm, hne]
  | cons b bs ih =>
    by_cases hb : b = 0
    · subst hb
      have h1 : esc (0 :: bs) ++ 0 :: r = 0 :: 0xFF :: (esc bs ++ 0 :: r) := by
        simp [esc, escByte]
      rw [h1]
      have h2 : esc (0 :: bs) = 0 :: 0xFF :: esc bs := by simp [esc, escByte]
      simp [scanTerm, ih, h2]
    · have h1 : esc (b :: bs) ++ 0 :: r = b :: (esc bs ++ 0 :: r) := by
        simp [esc, escByte, hb]
      rw [h1]
      obtain ⟨c, rest2, h2⟩ : ∃ c rest2, esc bs ++ 0 :: r = c :: rest2 := by
        cases h3 : esc bs ++ 0 :: r with
        | nil => exact absurd h3 (by simp)
        | cons c rest2 => exact ⟨c, rest2, rfl⟩
      have h4 : esc (b :: bs) = b :: esc bs := by simp [esc, escByte, hb]
      rw [h4, h2, scanTerm, ← h2, ih]
      simp [hb]

theorem beBytes_length (k v : Nat) : (beBytes k v).length = k := by
  induction k generalizing v with
  | zero => rfl
  | succ k ih => simp [beBytes, ih]

theorem beBytes_all_lt (k v : Nat) : ∀ b ∈ beBytes k v, b < 256 := by
  induction k generalizing v with
  | zero => simp [beBytes]
  | succ k ih =>
    intro b hb
    rcases List.mem_cons.mp hb with h | h
    · subst h; exact Nat.mod_lt _ (by norm_num)
    · exact ih v b h

theorem fromBE_aux (k v acc : Nat) :
    List.foldl (fun a b => a * 256 + b) acc (beBytes k v)
      = acc * 256 ^ k + v % 256 ^ k := by
  induction k generalizing acc with
  | zero => simp [beBytes, Nat.mod_one]
  | succ k ih =>
    show List.foldl _ (acc * 256 + v / 256 ^ k % 256) (beBytes k v) = _
    rw [ih]
    have h256 : (256 : Nat) ^ (k + 1) = 256 ^ k * 256 := by ring
    rw [h256, Nat.mod_mul]
    ring

theorem fromBE_beBytes (k v : Nat) (h : v < 256 ^ k) :
    fromBE (beBytes k v) = v := by
  unfold fromBE
  rw [fromBE_aux]
  simp [Nat.mod_eq_of_lt h]

theorem and128_iff : ∀ b < 256, ((b &&& 128 ≠ 0) ↔ 128 ≤ b) := by decide

theorem xor128_and (b : Nat) (hb : b < 256) (h : b &&& 128 = 0) :
    (b ^^^ 128) &&& 128 ≠ 0 := by
  revert h
  revert hb
  revert b
  decide

theorem xor255_and (b : Nat) (hb : b < 256) (h : b &&& 128 ≠ 0) :
    (b ^^^ 255) &&& 128 = 0 := by
  revert h
  revert hb
  revert b
  decide

theorem xor_twice (b m : Nat) : (b ^^^ m) ^^^ m = b := by
  rw [Nat.xor_assoc, Nat.xor_self, Nat.xor_zero]

theorem floatMunge_length (bits : Nat) : (floatMunge bits).length = 8 := by
  have h8 : (beBytes 8 bits).length = 8 := beBytes_length 8 bits
  cases hb : beBytes 8 bits with
  | nil => rw [hb] at h8; simp at h8
  | cons b0 rest =>
    rw [hb] at h8
    simp only [List.length_cons] at h8
    unfold floatMunge
    rw [hb]
    show (if b0 &&& 0x80 ≠ 0 then (b0 :: rest).map (fun b => b ^^^ 0xFF)
          else (b0 ^^^ 0x80) :: rest).length = 8
    split <;> simp <;> omega

theorem floatUnmunge_munge (bits : Nat) (_h : bits < 2 ^ 64) :
    floatUnmunge (floatMunge bits) = beBytes 8 bits := by
  cases hb : beBytes 8 bits with
  | nil =>
    have h8 : (beBytes 8 bits).length = 8 := beBytes_length 8 bits
    rw [hb] at h8; simp at h8
  | cons b0 rest =>
    have hb0 : b0 < 256 :=
      beBytes_all_lt 8 bits b0 (by rw [hb]; exact List.mem_cons_self _ _)
    have hm : floatMunge bits
        = if b0 &&& 0x80 ≠ 0 then (b0 :: rest).map (fun b => b ^^^ 0xFF)
          else (b0 ^^^ 0x80) :: rest := by
      unfold floatMunge
      rw [hb]
    by_cases hs : b0 &&& 0x80 ≠ 0
    · rw [hm, if_pos hs]
      have hz : (b0 ^^^ 0xFF) &&& 0x80 = 0 := xor255_and b0 hb0 hs
      have hmap : (b0 :: rest).map (fun b => b ^^^ 0xFF)
          = (b0 ^^^ 0xFF) :: rest.map (fun b => b ^^^ 0xFF) := rfl
      rw [hmap]
      show (if (b0 ^^^ 0xFF) &&& 0x80 ≠ 0
            then ((b0 ^^^ 0xFF) ^^^ 0x80) :: rest.map (fun b => b ^^^ 0xFF)
            else ((b0 ^^^ 0xFF) :: rest.map (fun b => b ^^^ 0xFF)).map
              (fun b => b ^^^ 0xFF)) = b0 :: rest
      rw [if_neg (by simp [hz])]
      simp only [List.map_cons, List.map_map]
      have hfun : ((fun b => b ^^^ 0xFF) ∘ fun b => b ^^^ 0xFF) = id :=
        funext (fun x => xor_twice x 0xFF)
      rw [xor_twice, hfun, List.map_id]
    · rw [hm, if_neg hs]
      show (if (b0 ^^^ 0x80) &&& 0x80 ≠ 0 then ((b0 ^^^ 0x80) ^^^ 0x80) :: rest
            else ((b0 ^^^ 0x80) :: rest).map (fun b => b ^^^ 0xFF)) = b0 :: rest
      rw [if_pos (xor128_and b0 hb0 (not_not.mp hs)), xor_twice]

theorem hexVal_lt (c : Nat) : hexVal c < 16 := by
  unfold hexVal
  repeat' split
  all_goals omega

theorem fromhexD_length (cs : List Nat) : (fromhexD cs).length = cs.length / 2 := by
  induction cs using fromhexD.induct with
  | case1 c1 c2 rest ih => simp [fromhexD, ih]; omega
  | case2 cs h => cases cs with
    | nil => rfl
    | cons c t =>
      cases t with
      | nil => simp [fromhexD]
      | cons c2 t2 => exact absurd rfl (h c c2 t2)

theorem fromhexD_all_lt (cs : List Nat) : ∀ b ∈ fromhexD cs, b < 256 := by
  induction cs using fromhexD.induct with
  | case1 c1 c2 rest ih =>
    intro b hb
    rcases List.mem_cons.mp hb with h | h
    · have h1 := hexVal_lt c1
      have h2 := hexVal_lt c2
      omega
    · exact ih b h
  | case2 cs h =>
    intro b hb
    cases cs with
    | nil => simp [fromhexD] at hb
    | cons c t =>
      cases t with
      | nil => simp [fromhexD] at hb
      | cons c2 t2 => exact absurd rfl (h c c2 t2)

mutual

/-- Minimum fuel with which the fuelled decoder fully processes the
encoding of a value. -/
def fuelV : Value → Nat
  | .vtuple vs => 1 + fuelL vs
  | _ => 1

/-- Minimum fuel for the nested element loop over a list of values. -/
def fuelL : List Value → Nat
  | [] => 1
  | v :: vs => 1 + fuelV v + fuelL vs

end

theorem fuelV_pos (v : Value) : 1 ≤ fuelV v := by
  cases v <;> simp [fuelV]

theorem fuelL_pos (vs : List Value) : 1 ≤ fuelL vs := by
  cases vs with
  | nil => simp [fuelL]
  | cons v vs =>
    simp [fuelL]
    omega

theorem readOne_intpos_eval (fuel : Nat) (X : List Nat) (h8 : 8 ≤ X.length) :
    readOne (fuel + 1) (tINTPOS :: X)
      = some (.vint (fromBE (X.take 8)), X.drop 8) := by
  simp [readOne, tNULL, tBYTES, tSTRING, tINTZERO, tINTPOS, h8]

theorem readOne_intneg_eval (fuel : Nat) (X : List Nat) (h8 : 8 ≤ X.length) :
    readOne (fuel + 1) (tINTNEG :: X)
      = some (.vint ((fromBE (X.take 8) : Int) - (2 ^ 64 - 1)), X.drop 8) := by
  simp [readOne, tNULL, tBYTES, tSTRING, tINTZERO, tINTPOS, tINTNEG, h8]

theorem readOne_float_eval (fuel : Nat) (X : List Nat) (h8 : 8 ≤ X.length) :
    readOne (fuel + 1) (tFLOAT :: X)
      = some (.vfloat (fromBE (floatUnmunge (X.take 8))), X.drop 8) := by
  simp [readOne, tNULL, tBYTES, tSTRING, tINTZERO, tINTPOS, tINTNEG, tFLOAT, h8]

theorem readOne_uuid_eval (fuel : Nat) (X : List Nat) (h16 : 16 ≤ X.length) :
    readOne (fuel + 1) (tUUID :: X)
      = some (.vuuid (X.take 16), X.drop 16) := by
  simp [readOne, tNULL, tBYTES, tSTRING, tINTZERO, tINTPOS, tINTNEG, tFLOAT,
    tTRUE, tFALSE, tUUID, h16]

theorem readOne_bbh_eval (fuel : Nat) (X : List Nat) :
    readOne (fuel + 1) (tBBH :: X)
      = some (.vbbhHex (hexOfBytes (X.take 32)), X.drop 32) := by
  simp [readOne, tNULL, tBYTES, tSTRING, tINTZERO, tINTPOS, tINTNEG, tFLOAT,
    tTRUE, tFALSE, tUUID, tBBH]

theorem readNestedLoop_cons_ne (fuel : Nat) (c : Nat) (rest : List Nat) (hc : c ≠ 0) :
    readNestedLoop (fuel + 1) (c :: rest)
      = match readOne fuel (c :: rest) with
        | some (v, r) =>
          match readNestedLoop fuel r with
          | some (vs, r2) => some (v :: vs, r2)
          | none => none
        | none => none := by
  cases c with
  | zero => exact absurd rfl hc
  | succ m => rfl

theorem readNestedLoop_null (fuel : Nat) (rest2 : List Nat) :
    readNestedLoop (fuel + 1) (0 :: 0xFF :: rest2)
      = match readNestedLoop fuel rest2 with
        | some (vs, r) => some (.vnull :: vs, r)
        | none => none := rfl

theorem readNestedLoop_term (fuel : Nat) (h : Nat) (t : List Nat) (hne : h ≠ 0xFF) :
    readNestedLoop (fuel + 1) (0 :: h :: t) = some ([], h :: t) := by
  rw [readNestedLoop]
  · simp
  · intro rest2 heq
    injection heq with h1 h2
    exact hne h1

/-- Round-trip of the fuelled decoder against the encoder: decoding the
encoding of a supported value (followed by a safe continuation) succeeds and
yields its canonical form, consuming exactly the encoding. -/
theorem readRT (fuel : Nat) :
    (∀ v rest, validV v = true → safeRest rest → fuelV v ≤ fuel →
      readOne fuel (encOne false v ++ rest) = some (canonV v, rest)) ∧
    (∀ vs rest, validL vs = true → safeRest rest → fuelL vs ≤ fuel →
      readNestedLoop fuel (encList vs ++ 0 :: rest) = some (canonL vs, rest)) := by
  induction fuel with
  | zero =>
    constructor
    · intro v rest _ _ hf
      exact absurd hf (by have := fuelV_pos v; omega)
    · intro vs rest _ _ hf
      exact absurd hf (by have := fuelL_pos vs; omega)
  | succ fuel ih =>
    constructor
    · intro v rest hv hr hf
      cases v with
      | vnull =>
        simp [encOne, readOne, tNULL, canonV]
      | vbool b =>
        cases b <;>
          simp [encOne, readOne, tNULL, tBYTES, tSTRING, tINTZERO, tINTPOS,
            tINTNEG, tFLOAT, tTRUE, tFALSE, tUUID, tBBH, tNESTED, canonV]
      | vbytes bs =>
        have hdata : encOne false (.vbytes bs) ++ rest
            = tBYTES :: (esc bs ++ 0 :: rest) := by simp [encOne]
        rw [hdata]
        simp [readOne, tNULL, tBYTES, scanTerm_esc bs rest hr, unesc_esc,
          canonV]
      | vstr bs =>
        have hdata : encOne false (.vstr bs) ++ rest
            = tSTRING :: (esc bs ++ 0 :: rest) := by simp [encOne]
        rw [hdata]
        simp [readOne, tNULL, tBYTES, tSTRING, scanTerm_esc bs rest hr,
          unesc_esc, canonV]
      | vint n =>
        by_cases h0 : n = 0
        · subst h0
          simp [encOne, readOne, tNULL, tBYTES, tSTRING, tINTZERO, canonV]
        · by_cases hpos : 0 < n
          · have hdata : encOne false (.vint n) ++ rest
                = tINTPOS :: (beBytes 8 n.toNat ++ rest) := by
              simp [encOne, h0, hpos]
            have hbound : n.toNat < 256 ^ 8 := by
              have hvn : n ≤ 2 ^ 64 - 1 := by
                have := hv
                simp [validV] at this
                omega
              have : (256 : Nat) ^ 8 = 2 ^ 64 := by norm_num
              omega
            rw [hdata, readOne_intpos_eval fuel _ (by simp [beBytes_length])]
            rw [List.take_left' (beBytes_length 8 n.toNat),
              List.drop_left' (beBytes_length 8 n.toNat),
              fromBE_beBytes 8 n.toNat hbound]
            have hcast : ((n.toNat : Int)) = n := Int.toNat_of_nonneg (le_of_lt hpos)
            simp [canonV, hcast]
          · have hneg : n < 0 := by omega
            have hdata : encOne false (.vint n) ++ rest
                = tINTNEG :: (beBytes 8 (2 ^ 64 - 1 + n).toNat ++ rest) := by
              simp [encOne, h0, hpos]
            have hge : (0 : Int) ≤ 2 ^ 64 - 1 + n := by
              have := hv
              simp [validV] at this
              omega
            have hlt : (2 ^ 64 - 1 + n).toNat < 256 ^ 8 := by
              have : (256 : Nat) ^ 8 = 2 ^ 64 := by norm_num
              omega
            rw [hdata, readOne_intneg_eval fuel _ (by simp [beBytes_length])]
            rw [List.take_left' (beBytes_length 8 _),
              List.drop_left' (beBytes_length 8 _),
              fromBE_beBytes 8 _ hlt]
            have hcast : (((2 ^ 64 - 1 + n).toNat : Int)) = 2 ^ 64 - 1 + n :=
              Int.toNat_of_nonneg hge
            rw [hcast]
            have hsub : (2 : Int) ^ 64 - 1 + n - (2 ^ 64 - 1) = n := by ring
            rw [hsub]
            simp [canonV]
      | vfloat bits =>
        by_cases hz : floatIsZero bits
        · have hdata : encOne false (.vfloat bits) ++ rest = tINTZERO :: rest := by
            simp [encOne, hz]
          rw [hdata]
          simp [readOne, tNULL, tBYTES, tSTRING, tINTZERO, canonV, hz]
        · have hdata : encOne false (.vfloat bits) ++ rest
              = tFLOAT :: (floatMunge bits ++ rest) := by simp [encOne, hz]
          have hbits : bits < 2 ^ 64 := by simpa [validV] using hv
          rw [hdata, readOne_float_eval fuel _ (by simp [floatMunge_length])]
          rw [List.take_left' (floatMunge_length bits),
            List.drop_left' (floatMunge_length bits),
            floatUnmunge_munge bits hbits,
            fromBE_beBytes 8 bits (by norm_num at hbits ⊢; omega)]
          simp [canonV, hz]
      | vuuid bs =>
        have hlen16 : bs.length = 16 := by
          have := hv
          simp [validV] at this
          exact this.1
        have hdata : encOne false (.vuuid bs) ++ rest = tUUID :: (bs ++ rest) := by
          simp [encOne]
        rw [hdata, readOne_uuid_eval fuel _ (by simp [hlen16])]
        rw [List.take_left' hlen16, List.drop_left' hlen16]
        simp [canonV]
      | vbbhBytes bs =>
        have hlen32 : bs.length = 32 := by
          have := hv
          simp [validV] at this
          exact this.1
        have hdata : encOne false (.vbbhBytes bs) ++ rest = tBBH :: (bs ++ rest) := by
          simp [encOne]
        rw [hdata, readOne_bbh_eval fuel _]
        rw [List.take_left' hlen32, List.drop_left' hlen32]
        simp [canonV]
      | vbbhHex cs =>
        have hlen32 : (fromhexD cs).length = 32 := by
          have h64 : cs.length = 64 := by
            have := hv
            simp [validV] at this
            exact this.1
          rw [fromhexD_length, h64]
        have hdata : encOne false (.vbbhHex cs) ++ rest
            = tBBH :: (fromhexD cs ++ rest) := by simp [encOne]
        rw [hdata, readOne_bbh_eval fuel _]
        rw [List.take_left' hlen32, List.drop_left' hlen32]
        simp [canonV]
      | vtuple vs =>
        have hdata : encOne false (.vtuple vs) ++ rest
            = tNESTED :: (encList vs ++ 0 :: rest) := by simp [encOne]
        rw [hdata]
        have hvl : validL vs = true := by simpa [validV] using hv
        have hfl : fuelL vs ≤ fuel := by
          have : fuelV (.vtuple vs) = 1 + fuelL vs := by simp [fuelV]
          omega
        have hloop := ih.2 vs rest hvl hr hfl
        simp [readOne, tNULL, tBYTES, tSTRING, tINTZERO, tINTPOS, tINTNEG,
          tFLOAT, tTRUE, tFALSE, tUUID, tBBH, tNESTED, hloop, canonV]
    · intro vs rest hv hr hf
      cases vs with
      | nil =>
        cases rest with
        | nil => simp [encList, readNestedLoop, canonL]
        | cons h t =>
          have hne : h ≠ 0xFF := ne_of_lt (hr h t rfl)
          have hd : encList [] ++ 0 :: h :: t = 0 :: h :: t := by simp [encList]
          rw [hd, readNestedLoop_term fuel h t hne]
          simp [canonL]
      | cons v vs' =>
        have hvv : validV v = true ∧ validL vs' = true := by
          have := hv
          simp [validL] at this
          exact this
        have hfuel : fuelV v ≤ fuel ∧ fuelL vs' ≤ fuel := by
          have : fuelL (v :: vs') = 1 + fuelV v + fuelL vs' := by simp [fuelL]
          have h1 := fuelV_pos v
          have h2 := fuelL_pos vs'
          omega
        by_cases hnull : v = .vnull
        · subst hnull
          have hd : encList (.vnull :: vs') ++ 0 :: rest
              = 0 :: 0xFF :: (encList vs' ++ 0 :: rest) := by
            simp [encList, encOne, tNULL]
          rw [hd, readNestedLoop_null fuel _]
          simp only [ih.2 vs' rest hvv.2 hr hfuel.2]
          simp [canonL, canonV]
        · obtain ⟨tl, htl⟩ := enc_cons true v
          have htag : tagOf v ≠ 0 := by
            intro h0
            exact hnull ((tagOf_eq_zero_iff v).mp h0)
          have hd : encList (v :: vs') ++ 0 :: rest
              = tagOf v :: (tl ++ (encList vs' ++ 0 :: rest)) := by
            simp [encList, htl]
          rw [hd, readNestedLoop_cons_ne fuel _ _ htag]
          have hread : readOne fuel (tagOf v :: (tl ++ (encList vs' ++ 0 :: rest)))
              = some (canonV v, encList vs' ++ 0 :: rest) := by
            have hsafe : safeRest (encList vs' ++ 0 :: rest) := by
              apply safeRest_encList
              exact safeRest_cons (by norm_num)
            have := ih.1 v (encList vs' ++ 0 :: rest) hvv.1 hsafe hfuel.1
            rw [← encOne_true_eq_false v hnull, htl] at this
            simpa using this
          simp only [hread, ih.2 vs' rest hvv.2 hr hfuel.2]
          simp [canonL]

theorem enc_length_pos (nf : Bool) (v : Value) : 1 ≤ (encOne nf v).length := by
  obtain ⟨t, ht⟩ := enc_cons nf v
  simp [ht]

theorem fuel_le_enc :
    ∀ v, ∀ nf : Bool, fuelV v + 2 ≤ 5 * (encOne nf v).length := by
  refine Value.indV (fun v => ∀ nf : Bool, fuelV v + 2 ≤ 5 * (encOne nf v).length)
    (fun vs => fuelL vs ≤ 5 * (encList vs).length + 1)
    ?_ ?_ ?_ ?_ ?_ ?_ ?_ ?_ ?_ ?_ ?_ ?_
  · intro nf; have := enc_length_pos nf .vnull; simp [fuelV]; omega
  · intro b nf; have := enc_length_pos nf (.vbool b); simp [fuelV]; omega
  · intro bs nf; have := enc_length_pos nf (.vbytes bs); simp [fuelV]; omega
  · intro bs nf; have := enc_length_pos nf (.vstr bs); simp [fuelV]; omega
  · intro n nf; have := enc_length_pos nf (.vint n); simp [fuelV]; omega
  · intro bits nf; have := enc_length_pos nf (.vfloat bits); simp [fuelV]; omega
  · intro bs nf; have := enc_length_pos nf (.vuuid bs); simp [fuelV]; omega
  · intro bs nf; have := enc_length_pos nf (.vbbhBytes bs); simp [fuelV]; omega
  · intro cs nf; have := enc_length_pos nf (.vbbhHex cs); simp [fuelV]; omega
  · intro vs ih nf
    have hlen : (encOne nf (.vtuple vs)).length = (encList vs).length + 2 := by
      simp [encOne]
    have hfv : fuelV (.vtuple vs) = 1 + fuelL vs := by simp [fuelV]
    omega
  · simp [fuelL, encList]
  · intro v vs ihv ihl
    have hlen : (encList (v :: vs)).length
        = (encOne true v).length + (encList vs).length := by simp [encList]
    have hfl : fuelL (v :: vs) = 1 + fuelV v + fuelL vs := by simp [fuelL]
    have := ihv true
    omega

theorem fuelL_le_enc (vs : List Value) :
    fuelL vs ≤ 5 * (encList vs).length + 1 := by
  refine Value.indL (fun v => ∀ nf : Bool, fuelV v + 2 ≤ 5 * (encOne nf v).length)
    (fun vs => fuelL vs ≤ 5 * (encList vs).length + 1)
    ?_ ?_ ?_ ?_ ?_ ?_ ?_ ?_ ?_ ?_ ?_ ?_ vs
  · intro nf; have := enc_length_pos nf .vnull; simp [fuelV]; omega
  · intro b nf; have := enc_length_pos nf (.vbool b); simp [fuelV]; omega
  · intro bs nf; have := enc_length_pos nf (.vbytes bs); simp [fuelV]; omega
  · intro bs nf; have := enc_length_pos nf (.vstr bs); simp [fuelV]; omega
  · intro n nf; have := enc_length_pos nf (.vint n); simp [fuelV]; omega
  · intro bits nf; have := enc_length_pos nf (.vfloat bits); simp [fuelV]; omega
  · intro bs nf; have := enc_length_pos nf (.vuuid bs); simp [fuelV]; omega
  · intro bs nf; have := enc_length_pos nf (.vbbhBytes bs); simp [fuelV]; omega
  · intro cs nf; have := enc_length_pos nf (.vbbhHex cs); simp [fuelV]; omega
  · intro vs' ih nf
    have hlen : (encOne nf (.vtuple vs')).length = (encList vs').length + 2 := by
      simp [encOne]
    have hfv : fuelV (.vtuple vs') = 1 + fuelL vs' := by simp [fuelV]
    omega
  · simp [fuelL, encList]
  · intro v vs' ihv ihl
    have hlen : (encList (v :: vs')).length
        = (encOne true v).length + (encList vs').length := by simp [encList]
    have hfl : fuelL (v :: vs') = 1 + fuelV v + fuelL vs' := by simp [fuelL]
    have := ihv true
    omega

theorem safeRest_bytes_write (vs : List Value) : safeRest (bytes_write vs) := by
  cases vs with
  | nil => exact safeRest_nil
  | cons v vs =>
    have hd : bytes_write (v :: vs) = encOne false v ++ bytes_write vs := rfl
    rw [hd]
    exact safeRest_enc_cons false v _

theorem readAll_cons (fuel : Nat) (c : Nat) (t : List Nat) :
    readAll (fuel + 1) (c :: t)
      = match readOne (5 * (c :: t).length + 5) (c :: t) with
        | some (v, r) =>
          match readAll fuel r with
          | some vs => some (v :: vs)
          | none => none
        | none => none := rfl

theorem readAll_rt (vs : List Value) :
    ∀ fuel, validL vs = true → (bytes_write vs).length < fuel →
      readAll fuel (bytes_write vs) = some (canonL vs) := by
  induction vs with
  | nil =>
    intro fuel _ hlen
    cases fuel with
    | zero => simp at hlen
    | succ f => simp [bytes_write, readAll, canonL]
  | cons v vs ih =>
    intro fuel hv hlen
    have hvv : validV v = true ∧ validL vs = true := by
      have := hv
      simp [validL] at this
      exact this
    obtain ⟨tl, htl⟩ := enc_cons false v
    have hd : bytes_write (v :: vs) = encOne false v ++ bytes_write vs := rfl
    cases fuel with
    | zero => rw [hd] at hlen; simp at hlen
    | succ f =>
      rw [hd] at hlen ⊢
      rw [htl]
      have hcons : tagOf v :: tl ++ bytes_write vs
          = tagOf v :: (tl ++ bytes_write vs) := by simp
      rw [hcons, readAll_cons f _ _]
      have hfuel : fuelV v ≤ 5 * (tagOf v :: (tl ++ bytes_write vs)).length + 5 := by
        have h1 := fuel_le_enc v false
        rw [htl] at h1
        simp only [List.length_cons, List.length_append] at h1 ⊢
        omega
      have hread : readOne (5 * (tagOf v :: (tl ++ bytes_write vs)).length + 5)
          (tagOf v :: (tl ++ bytes_write vs)) = some (canonV v, bytes_write vs) := by
        have := (readRT (5 * (tagOf v :: (tl ++ bytes_write vs)).length + 5)).1 v
          (bytes_write vs) hvv.1 (safeRest_bytes_write vs) hfuel
        rw [htl] at this
        simpa using this
      simp only [hread]
      have hlen2 : (bytes_write vs).length < f := by
        rw [htl] at hlen
        simp only [List.length_append, List.length_cons] at hlen
        omega
      rw [ih f hvv.2 hlen2]
      simp [canonL]

/-- `bytes_read(bytes_write(t))` yields the canonical form of `t` for every
supported tuple `t`. -/
theorem bytes_read_write (vs : List Value) (hv : validL vs = true) :
    bytes_read (bytes_write vs) = some (canonL vs) :=
  readAll_rt vs ((bytes_write vs).length + 1) hv (by omega)

/-! ## The tuple order of the specification: tag byte first, then the
per-type rules of section 4.1 -/

mutual

/-- Component comparison per the spec: first by the codec's tag byte, then
by the per-type rule (IntZero-tagged values are all zero and compare equal;
positive and negative ints numerically; floats by their munged byte image;
Bytes/String/UUID/ContentHash by their raw payload bytes, a hex ContentHash
being decoded first; nested tuples recursively). -/
def vcmp (v w : Value) : Ordering :=
  match compare (tagOf v) (tagOf w) with
  | .lt => .lt
  | .gt => .gt
  | .eq =>
    match v, w with
    | .vbytes a, .vbytes b => lexCmp a b
    | .vstr a, .vstr b => lexCmp a b
    | .vint a, .vint b => compare a b
    | .vfloat a, .vfloat b =>
      if floatIsZero a then .eq else lexCmp (floatMunge a) (floatMunge b)
    | .vuuid a, .vuuid b => lexCmp a b
    | .vbbhBytes a, .vbbhBytes b => lexCmp a b
    | .vbbhBytes a, .vbbhHex b => lexCmp a (fromhexD b)
    | .vbbhHex a, .vbbhBytes b => lexCmp (fromhexD a) b
    | .vbbhHex a, .vbbhHex b => lexCmp (fromhexD a) (fromhexD b)
    | .vtuple a, .vtuple b => tcmp a b
    | _, _ => .eq

/-- Component-wise tuple comparison; a shorter tuple that is a prefix of a
longer one sorts first. -/
def tcmp (a b : List Value) : Ordering :=
  match a, b with
  | [], [] => .eq
  | [], _ :: _ => .lt
  | _ :: _, [] => .gt
  | v :: vs, w :: ws =>
    match vcmp v w with
    | .eq => tcmp vs ws
    | o => o

end

/-! ## Strong byte dominance: the key invariant for order preservation -/

/-- `StrongLt a b`: either the strings diverge at a common position, or `a`
is a proper prefix of `b` whose next byte is `0xFF`.  In either case
`a ++ r1 < b ++ r2` byte-wise for every continuation `r1` that does not
start with `0xFF`. -/
def StrongLt (a b : List Nat) : Prop :=
  (∃ p x y s t, x < y ∧ a = p ++ x :: s ∧ b = p ++ y :: t) ∨
  (∃ s, b = a ++ 0xFF :: s)

theorem strongLt_lex {a b : List Nat} (hab : StrongLt a b)
    (r1 r2 : List Nat) (hr : safeRest r1) :
    lexCmp (a ++ r1) (b ++ r2) = .lt := by
  rcases hab with ⟨p, x, y, s, t, hxy, ha, hb⟩ | ⟨s, hb⟩
  · subst ha; subst hb
    rw [List.append_assoc, List.append_assoc, List.cons_append, List.cons_append,
      lexCmp_append_cancel]
    simp [lexCmp, compare_lt_iff_lt.mpr hxy]
  · subst hb
    rw [List.append_assoc, List.cons_append, lexCmp_append_cancel]
    cases r1 with
    | nil => rfl
    | cons h tl =>
      have hh : h < 0xFF := hr h tl rfl
      simp [lexCmp, compare_lt_iff_lt.mpr hh]

theorem strongLt_cancel (c : List Nat) {a b : List Nat} (hab : StrongLt a b) :
    StrongLt (c ++ a) (c ++ b) := by
  rcases hab with ⟨p, x, y, s, t, hxy, ha, hb⟩ | ⟨s, hb⟩
  · exact Or.inl ⟨c ++ p, x, y, s, t, hxy, by simp [ha], by simp [hb]⟩
  · exact Or.inr ⟨s, by simp [hb]⟩

theorem strongLt_head {x y : Nat} (hxy : x < y) (s t : List Nat) :
    StrongLt (x :: s) (y :: t) :=
  Or.inl ⟨[], x, y, s, t, hxy, rfl, rfl⟩

theorem strongLt_append {a b : List Nat} (hab : StrongLt a b)
    (r1 r2 : List Nat) (hr : safeRest r1) :
    StrongLt (a ++ r1) (b ++ r2) := by
  rcases hab with ⟨p, x, y, s, t, hxy, ha, hb⟩ | ⟨s, hb⟩
  · exact Or.inl ⟨p, x, y, s ++ r1, t ++ r2, hxy, by simp [ha], by simp [hb]⟩
  · subst hb
    cases r1 with
    | nil => exact Or.inr ⟨s ++ r2, by simp⟩
    | cons h tl =>
      have hh : h < 0xFF := hr h tl rfl
      exact Or.inl ⟨a, h, 0xFF, tl, s ++ r2, hh, rfl, by simp⟩

theorem strongLt_of_lt_same_len {a b : List Nat} (hlen : a.length = b.length)
    (hlt : lexCmp a b = .lt) : StrongLt a b := by
  rcases (lexLt_char a b).mp hlt with h | ⟨y, t, hb⟩
  · exact Or.inl h
  · exfalso
    have : b.length = a.length + (t.length + 1) := by simp [hb]
    omega

theorem esc_strongLt {u v : List Nat} (huv : lexCmp u v = .lt) :
    StrongLt (esc u ++ [0]) (esc v ++ [0]) := by
  induction u generalizing v with
  | nil =>
    cases v with
    | nil => simp [lexCmp] at huv
    | cons y v' =>
      by_cases hy : y = 0
      · subst hy
        refine Or.inr ⟨esc v' ++ [0], ?_⟩
        simp [esc, escByte]
      · refine Or.inl ⟨[], 0, y, [], esc v' ++ [0], ?_, ?_, ?_⟩
        · omega
        · simp [esc]
        · simp [esc, escByte, hy]
  | cons x u' ih =>
    cases v with
    | nil => simp [lexCmp] at huv
    | cons y v' =>
      have hstep : esc (x :: u') ++ [0] = escByte x ++ (esc u' ++ [0]) := by
        simp [esc]
      have hstep2 : esc (y :: v') ++ [0] = escByte y ++ (esc v' ++ [0]) := by
        simp [esc]
      rw [hstep, hstep2]
      rcases hcase : compare x y with hc | hc | hc
      · have hxy : x < y := compare_lt_iff_lt.mp hcase
        by_cases hx : x = 0
        · subst hx
          have hy : y ≠ 0 := by omega
          refine Or.inl ⟨[], 0, y, 0xFF :: (esc u' ++ [0]), esc v' ++ [0],
            hxy, ?_, ?_⟩
          · simp [escByte]
          · simp [escByte, hy]
        · refine Or.inl ⟨[], x, y, esc u' ++ [0], esc v' ++ [0], hxy, ?_, ?_⟩
          · simp [escByte, hx]
          · have hy : y ≠ 0 := by omega
            simp [escByte, hy]
      · have hxy : x = y := compare_eq_iff_eq.mp hcase
        subst hxy
        have huv' : lexCmp u' v' = .lt := by
          simpa [lexCmp, hcase] using huv
        exact strongLt_cancel (escByte x) (ih huv')
      · simp [lexCmp, hcase] at huv

theorem beBytes_lt_aux (k x y : Nat) (hdiv : x / 256 ^ k = y / 256 ^ k)
    (hxy : x < y) : lexCmp (beBytes k x) (beBytes k y) = .lt := by
  induction k with
  | zero => simp at hdiv; omega
  | succ k ih =>
    have hdd : x / 256 ^ k / 256 = y / 256 ^ k / 256 := by
      rw [Nat.div_div_eq_div_mul, Nat.div_div_eq_div_mul, ← pow_succ]
      exact hdiv
    have hle : x / 256 ^ k ≤ y / 256 ^ k := Nat.div_le_div_right (le_of_lt hxy)
    rcases Nat.lt_or_ge (x / 256 ^ k) (y / 256 ^ k) with hlt | hge
    · have hmod : x / 256 ^ k % 256 < y / 256 ^ k % 256 := by omega
      simp [beBytes, lexCmp, compare_lt_iff_lt.mpr hmod]
    · have heq : x / 256 ^ k = y / 256 ^ k := by omega
      have hmod : x / 256 ^ k % 256 = y / 256 ^ k % 256 := by rw [heq]
      simp [beBytes, lexCmp, hmod, compare_eq_iff_eq.mpr rfl, ih heq]

theorem beBytes_strongLt (k x y : Nat) (hxy : x < y) (hy : y < 256 ^ k) :
    StrongLt (beBytes k x) (beBytes k y) := by
  apply strongLt_of_lt_same_len (by simp [beBytes_length])
  apply beBytes_lt_aux
  · have hx : x < 256 ^ k := lt_trans hxy hy
    rw [Nat.div_eq_of_lt hx, Nat.div_eq_of_lt hy]
  · exact hxy

theorem vcmp_tag_lt (v w : Value) (h : tagOf v < tagOf w) : vcmp v w = .lt := by
  cases v <;> cases w <;> simp [vcmp, compare_lt_iff_lt.mpr h]

theorem vcmp_tag_gt (v w : Value) (h : tagOf w < tagOf v) : vcmp v w = .gt := by
  cases v <;> cases w <;> simp [vcmp, compare_gt_iff_gt.mpr h]

theorem vcmp_bytes (a b : List Nat) :
    vcmp (.vbytes a) (.vbytes b) = lexCmp a b := by
  have hc : compare (tagOf (Value.vbytes a)) (tagOf (Value.vbytes b)) = .eq :=
    compare_eq_iff_eq.mpr rfl
  simp only [vcmp]
  rw [hc]

theorem vcmp_str (a b : List Nat) :
    vcmp (.vstr a) (.vstr b) = lexCmp a b := by
  have hc : compare (tagOf (Value.vstr a)) (tagOf (Value.vstr b)) = .eq :=
    compare_eq_iff_eq.mpr rfl
  simp only [vcmp]
  rw [hc]

theorem vcmp_int (n m : Int) (h : tagOf (.vint n) = tagOf (.vint m)) :
    vcmp (.vint n) (.vint m) = compare n m := by
  have hc : compare (tagOf (Value.vint n)) (tagOf (Value.vint m)) = .eq :=
    compare_eq_iff_eq.mpr h
  simp only [vcmp]
  rw [hc]

theorem vcmp_float (x y : Nat) (h : tagOf (.vfloat x) = tagOf (.vfloat y)) :
    vcmp (.vfloat x) (.vfloat y)
      = if floatIsZero x then .eq else lexCmp (floatMunge x) (floatMunge y) := by
  have hc : compare (tagOf (Value.vfloat x)) (tagOf (Value.vfloat y)) = .eq :=
    compare_eq_iff_eq.mpr h
  simp only [vcmp]
  rw [hc]

theorem vcmp_uuid (a b : List Nat) :
    vcmp (.vuuid a) (.vuuid b) = lexCmp a b := by
  have hc : compare (tagOf (Value.vuuid a)) (tagOf (Value.vuuid b)) = .eq :=
    compare_eq_iff_eq.mpr rfl
  simp only [vcmp]
  rw [hc]

theorem vcmp_bbhBB (a b : List Nat) :
    vcmp (.vbbhBytes a) (.vbbhBytes b) = lexCmp a b := by
  have hc : compare (tagOf (Value.vbbhBytes a)) (tagOf (Value.vbbhBytes b)) = .eq :=
    compare_eq_iff_eq.mpr rfl
  simp only [vcmp]
  rw [hc]

theorem vcmp_bbhBH (a b : List Nat) :
    vcmp (.vbbhBytes a) (.vbbhHex b) = lexCmp a (fromhexD b) := by
  have hc : compare (tagOf (Value.vbbhBytes a)) (tagOf (Value.vbbhHex b)) = .eq :=
    compare_eq_iff_eq.mpr rfl
  simp only [vcmp]
  rw [hc]

theorem vcmp_bbhHB (a b : List Nat) :
    vcmp (.vbbhHex a) (.vbbhBytes b) = lexCmp (fromhexD a) b := by
  have hc : compare (tagOf (Value.vbbhHex a)) (tagOf (Value.vbbhBytes b)) = .eq :=
    compare_eq_iff_eq.mpr rfl
  simp only [vcmp]
  rw [hc]

theorem vcmp_bbhHH (a b : List Nat) :
    vcmp (.vbbhHex a) (.vbbhHex b) = lexCmp (fromhexD a) (fromhexD b) := by
  have hc : compare (tagOf (Value.vbbhHex a)) (tagOf (Value.vbbhHex b)) = .eq :=
    compare_eq_iff_eq.mpr rfl
  simp only [vcmp]
  rw [hc]

theorem vcmp_tuple (a b : List Value) :
    vcmp (.vtuple a) (.vtuple b) = tcmp a b := by
  have hc : compare (tagOf (Value.vtuple a)) (tagOf (Value.vtuple b)) = .eq :=
    compare_eq_iff_eq.mpr rfl
  simp only [vcmp]
  rw [hc]

theorem vcmp_vint_vfloat (n : Int) (y : Nat)
    (h : tagOf (.vint n) = tagOf (.vfloat y)) :
    vcmp (.vint n) (.vfloat y) = .eq := by
  have hc : compare (tagOf (Value.vint n)) (tagOf (Value.vfloat y)) = .eq :=
    compare_eq_iff_eq.mpr h
  simp only [vcmp]
  rw [hc]

theorem vcmp_vfloat_vint (x : Nat) (m : Int)
    (h : tagOf (.vfloat x) = tagOf (.vint m)) :
    vcmp (.vfloat x) (.vint m) = .eq := by
  have hc : compare (tagOf (Value.vfloat x)) (tagOf (Value.vint m)) = .eq :=
    compare_eq_iff_eq.mpr h
  simp only [vcmp]
  rw [hc]

theorem vcmp_null_null : vcmp .vnull .vnull = .eq := by
  have hc : compare (tagOf Value.vnull) (tagOf Value.vnull) = .eq :=
    compare_eq_iff_eq.mpr rfl
  simp only [vcmp]
  rw [hc]

theorem vcmp_bool (b c : Bool) (h : tagOf (.vbool b) = tagOf (.vbool c)) :
    vcmp (.vbool b) (.vbool c) = .eq := by
  have hc : compare (tagOf (Value.vbool b)) (tagOf (Value.vbool c)) = .eq :=
    compare_eq_iff_eq.mpr h
  simp only [vcmp]
  rw [hc]

theorem tag_eq_of_vcmp_eq {v w : Value} (h : vcmp v w = .eq) :
    tagOf v = tagOf w := by
  rcases lt_trichotomy (tagOf v) (tagOf w) with ht | ht | ht
  · rw [vcmp_tag_lt v w ht] at h; cases h
  · exact ht
  · rw [vcmp_tag_gt v w ht] at h; cases h

theorem tcmp_nil_nil : tcmp [] [] = .eq := by simp [tcmp]

theorem tcmp_nil_cons (w : Value) (ws : List Value) :
    tcmp [] (w :: ws) = .lt := by simp [tcmp]

theorem tcmp_cons_nil (v : Value) (vs : List Value) :
    tcmp (v :: vs) [] = .gt := by simp [tcmp]

theorem tcmp_cons_eq {v w : Value} (vs ws : List Value) (h : vcmp v w = .eq) :
    tcmp (v :: vs) (w :: ws) = tcmp vs ws := by simp [tcmp, h]

theorem tcmp_cons_lt {v w : Value} (vs ws : List Value) (h : vcmp v w = .lt) :
    tcmp (v :: vs) (w :: ws) = .lt := by simp [tcmp, h]

theorem tcmp_cons_gt {v w : Value} (vs ws : List Value) (h : vcmp v w = .gt) :
    tcmp (v :: vs) (w :: ws) = .gt := by simp [tcmp, h]

theorem vcmp_eq_enc :
    ∀ v w, ∀ nf : Bool, vcmp v w = .eq → encOne nf v = encOne nf w := by
  refine Value.indV
    (fun v => ∀ w, ∀ nf : Bool, vcmp v w = .eq → encOne nf v = encOne nf w)
    (fun vs => ∀ ws, tcmp vs ws = .eq → encList vs = encList ws)
    ?_ ?_ ?_ ?_ ?_ ?_ ?_ ?_ ?_ ?_ ?_ ?_
  case refine_1 =>
    intro w nf hv
    have htag : tagOf Value.vnull = tagOf w := tag_eq_of_vcmp_eq hv
    have hw : w = .vnull := by
      apply (tagOf_eq_zero_iff w).mp
      rw [← htag]
      simp [tagOf, tNULL]
    subst hw
    rfl
  case refine_2 =>
    intro b w nf hv
    have htag : tagOf (Value.vbool b) = tagOf w := tag_eq_of_vcmp_eq hv
    cases w <;>
      (try (exfalso
            revert htag
            simp only [tagOf, tNULL, tBYTES, tSTRING, tINTZERO, tINTPOS,
              tINTNEG, tFLOAT, tTRUE, tFALSE, tUUID, tBBH, tNESTED]
            intro htag
            (repeat' split at htag) <;> omega))
    rename_i c
    cases b <;> cases c <;> simp [tagOf, tTRUE, tFALSE] at htag ⊢
  case refine_3 =>
    intro a w nf hv
    have htag : tagOf (Value.vbytes a) = tagOf w := tag_eq_of_vcmp_eq hv
    cases w <;>
      (try (exfalso
            revert htag
            simp only [tagOf, tNULL, tBYTES, tSTRING, tINTZERO, tINTPOS,
              tINTNEG, tFLOAT, tTRUE, tFALSE, tUUID, tBBH, tNESTED]
            intro htag
            (repeat' split at htag) <;> omega))
    rename_i b'
    rw [vcmp_bytes] at hv
    rw [(lexCmp_eq_iff a b').mp hv]
  case refine_4 =>
    intro a w nf hv
    have htag : tagOf (Value.vstr a) = tagOf w := tag_eq_of_vcmp_eq hv
    cases w <;>
      (try (exfalso
            revert htag
            simp only [tagOf, tNULL, tBYTES, tSTRING, tINTZERO, tINTPOS,
              tINTNEG, tFLOAT, tTRUE, tFALSE, tUUID, tBBH, tNESTED]
            intro htag
            (repeat' split at htag) <;> omega))
    rename_i b'
    rw [vcmp_str] at hv
    rw [(lexCmp_eq_iff a b').mp hv]
  case refine_5 =>
    intro n w nf hv
    have htag : tagOf (Value.vint n) = tagOf w := tag_eq_of_vcmp_eq hv
    cases w <;>
      (try (exfalso
            revert htag
            simp only [tagOf, tNULL, tBYTES, tSTRING, tINTZERO, tINTPOS,
              tINTNEG, tFLOAT, tTRUE, tFALSE, tUUID, tBBH, tNESTED]
            intro htag
            (repeat' split at htag) <;> omega))
    case vint m =>
      rw [vcmp_int n m htag] at hv
      rw [compare_eq_iff_eq.mp hv]
    case vfloat bits =>
      have hn0 : n = 0 ∧ floatIsZero bits = true := by
        revert htag
        simp only [tagOf, tNULL, tBYTES, tSTRING, tINTZERO, tINTPOS,
          tINTNEG, tFLOAT, tTRUE, tFALSE, tUUID, tBBH, tNESTED]
        intro htag
        (repeat' split at htag) <;> simp_all
      rw [hn0.1]
      simp [encOne, hn0.2]
  case refine_6 =>
    intro bits w nf hv
    have htag : tagOf (Value.vfloat bits) = tagOf w := tag_eq_of_vcmp_eq hv
    cases w <;>
      (try (exfalso
            revert htag
            simp only [tagOf, tNULL, tBYTES, tSTRING, tINTZERO, tINTPOS,
              tINTNEG, tFLOAT, tTRUE, tFALSE, tUUID, tBBH, tNESTED]
            intro htag
            (repeat' split at htag) <;> omega))
    case vint m =>
      have hn0 : floatIsZero bits = true ∧ m = 0 := by
        revert htag
        simp only [tagOf, tNULL, tBYTES, tSTRING, tINTZERO, tINTPOS,
          tINTNEG, tFLOAT, tTRUE, tFALSE, tUUID, tBBH, tNESTED]
        intro htag
        (repeat' split at htag) <;> simp_all
      rw [hn0.2]
      simp [encOne, hn0.1]
    case vfloat b2 =>
      rw [vcmp_float bits b2 htag] at hv
      by_cases hz : floatIsZero bits = true
      · have hz2 : floatIsZero b2 = true := by
          revert htag
          simp only [tagOf, tNULL, tBYTES, tSTRING, tINTZERO, tINTPOS,
            tINTNEG, tFLOAT, tTRUE, tFALSE, tUUID, tBBH, tNESTED]
          intro htag
          (repeat' split at htag) <;> simp_all
        simp [encOne, hz, hz2]
      · have hz2 : floatIsZero b2 = false := by
          revert htag
          simp only [tagOf, tNULL, tBYTES, tSTRING, tINTZERO, tINTPOS,
            tINTNEG, tFLOAT, tTRUE, tFALSE, tUUID, tBBH, tNESTED]
          intro htag
          (repeat' split at htag) <;> simp_all
        rw [if_neg hz] at hv
        have hm : floatMunge bits = floatMunge b2 := (lexCmp_eq_iff _ _).mp hv
        simp [encOne, hz, hz2, hm]
  case refine_7 =>
    intro a w nf hv
    have htag : tagOf (Value.vuuid a) = tagOf w := tag_eq_of_vcmp_eq hv
    cases w <;>
      (try (exfalso
            revert htag
            simp only [tagOf, tNULL, tBYTES, tSTRING, tINTZERO, tINTPOS,
              tINTNEG, tFLOAT, tTRUE, tFALSE, tUUID, tBBH, tNESTED]
            intro htag
            (repeat' split at htag) <;> omega))
    rename_i b'
    rw [vcmp_uuid] at hv
    rw [(lexCmp_eq_iff a b').mp hv]
  case refine_8 =>
    intro a w nf hv
    have htag : tagOf (Value.vbbhBytes a) = tagOf w := tag_eq_of_vcmp_eq hv
    cases w <;>
      (try (exfalso
            revert htag
            simp only [tagOf, tNULL, tBYTES, tSTRING, tINTZERO, tINTPOS,
              tINTNEG, tFLOAT, tTRUE, tFALSE, tUUID, tBBH, tNESTED]
            intro htag
            (repeat' split at htag) <;> omega))
    case vbbhBytes b' =>
      rw [vcmp_bbhBB] at hv
      rw [(lexCmp_eq_iff a b').mp hv]
    case vbbhHex cs =>
      rw [vcmp_bbhBH] at hv
      simp [encOne, (lexCmp_eq_iff _ _).mp hv]
  case refine_9 =>
    intro a w nf hv
    have htag : tagOf (Value.vbbhHex a) = tagOf w := tag_eq_of_vcmp_eq hv
    cases w <;>
      (try (exfalso
            revert htag
            simp only [tagOf, tNULL, tBYTES, tSTRING, tINTZERO, tINTPOS,
              tINTNEG, tFLOAT, tTRUE, tFALSE, tUUID, tBBH, tNESTED]
            intro htag
            (repeat' split at htag) <;> omega))
    case vbbhBytes b' =>
      rw [vcmp_bbhHB] at hv
      simp [encOne, (lexCmp_eq_iff _ _).mp hv]
    case vbbhHex cs =>
      rw [vcmp_bbhHH] at hv
      simp [encOne, (lexCmp_eq_iff _ _).mp hv]
  case refine_10 =>
    intro vs ih w nf hv
    have htag : tagOf (Value.vtuple vs) = tagOf w := tag_eq_of_vcmp_eq hv
    cases w <;>
      (try (exfalso
            revert htag
            simp only [tagOf, tNULL, tBYTES, tSTRING, tINTZERO, tINTPOS,
              tINTNEG, tFLOAT, tTRUE, tFALSE, tUUID, tBBH, tNESTED]
            intro htag
            (repeat' split at htag) <;> omega))
    rename_i ws
    rw [vcmp_tuple] at hv
    simp [encOne, ih ws hv]
  case refine_11 =>
    intro ws hv
    cases ws with
    | nil => rfl
    | cons x xs => rw [tcmp_nil_cons] at hv; cases hv
  case refine_12 =>
    intro v vs ihv ihl ws hv
    cases ws with
    | nil => rw [tcmp_cons_nil] at hv; cases hv
    | cons x xs =>
      rcases hc : vcmp v x with h1 | h1 | h1
      · rw [tcmp_cons_lt vs xs hc] at hv; cases hv
      · rw [tcmp_cons_eq vs xs hc] at hv
        have h2 : encOne true v = encOne true x := ihv x true hc
        have h3 : encList vs = encList xs := ihl xs hv
        simp [encList, h2, h3]
      · rw [tcmp_cons_gt vs xs hc] at hv; cases hv

theorem vcmp_lt_strongLt :
    ∀ v w, ∀ nf : Bool, validV v = true → validV w = true → vcmp v w = .lt →
      StrongLt (encOne nf v) (encOne nf w) := by
  refine Value.indV
    (fun v => ∀ w, ∀ nf : Bool, validV v = true → validV w = true →
      vcmp v w = .lt → StrongLt (encOne nf v) (encOne nf w))
    (fun vs => ∀ ws, validL vs = true → validL ws = true → tcmp vs ws = .lt →
      StrongLt (encList vs ++ [0]) (encList ws ++ [0]))
    ?_ ?_ ?_ ?_ ?_ ?_ ?_ ?_ ?_ ?_ ?_ ?_
  case refine_1 =>
    intro w nf hva hvb hv
    rcases lt_trichotomy (tagOf .vnull) (tagOf w) with ht | ht | ht
    · obtain ⟨t1, h1⟩ := enc_cons nf .vnull
      obtain ⟨t2, h2⟩ := enc_cons nf w
      rw [h1, h2]
      exact strongLt_head ht _ _
    · have hw : w = .vnull := by
        apply (tagOf_eq_zero_iff w).mp
        rw [← ht]
        simp [tagOf, tNULL]
      subst hw
      rw [vcmp_null_null] at hv
      cases hv
    · rw [vcmp_tag_gt _ _ ht] at hv; cases hv
  case refine_2 =>
    intro b w nf hva hvb hv
    rcases lt_trichotomy (tagOf (.vbool b)) (tagOf w) with ht | ht | ht
    · obtain ⟨t1, h1⟩ := enc_cons nf (.vbool b)
      obtain ⟨t2, h2⟩ := enc_cons nf w
      rw [h1, h2]
      exact strongLt_head ht _ _
    · cases w <;>
        (try (exfalso
              revert ht
              simp only [tagOf, tNULL, tBYTES, tSTRING, tINTZERO, tINTPOS,
                tINTNEG, tFLOAT, tTRUE, tFALSE, tUUID, tBBH, tNESTED]
              intro ht
              (repeat' split at ht) <;> omega))
      case vbool c =>
        rw [vcmp_bool b c ht] at hv
        cases hv
    · rw [vcmp_tag_gt _ _ ht] at hv; cases hv
  case refine_3 =>
    intro a w nf hva hvb hv
    rcases lt_trichotomy (tagOf (.vbytes a)) (tagOf w) with ht | ht | ht
    · obtain ⟨t1, h1⟩ := enc_cons nf (.vbytes a)
      obtain ⟨t2, h2⟩ := enc_cons nf w
      rw [h1, h2]
      exact strongLt_head ht _ _
    · cases w <;>
        (try (exfalso
              revert ht
              simp only [tagOf, tNULL, tBYTES, tSTRING, tINTZERO, tINTPOS,
                tINTNEG, tFLOAT, tTRUE, tFALSE, tUUID, tBBH, tNESTED]
              intro ht
              (repeat' split at ht) <;> omega))
      case vbytes b' =>
        rw [vcmp_bytes] at hv
        exact strongLt_cancel [tBYTES] (esc_strongLt hv)
    · rw [vcmp_tag_gt _ _ ht] at hv; cases hv
  case refine_4 =>
    intro a w nf hva hvb hv
    rcases lt_trichotomy (tagOf (.vstr a)) (tagOf w) with ht | ht | ht
    · obtain ⟨t1, h1⟩ := enc_cons nf (.vstr a)
      obtain ⟨t2, h2⟩ := enc_cons nf w
      rw [h1, h2]
      exact strongLt_head ht _ _
    · cases w <;>
        (try (exfalso
              revert ht
              simp only [tagOf, tNULL, tBYTES, tSTRING, tINTZERO, tINTPOS,
                tINTNEG, tFLOAT, tTRUE, tFALSE, tUUID, tBBH, tNESTED]
              intro ht
              (repeat' split at ht) <;> omega))
      case vstr b' =>
        rw [vcmp_str] at hv
        exact strongLt_cancel [tSTRING] (esc_strongLt hv)
    · rw [vcmp_tag_gt _ _ ht] at hv; cases hv
  case refine_5 =>
    intro n w nf hva hvb hv
    rcases lt_trichotomy (tagOf (.vint n)) (tagOf w) with ht | ht | ht
    · obtain ⟨t1, h1⟩ := enc_cons nf (.vint n)
      obtain ⟨t2, h2⟩ := enc_cons nf w
      rw [h1, h2]
      exact strongLt_head ht _ _
    · cases w <;>
        (try (exfalso
              revert ht
              simp only [tagOf, tNULL, tBYTES, tSTRING, tINTZERO, tINTPOS,
                tINTNEG, tFLOAT, tTRUE, tFALSE, tUUID, tBBH, tNESTED]
              intro ht
              (repeat' split at ht) <;> omega))
      case vint m =>
        rw [vcmp_int n m ht] at hv
        have hnm : n < m := compare_lt_iff_lt.mp hv
        have hsign : (0 < n ∧ 0 < m) ∨ (n < 0 ∧ m < 0) := by
          revert ht
          simp only [tagOf, tNULL, tBYTES, tSTRING, tINTZERO, tINTPOS,
            tINTNEG, tFLOAT, tTRUE, tFALSE, tUUID, tBBH, tNESTED]
          intro ht
          (repeat' split at ht) <;> omega
        have hm64 : m ≤ 2 ^ 64 - 1 := by
          simp [validV] at hvb
          omega
        have hn64 : -(2 ^ 64 - 1) ≤ n := by
          simp [validV] at hva
          omega
        have h2exp : (256 : Nat) ^ 8 = 2 ^ 64 := by norm_num
        rcases hsign with ⟨hn, hm⟩ | ⟨hn, hm⟩
        · have hne1 : ¬n = 0 := by omega
          have hne2 : ¬m = 0 := by omega
          have henc1 : encOne nf (.vint n) = tINTPOS :: beBytes 8 n.toNat := by
            simp [encOne, hne1, hn]
          have henc2 : encOne nf (.vint m) = tINTPOS :: beBytes 8 m.toNat := by
            simp [encOne, hne2, hm]
          rw [henc1, henc2]
          exact strongLt_cancel [tINTPOS]
            (beBytes_strongLt 8 n.toNat m.toNat (by omega) (by omega))
        · have hne1 : ¬n = 0 := by omega
          have hne2 : ¬m = 0 := by omega
          have hnp1 : ¬0 < n := by omega
          have hnp2 : ¬0 < m := by omega
          have henc1 : encOne nf (.vint n)
              = tINTNEG :: beBytes 8 (2 ^ 64 - 1 + n).toNat := by
            simp [encOne, hne1, hnp1]
          have henc2 : encOne nf (.vint m)
              = tINTNEG :: beBytes 8 (2 ^ 64 - 1 + m).toNat := by
            simp [encOne, hne2, hnp2]
          rw [henc1, henc2]
          exact strongLt_cancel [tINTNEG]
            (beBytes_strongLt 8 _ _ (by omega) (by omega))
      case vfloat bits =>
        rw [vcmp_vint_vfloat n bits ht] at hv
        cases hv
    · rw [vcmp_tag_gt _ _ ht] at hv; cases hv
  case refine_6 =>
    intro bits w nf hva hvb hv
    rcases lt_trichotomy (tagOf (.vfloat bits)) (tagOf w) with ht | ht | ht
    · obtain ⟨t1, h1⟩ := enc_cons nf (.vfloat bits)
      obtain ⟨t2, h2⟩ := enc_cons nf w
      rw [h1, h2]
      exact strongLt_head ht _ _
    · cases w <;>
        (try (exfalso
              revert ht
              simp only [tagOf, tNULL, tBYTES, tSTRING, tINTZERO, tINTPOS,
                tINTNEG, tFLOAT, tTRUE, tFALSE, tUUID, tBBH, tNESTED]
              intro ht
              (repeat' split at ht) <;> omega))
      case vint m =>
        rw [vcmp_vfloat_vint bits m ht] at hv
        cases hv
      case vfloat b2 =>
        rw [vcmp_float bits b2 ht] at hv
        by_cases hz : floatIsZero bits = true
        · rw [if_pos hz] at hv; cases hv
        · have hz2 : floatIsZero b2 = false := by
            revert ht
            simp only [tagOf, tNULL, tBYTES, tSTRING, tINTZERO, tINTPOS,
              tINTNEG, tFLOAT, tTRUE, tFALSE, tUUID, tBBH, tNESTED]
            intro ht
            (repeat' split at ht) <;> simp_all
          rw [if_neg hz] at hv
          have henc1 : encOne nf (.vfloat bits) = tFLOAT :: floatMunge bits := by
            simp [encOne, hz]
          have henc2 : encOne nf (.vfloat b2) = tFLOAT :: floatMunge b2 := by
            simp [encOne, hz2]
          rw [henc1, henc2]
          refine strongLt_cancel [tFLOAT] (strongLt_of_lt_same_len ?_ hv)
          show (floatMunge bits).length = (floatMunge b2).length
          rw [floatMunge_length, floatMunge_length]
    · rw [vcmp_tag_gt _ _ ht] at hv; cases hv
  case refine_7 =>
    intro a w nf hva hvb hv
    rcases lt_trichotomy (tagOf (.vuuid a)) (tagOf w) with ht | ht | ht
    · obtain ⟨t1, h1⟩ := enc_cons nf (.vuuid a)
      obtain ⟨t2, h2⟩ := enc_cons nf w
      rw [h1, h2]
      exact strongLt_head ht _ _
    · cases w <;>
        (try (exfalso
              revert ht
              simp only [tagOf, tNULL, tBYTES, tSTRING, tINTZERO, tINTPOS,
                tINTNEG, tFLOAT, tTRUE, tFALSE, tUUID, tBBH, tNESTED]
              intro ht
              (repeat' split at ht) <;> omega))
      case vuuid b' =>
        rw [vcmp_uuid] at hv
        have hlen : a.length = 16 ∧ b'.length = 16 := by
          simp [validV] at hva hvb
          exact ⟨hva.1, hvb.1⟩
        refine strongLt_cancel [tUUID] (strongLt_of_lt_same_len ?_ hv)
        rw [hlen.1, hlen.2]
    · rw [vcmp_tag_gt _ _ ht] at hv; cases hv
  case refine_8 =>
    intro a w nf hva hvb hv
    rcases lt_trichotomy (tagOf (.vbbhBytes a)) (tagOf w) with ht | ht | ht
    · obtain ⟨t1, h1⟩ := enc_cons nf (.vbbhBytes a)
      obtain ⟨t2, h2⟩ := enc_cons nf w
      rw [h1, h2]
      exact strongLt_head ht _ _
    · cases w <;>
        (try (exfalso
              revert ht
              simp only [tagOf, tNULL, tBYTES, tSTRING, tINTZERO, tINTPOS,
                tINTNEG, tFLOAT, tTRUE, tFALSE, tUUID, tBBH, tNESTED]
              intro ht
              (repeat' split at ht) <;> omega))
      case vbbhBytes b' =>
        rw [vcmp_bbhBB] at hv
        have hlen : a.length = 32 ∧ b'.length = 32 := by
          simp [validV] at hva hvb
          exact ⟨hva.1, hvb.1⟩
        refine strongLt_cancel [tBBH] (strongLt_of_lt_same_len ?_ hv)
        rw [hlen.1, hlen.2]
      case vbbhHex cs =>
        rw [vcmp_bbhBH] at hv
        have hlen1 : a.length = 32 := by
          simp [validV] at hva
          exact hva.1
        have hlen2 : (fromhexD cs).length = 32 := by
          simp [validV] at hvb
          rw [fromhexD_length, hvb.1]
        refine strongLt_cancel [tBBH] (strongLt_of_lt_same_len ?_ hv)
        rw [hlen1, hlen2]
    · rw [vcmp_tag_gt _ _ ht] at hv; cases hv
  case refine_9 =>
    intro a w nf hva hvb hv
    rcases lt_trichotomy (tagOf (.vbbhHex a)) (tagOf w) with ht | ht | ht
    · obtain ⟨t1, h1⟩ := enc_cons nf (.vbbhHex a)
      obtain ⟨t2, h2⟩ := enc_cons nf w
      rw [h1, h2]
      exact strongLt_head ht _ _
    · cases w <;>
        (try (exfalso
              revert ht
              simp only [tagOf, tNULL, tBYTES, tSTRING, tINTZERO, tINTPOS,
                tINTNEG, tFLOAT, tTRUE, tFALSE, tUUID, tBBH, tNESTED]
              intro ht
              (repeat' split at ht) <;> omega))
      case vbbhBytes b' =>
        rw [vcmp_bbhHB] at hv
        have hlen1 : (fromhexD a).length = 32 := by
          simp [validV] at hva
          rw [fromhexD_length, hva.1]
        have hlen2 : b'.length = 32 := by
          simp [validV] at hvb
          exact hvb.1
        refine strongLt_cancel [tBBH] (strongLt_of_lt_same_len ?_ hv)
        rw [hlen1, hlen2]
      case vbbhHex cs =>
        rw [vcmp_bbhHH] at hv
        have hlen1 : (fromhexD a).length = 32 := by
          simp [validV] at hva
          rw [fromhexD_length, hva.1]
        have hlen2 : (fromhexD cs).length = 32 := by
          simp [validV] at hvb
          rw [fromhexD_length, hvb.1]
        refine strongLt_cancel [tBBH] (strongLt_of_lt_same_len ?_ hv)
        rw [hlen1, hlen2]
    · rw [vcmp_tag_gt _ _ ht] at hv; cases hv
  case refine_10 =>
    intro vs ih w nf hva hvb hv
    rcases lt_trichotomy (tagOf (.vtuple vs)) (tagOf w) with ht | ht | ht
    · obtain ⟨t1, h1⟩ := enc_cons nf (.vtuple vs)
      obtain ⟨t2, h2⟩ := enc_cons nf w
      rw [h1, h2]
      exact strongLt_head ht _ _
    · cases w <;>
        (try (exfalso
              revert ht
              simp only [tagOf, tNULL, tBYTES, tSTRING, tINTZERO, tINTPOS,
                tINTNEG, tFLOAT, tTRUE, tFALSE, tUUID, tBBH, tNESTED]
              intro ht
              (repeat' split at ht) <;> omega))
      case vtuple ws =>
        rw [vcmp_tuple] at hv
        have h1 : validL vs = true := by simpa [validV] using hva
        have h2 : validL ws = true := by simpa [validV] using hvb
        exact strongLt_cancel [tNESTED] (ih ws h1 h2 hv)
    · rw [vcmp_tag_gt _ _ ht] at hv; cases hv
  case refine_11 =>
    intro ws _ hvb hv
    cases ws with
    | nil => rw [tcmp_nil_nil] at hv; cases hv
    | cons w ws' =>
      by_cases hnull : w = .vnull
      · subst hnull
        refine Or.inr ⟨esc [] ++ (encList ws' ++ [0]), ?_⟩
        simp [encList, encOne, esc, tNULL]
      · obtain ⟨tl, htl⟩ := enc_cons true w
        have htag : tagOf w ≠ 0 := fun h0 => hnull ((tagOf_eq_zero_iff w).mp h0)
        refine Or.inl ⟨[], 0, tagOf w, [], tl ++ (encList ws' ++ [0]), ?_, ?_, ?_⟩
        · omega
        · simp [encList]
        · simp [encList, htl]
  case refine_12 =>
    intro v vs ihv ihl ws hva hvb hv
    cases ws with
    | nil => rw [tcmp_cons_nil] at hv; cases hv
    | cons x xs =>
      have hvv : validV v = true ∧ validL vs = true := by
        simp [validL] at hva
        exact hva
      have hxx : validV x = true ∧ validL xs = true := by
        simp [validL] at hvb
        exact hvb
      have hsplit1 : encList (v :: vs) ++ [0]
          = encOne true v ++ (encList vs ++ [0]) := by simp [encList]
      have hsplit2 : encList (x :: xs) ++ [0]
          = encOne true x ++ (encList xs ++ [0]) := by simp [encList]
      rw [hsplit1, hsplit2]
      rcases hc : vcmp v x with h1 | h1 | h1
      · have hs := ihv x true hvv.1 hxx.1 hc
        refine strongLt_append hs _ _ ?_
        exact safeRest_encList vs [0] (safeRest_cons (by norm_num))
      · rw [vcmp_eq_enc v x true hc]
        refine strongLt_cancel (encOne true x) ?_
        apply ihl xs hvv.2 hxx.2
        rw [tcmp_cons_eq vs xs hc] at hv
        exact hv
      · rw [tcmp_cons_gt vs xs hc] at hv; cases hv

theorem cmpSwap {α : Type} [LinearOrder α] (a b : α) :
    (compare a b).swap = compare b a := by
  rcases lt_trichotomy a b with h | h | h
  · rw [compare_lt_iff_lt.mpr h, compare_gt_iff_gt.mpr h]
    rfl
  · subst h
    rw [compare_eq_iff_eq.mpr rfl]
    rfl
  · rw [compare_gt_iff_gt.mpr h, compare_lt_iff_lt.mpr h]
    rfl

theorem vcmp_swap : ∀ v w, (vcmp v w).swap = vcmp w v := by
  refine Value.indV
    (fun v => ∀ w, (vcmp v w).swap = vcmp w v)
    (fun vs => ∀ ws, (tcmp vs ws).swap = tcmp ws vs)
    ?_ ?_ ?_ ?_ ?_ ?_ ?_ ?_ ?_ ?_ ?_ ?_
  case refine_11 =>
    intro ws
    cases ws with
    | nil => rw [tcmp_nil_nil]; rfl
    | cons x xs => rw [tcmp_nil_cons, tcmp_cons_nil]; rfl
  case refine_12 =>
    intro v vs ihv ihl ws
    cases ws with
    | nil => rw [tcmp_cons_nil, tcmp_nil_cons]; rfl
    | cons x xs =>
      rcases hc : vcmp v x with h1 | h1 | h1
      · have hc2 : vcmp x v = .gt := by rw [← ihv x, hc]; rfl
        rw [tcmp_cons_lt vs xs hc, tcmp_cons_gt xs vs hc2]
        rfl
      · have hc2 : vcmp x v = .eq := by rw [← ihv x, hc]; rfl
        rw [tcmp_cons_eq vs xs hc, tcmp_cons_eq xs vs hc2]
        exact ihl xs
      · have hc2 : vcmp x v = .lt := by rw [← ihv x, hc]; rfl
        rw [tcmp_cons_gt vs xs hc, tcmp_cons_lt xs vs hc2]
        rfl
  case refine_1 =>
    intro w
    rcases lt_trichotomy (tagOf .vnull) (tagOf w) with ht | ht | ht
    · rw [vcmp_tag_lt _ _ ht, vcmp_tag_gt _ _ ht]; rfl
    · have hw : w = .vnull := by
        apply (tagOf_eq_zero_iff w).mp
        rw [← ht]
        simp [tagOf, tNULL]
      subst hw
      rw [vcmp_null_null]
      rfl
    · rw [vcmp_tag_gt _ _ ht, vcmp_tag_lt _ _ ht]; rfl
  case refine_2 =>
    intro b w
    rcases lt_trichotomy (tagOf (.vbool b)) (tagOf w) with ht | ht | ht
    · rw [vcmp_tag_lt _ _ ht, vcmp_tag_gt _ _ ht]; rfl
    · cases w <;>
        (try (exfalso
              revert ht
              simp only [tagOf, tNULL, tBYTES, tSTRING, tINTZERO, tINTPOS,
                tINTNEG, tFLOAT, tTRUE, tFALSE, tUUID, tBBH, tNESTED]
              intro ht
              (repeat' split at ht) <;> omega))
      case vbool c =>
        rw [vcmp_bool b c ht, vcmp_bool c b ht.symm]
        rfl
    · rw [vcmp_tag_gt _ _ ht, vcmp_tag_lt _ _ ht]; rfl
  case refine_3 =>
    intro a w
    rcases lt_trichotomy (tagOf (.vbytes a)) (tagOf w) with ht | ht | ht
    · rw [vcmp_tag_lt _ _ ht, vcmp_tag_gt _ _ ht]; rfl
    · cases w <;>
        (try (exfalso
              revert ht
              simp only [tagOf, tNULL, tBYTES, tSTRING, tINTZERO, tINTPOS,
                tINTNEG, tFLOAT, tTRUE, tFALSE, tUUID, tBBH, tNESTED]
              intro ht
              (repeat' split at ht) <;> omega))
      case vbytes b' =>
        rw [vcmp_bytes, vcmp_bytes]
        exact lexCmp_swap a b'
    · rw [vcmp_tag_gt _ _ ht, vcmp_tag_lt _ _ ht]; rfl
  case refine_4 =>
    intro a w
    rcases lt_trichotomy (tagOf (.vstr a)) (tagOf w) with ht | ht | ht
    · rw [vcmp_tag_lt _ _ ht, vcmp_tag_gt _ _ ht]; rfl
    · cases w <;>
        (try (exfalso
              revert ht
              simp only [tagOf, tNULL, tBYTES, tSTRING, tINTZERO, tINTPOS,
                tINTNEG, tFLOAT, tTRUE, tFALSE, tUUID, tBBH, tNESTED]
              intro ht
              (repeat' split at ht) <;> omega))
      case vstr b' =>
        rw [vcmp_str, vcmp_str]
        exact lexCmp_swap a b'
    · rw [vcmp_tag_gt _ _ ht, vcmp_tag_lt _ _ ht]; rfl
  case refine_5 =>
    intro n w
    rcases lt_trichotomy (tagOf (.vint n)) (tagOf w) with ht | ht | ht
    · rw [vcmp_tag_lt _ _ ht, vcmp_tag_gt _ _ ht]; rfl
    · cases w <;>
        (try (exfalso
              revert ht
              simp only [tagOf, tNULL, tBYTES, tSTRING, tINTZERO, tINTPOS,
                tINTNEG, tFLOAT, tTRUE, tFALSE, tUUID, tBBH, tNESTED]
              intro ht
              (repeat' split at ht) <;> omega))
      case vint m =>
        rw [vcmp_int n m ht, vcmp_int m n ht.symm]
        exact cmpSwap n m
      case vfloat bits =>
        rw [vcmp_vint_vfloat n bits ht, vcmp_vfloat_vint bits n ht.symm]
        rfl
    · rw [vcmp_tag_gt _ _ ht, vcmp_tag_lt _ _ ht]; rfl
  case refine_6 =>
    intro bits w
    rcases lt_trichotomy (tagOf (.vfloat bits)) (tagOf w) with ht | ht | ht
    · rw [vcmp_tag_lt _ _ ht, vcmp_tag_gt _ _ ht]; rfl
    · cases w <;>
        (try (exfalso
              revert ht
              simp only [tagOf, tNULL, tBYTES, tSTRING, tINTZERO, tINTPOS,
                tINTNEG, tFLOAT, tTRUE, tFALSE, tUUID, tBBH, tNESTED]
              intro ht
              (repeat' split at ht) <;> omega))
      case vint m =>
        rw [vcmp_vfloat_vint bits m ht, vcmp_vint_vfloat m bits ht.symm]
        rfl
      case vfloat b2 =>
        rw [vcmp_float bits b2 ht, vcmp_float b2 bits ht.symm]
        by_cases hz : floatIsZero bits = true
        · have hz2 : floatIsZero b2 = true := by
            revert ht
            simp only [tagOf, tNULL, tBYTES, tSTRING, tINTZERO, tINTPOS,
              tINTNEG, tFLOAT, tTRUE, tFALSE, tUUID, tBBH, tNESTED]
            intro ht
            (repeat' split at ht) <;> simp_all
          rw [if_pos hz, if_pos hz2]
          rfl
        · have hz2 : floatIsZero b2 = false := by
            revert ht
            simp only [tagOf, tNULL, tBYTES, tSTRING, tINTZERO, tINTPOS,
              tINTNEG, tFLOAT, tTRUE, tFALSE, tUUID, tBBH, tNESTED]
            intro ht
            (repeat' split at ht) <;> simp_all
          rw [if_neg hz, if_neg (by simp [hz2])]
          exact lexCmp_swap _ _
    · rw [vcmp_tag_gt _ _ ht, vcmp_tag_lt _ _ ht]; rfl
  case refine_7 =>
    intro a w
    rcases lt_trichotomy (tagOf (.vuuid a)) (tagOf w) with ht | ht | ht
    · rw [vcmp_tag_lt _ _ ht, vcmp_tag_gt _ _ ht]; rfl
    · cases w <;>
        (try (exfalso
              revert ht
              simp only [tagOf, tNULL, tBYTES, tSTRING, tINTZERO, tINTPOS,
                tINTNEG, tFLOAT, tTRUE, tFALSE, tUUID, tBBH, tNESTED]
              intro ht
              (repeat' split at ht) <;> omega))
      case vuuid b' =>
        rw [vcmp_uuid, vcmp_uuid]
        exact lexCmp_swap a b'
    · rw [vcmp_tag_gt _ _ ht, vcmp_tag_lt _ _ ht]; rfl
  case refine_8 =>
    intro a w
    rcases lt_trichotomy (tagOf (.vbbhBytes a)) (tagOf w) with ht | ht | ht
    · rw [vcmp_tag_lt _ _ ht, vcmp_tag_gt _ _ ht]; rfl
    · cases w <;>
        (try (exfalso
              revert ht
              simp only [tagOf, tNULL, tBYTES, tSTRING, tINTZERO, tINTPOS,
                tINTNEG, tFLOAT, tTRUE, tFALSE, tUUID, tBBH, tNESTED]
              intro ht
              (repeat' split at ht) <;> omega))
      case vbbhBytes b' =>
        rw [vcmp_bbhBB, vcmp_bbhBB]
        exact lexCmp_swap a b'
      case vbbhHex cs =>
        rw [vcmp_bbhBH, vcmp_bbhHB]
        exact lexCmp_swap a (fromhexD cs)
    · rw [vcmp_tag_gt _ _ ht, vcmp_tag_lt _ _ ht]; rfl
  case refine_9 =>
    intro a w
    rcases lt_trichotomy (tagOf (.vbbhHex a)) (tagOf w) with ht | ht | ht
    · rw [vcmp_tag_lt _ _ ht, vcmp_tag_gt _ _ ht]; rfl
    · cases w <;>
        (try (exfalso
              revert ht
              simp only [tagOf, tNULL, tBYTES, tSTRING, tINTZERO, tINTPOS,
                tINTNEG, tFLOAT, tTRUE, tFALSE, tUUID, tBBH, tNESTED]
              intro ht
              (repeat' split at ht) <;> omega))
      case vbbhBytes b' =>
        rw [vcmp_bbhHB, vcmp_bbhBH]
        exact lexCmp_swap (fromhexD a) b'
      case vbbhHex cs =>
        rw [vcmp_bbhHH, vcmp_bbhHH]
        exact lexCmp_swap (fromhexD a) (fromhexD cs)
    · rw [vcmp_tag_gt _ _ ht, vcmp_tag_lt _ _ ht]; rfl
  case refine_10 =>
    intro vs ih w
    rcases lt_trichotomy (tagOf (.vtuple vs)) (tagOf w) with ht | ht | ht
    · rw [vcmp_tag_lt _ _ ht, vcmp_tag_gt _ _ ht]; rfl
    · cases w <;>
        (try (exfalso
              revert ht
              simp only [tagOf, tNULL, tBYTES, tSTRING, tINTZERO, tINTPOS,
                tINTNEG, tFLOAT, tTRUE, tFALSE, tUUID, tBBH, tNESTED]
              intro ht
              (repeat' split at ht) <;> omega))
      case vtuple ws =>
        rw [vcmp_tuple, vcmp_tuple]
        exact ih ws
    · rw [vcmp_tag_gt _ _ ht, vcmp_tag_lt _ _ ht]; rfl

theorem vcmp_gt_iff (v w : Value) : vcmp v w = .gt ↔ vcmp w v = .lt := by
  rw [← vcmp_swap w v]
  cases vcmp w v <;> simp [Ordering.swap]

/-- Order preservation of the codec: byte-wise comparison of encoded tuples
agrees with component-wise comparison by tag and per-type rule. -/
theorem bytes_write_order (t1 t2 : List Value)
    (h1 : validL t1 = true) (h2 : validL t2 = true) :
    (lexCmp (bytes_write t1) (bytes_write t2) = .lt ↔ tcmp t1 t2 = .lt) := by
  induction t1 generalizing t2 with
  | nil =>
    cases t2 with
    | nil => simp [bytes_write, lexCmp, tcmp_nil_nil]
    | cons w ws =>
      obtain ⟨tl, htl⟩ := enc_cons false w
      have hb : bytes_write (w :: ws) = encOne false w ++ bytes_write ws := rfl
      rw [hb, htl, tcmp_nil_cons]
      simp [bytes_write, lexCmp]
  | cons v vs ih =>
    cases t2 with
    | nil =>
      obtain ⟨tl, htl⟩ := enc_cons false v
      have ha : bytes_write (v :: vs) = encOne false v ++ bytes_write vs := rfl
      rw [ha, htl, tcmp_cons_nil]
      simp [bytes_write, lexCmp]
    | cons w ws =>
      have hvv : validV v = true ∧ validL vs = true := by
        simp [validL] at h1; exact h1
      have hww : validV w = true ∧ validL ws = true := by
        simp [validL] at h2; exact h2
      have ha : bytes_write (v :: vs) = encOne false v ++ bytes_write vs := rfl
      have hb : bytes_write (w :: ws) = encOne false w ++ bytes_write ws := rfl
      rw [ha, hb]
      rcases hc : vcmp v w with hx | hx | hx
      · rw [tcmp_cons_lt vs ws hc]
        have hs := vcmp_lt_strongLt v w false hvv.1 hww.1 hc
        simp [strongLt_lex hs (bytes_write vs) (bytes_write ws)
          (safeRest_bytes_write vs)]
      · rw [tcmp_cons_eq vs ws hc, vcmp_eq_enc v w false hc,
          lexCmp_append_cancel]
        exact ih ws hvv.2 hww.2
      · rw [tcmp_cons_gt vs ws hc]
        have hc2 : vcmp w v = .lt := (vcmp_gt_iff v w).mp hc
        have hs := vcmp_lt_strongLt w v false hww.1 hvv.1 hc2
        have hgt : lexCmp (encOne false v ++ bytes_write vs)
            (encOne false w ++ bytes_write ws) = .gt := by
          rw [lexCmp_gt_iff_lt]
          exact strongLt_lex hs (bytes_write ws) (bytes_write vs)
            (safeRest_bytes_write ws)
        simp [hgt]

/-! ## The kv_store table and the KV operations -/

/-- Boolean byte-wise `≤`. -/
def lexLeB (a b : List Nat) : Bool := !(lexCmp a b == Ordering.gt)

/-- Boolean byte-wise `<`. -/
def lexLtB (a b : List Nat) : Bool := lexCmp a b == Ordering.lt

/-- The `kv_store` table: rows of (key BLOB primary key, value BLOB). -/
abbrev Store := List (List Nat × List Nat)

/-- `INSERT OR REPLACE INTO kv_store (key, value) VALUES (?, ?)`. -/
def storeSet (st : Store) (k v : List Nat) : Store :=
  if st.any (fun kv => kv.1 == k) then
    st.map (fun kv => if kv.1 == k then (k, v) else kv)
  else st ++ [(k, v)]

/-- `SELECT value FROM kv_store WHERE key = ?` (point lookup). -/
def storeGet (st : Store) (k : List Nat) : Option (List Nat) :=
  (st.find? (fun kv => kv.1 == k)).map (fun kv => kv.2)

/-- Insertion into a key-sorted row list. -/
def insRow (kv : List Nat × List Nat) : Store → Store
  | [] => [kv]
  | x :: xs => if lexLeB kv.1 x.1 then kv :: x :: xs else x :: insRow kv xs

/-- `ORDER BY key ASC` of a row list. -/
def sortRows : Store → Store
  | [] => []
  | x :: xs => insRow x (sortRows xs)

/-- The range branch of `query(txn, key, other)`: rows with
`key <= k < other` ascending when `key <= other`, otherwise rows with
`other <= k < key` descending. -/
def query_range (st : Store) (key other : List Nat) : Store :=
  if lexLeB key other then
    sortRows (st.filter (fun kv => lexLeB key kv.1 && lexLtB kv.1 other))
  else
    (sortRows (st.filter (fun kv => lexLeB other kv.1 && lexLtB kv.1 key))).reverse

theorem mem_insRow (kv x : List Nat × List Nat) (l : Store) :
    x ∈ insRow kv l ↔ x = kv ∨ x ∈ l := by
  induction l with
  | nil => simp [insRow]
  | cons y ys ih =>
    by_cases h : lexLeB kv.1 y.1 = true
    · simp [insRow, h]
    · simp only [insRow, h]
      simp only [Bool.false_eq_true, if_false, List.mem_cons, ih]
      tauto

theorem mem_sortRows (x : List Nat × List Nat) (l : Store) :
    x ∈ sortRows l ↔ x ∈ l := by
  induction l with
  | nil => simp [sortRows]
  | cons y ys ih => simp [sortRows, mem_insRow, ih]

theorem mem_query_range (st : Store) (a b : List Nat) (hab : lexLeB a b = true)
    (x : List Nat × List Nat) :
    x ∈ query_range st a b ↔
      x ∈ st ∧ lexLeB a x.1 = true ∧ lexLtB x.1 b = true := by
  unfold query_range
  rw [if_pos hab, mem_sortRows, List.mem_filter]
  simp

theorem storeGet_storeSet_self (st : Store) (k v : List Nat) :
    storeGet (storeSet st k v) k = some v := by
  unfold storeSet
  by_cases h : st.any (fun kv => kv.1 == k) = true
  · rw [if_pos h]
    unfold storeGet
    induction st with
    | nil => simp at h
    | cons y ys ih =>
      by_cases hy : y.1 == k
      · simp [List.find?, hy]
      · simp only [List.any_cons, hy, Bool.false_or] at h
        simp only [List.map_cons, hy, if_neg, Bool.false_eq_true, not_false_iff]
        rw [List.find?]
        simp only [hy, Bool.false_eq_true]
        exact ih h
  · rw [if_neg h]
    unfold storeGet
    induction st with
    | nil => simp [List.find?]
    | cons y ys ih =>
      simp only [List.any_cons, Bool.or_eq_true, not_or] at h
      have hy : (y.1 == k) = false := by
        cases hh : y.1 == k
        · rfl
        · exact absurd hh h.1
      rw [List.cons_append, List.find?]
      simp only [hy]
      exact ih (by simp [h.2])

theorem find_map_replace (ys : Store) (k v k' : List Nat) (hne : k' ≠ k) :
    List.find? (fun kv => kv.1 == k')
        (ys.map (fun kv => if kv.1 == k then (k, v) else kv))
      = List.find? (fun kv => kv.1 == k') ys := by
  induction ys with
  | nil => rfl
  | cons y ys ih =>
    have hkk : (k == k') = false := by
      cases hh : k == k'
      · rfl
      · have hkk2 : k = k' := by simpa using hh
        exact absurd hkk2.symm hne
    by_cases hy : (y.1 == k) = true
    · have hyk : y.1 = k := by simpa using hy
      have hy' : (y.1 == k') = false := by rw [hyk]; exact hkk
      rw [List.map_cons, if_pos hy, List.find?, List.find?]
      simp only [hkk, hy']
      exact ih
    · rw [List.map_cons, if_neg hy, List.find?, List.find?]
      cases hy' : y.1 == k'
      · simp only []
        exact ih
      · rfl

theorem storeGet_storeSet_other (st : Store) (k v k' : List Nat) (hne : k' ≠ k) :
    storeGet (storeSet st k v) k' = storeGet st k' := by
  unfold storeSet
  by_cases h : st.any (fun kv => kv.1 == k) = true
  · rw [if_pos h]
    unfold storeGet
    rw [find_map_replace st k v k' hne]
  · rw [if_neg h]
    unfold storeGet
    induction st with
    | nil =>
      have hkk : (k == k') = false := by
        cases hh : k == k'
        · rfl
        · have hkk2 : k = k' := by simpa using hh
          exact absurd hkk2.symm hne
      simp [List.find?, hkk]
    | cons y ys ih =>
      rw [List.cons_append, List.find?, List.find?]
      cases hy' : y.1 == k'
      · simp only []
        exact ih (by
          intro hany
          exact h (by simp [List.any_cons, hany]))
      · rfl

/-! ## The `transactional` wrapper over the namedtuple connection types -/

/-- Python exceptions that the `transactional` wrapper can surface. -/
inductive PyErr where
  | attributeError (attr : String)
  | valueError (msg : String)
deriving Repr, DecidableEq

/-- The attributes a `BonafideCnx` namedtuple instance actually has: its two
declared fields plus the tuple methods.  `commit`, `rollback` and `close`
are not among them, so looking any of them up raises `AttributeError`. -/
def bonafideCnxAttrs : List String := ["bonafide", "sqlite", "count", "index"]

/-- Attribute lookup on a `BonafideCnx` namedtuple instance. -/
def getattrBonafideCnx (attr : String) : Except PyErr Unit :=
  if attr ∈ bonafideCnxAttrs then Except.ok () else Except.error (PyErr.attributeError attr)

/-- The `transactional` wrapper applied to a raw `BonafideCnx`.  `fres` is
the outcome of `func(txn, ...)`.  Python's `try/except/else/finally` runs
`cnx.commit()` after a normal return, `cnx.rollback()` inside the `except`
block, and `cnx.close()` in `finally`; an exception raised by a call inside
the `except` or `finally` block replaces the in-flight exception. -/
def transactionalCnx {α : Type} (fres : Except PyErr α) : Except PyErr α :=
  let tryResult : Except PyErr α :=
    match fres with
    | Except.ok out =>
      match getattrBonafideCnx "commit" with
      | Except.ok _ => Except.ok out
      | Except.error e =>
        match getattrBonafideCnx "rollback" with
        | Except.ok _ => Except.error e
        | Except.error e2 => Except.error e2
    | Except.error e =>
      match getattrBonafideCnx "rollback" with
      | Except.ok _ => Except.error e
      | Except.error e2 => Except.error e2
  match getattrBonafideCnx "close" with
  | Except.ok _ => tryResult
  | Except.error e3 => Except.error e3

/-- The `transactional` wrapper applied to a `BonafideTxn`: the wrapped
function is called directly on the existing transaction. -/
def transactionalTxn {α β : Type} (func : α → Except PyErr β) (txn : α) :
    Except PyErr β := func txn

/-! ## `set` size limits (spec section 4.2) -/

/-- Spec-level error kinds for the KV layer. -/
inductive KvError where
  | invalidInput (msg : String)
deriving Repr, DecidableEq

/-- Modelled from the spec: `set(C, key, value)` of the storage layer —
replace-or-insert with the size preconditions |key| ≤ 1024 and
|value| ≤ 1 048 576, violations failing with InvalidInput.  The module
implementing it (`bb.py`) is not part of `src/`; its test suite
(`src/tests/storage/test_db.py`) asserts exactly these two limits. -/
def storage_db_set (db : Store) (key value : List Nat) :
    Except KvError Store :=
  if key.length > 1024 then
    Except.error (KvError.invalidInput "Key size exceeds maximum")
  else if value.length > 1048576 then
    Except.error (KvError.invalidInput "Value size exceeds maximum")
  else
    Except.ok (storeSet db key value)

/-! ## Pool size defaults -/

/-- `POOL_SIZE_DEFAULT = 4`. -/
def POOL_SIZE_DEFAULT : Nat := 4

/-- `pool_size_default()`: `os.cpu_count() * 2 if os.cpu_count() else
POOL_SIZE_DEFAULT`.  `cpu = none` models `os.cpu_count()` returning `None`,
and `some 0` the other falsy value; any truthy count `c` yields `c * 2`. -/
def pool_size_default (cpu : Option Nat) : Nat :=
  match cpu with
  | none => POOL_SIZE_DEFAULT
  | some c => if c = 0 then POOL_SIZE_DEFAULT else c * 2

/-- `new(...)`: `if pool_size is None: pool_size = pool_size_default()` —
a supplied pool size is kept, otherwise the computed default is used. -/
def new_pool_size (supplied : Option Nat) (cpu : Option Nat) : Nat :=
  match supplied with
  | some p => p
  | none => pool_size_default cpu

/-! ## The permutation planner `nstore_indices` -/

/-- `itertools.combinations(xs, r)`: all sorted picks of `r` elements of
`xs`, in the order itertools emits them. -/
def combinations : Nat → List Nat → List (List Nat)
  | 0, _ => [[]]
  | _ + 1, [] => []
  | r + 1, x :: xs =>
    (combinations r xs).map (fun c => x :: c) ++ combinations (r + 1) xs

/-- The inline findij scan of `nstore_indices`: the first adjacent pair
`(i, False) (j, True)`; returns the list with the pair removed together
with `j` (appended to `a`) and `i` (appended to `b`). -/
def findSwap : List (Nat × Bool) → Option (List (Nat × Bool) × Nat × Nat)
  | x :: y :: rest =>
    if x.2 = false ∧ y.2 = true then some (rest, y.1, x.1)
    else
      match findSwap (y :: rest) with
      | some (rem, j, i) => some (x :: rem, j, i)
      | none => none
  | _ => none

/-- The `while True` loop of `nstore_indices`, with fuel (each step removes
two elements of `L`, so `L.length + 1` steps always suffice). -/
def swapLoop : Nat → List (Nat × Bool) → List Nat → List Nat → List Nat
  | 0, _, _, _ => []
  | fuel + 1, L, a, b =>
    match findSwap L with
    | none => a.reverse ++ L.map (fun x => x.1) ++ b.reverse
    | some (rem, j, i) => swapLoop fuel rem (a ++ [j]) (b ++ [i])

/-- Insertion into a lexicographically sorted list of integer lists. -/
def insLL (x : List Nat) : List (List Nat) → List (List Nat)
  | [] => [x]
  | y :: ys => if lexLeB x y then x :: y :: ys else y :: insLL x ys

/-- `list.sort()` on a list of integer lists (Python compares lists
lexicographically). -/
def isortLL : List (List Nat) → List (List Nat)
  | [] => []
  | x :: xs => insLL x (isortLL xs)

/-- `nstore_indices(n)`: one chain per combination of size `n // 2`, then
sorted. -/
def nstore_indices (n : Nat) : List (List Nat) :=
  let tab := List.range n
  let cx := combinations (n / 2) tab
  let out := cx.map (fun combo =>
    let L := tab.map (fun i => (i, combo.contains i))
    swapLoop (L.length + 1) L [] [])
  isortLL out

/-- Insertion into a sorted list of naturals. -/
def insNat (x : Nat) : List Nat → List Nat
  | [] => [x]
  | y :: ys => if x ≤ y then x :: y :: ys else y :: insNat x ys

/-- `sorted()` on a list of naturals. -/
def isortNat : List Nat → List Nat
  | [] => []
  | x :: xs => insNat x (isortNat xs)

/-- Whether a list of integer lists is lexicographically non-decreasing. -/
def chainLeB : List (List Nat) → Bool
  | [] => true
  | [_] => true
  | x :: y :: r => lexLeB x y && chainLeB (y :: r)

/-! ## Claim theorems -/

/-- C1: Order preservation of the tuple codec — for every pair of supported
tuples `t1`, `t2`, the byte string `bytes_write t1` is lexicographically
less than `bytes_write t2` iff `t1` precedes `t2` in the component-wise
order `tcmp` that compares first by the codec's tag byte and then by the
per-type rules. -/
theorem c1_order_preservation (t1 t2 : List Value)
    (h1 : validL t1 = true) (h2 : validL t2 = true) :
    (lexCmp (bytes_write t1) (bytes_write t2) = Ordering.lt ↔
      tcmp t1 t2 = Ordering.lt) :=
  bytes_write_order t1 t2 h1 h2

theorem c1_order_preservation_witness :
    validL [Value.vint 1] = true ∧ validL [Value.vint 2] = true ∧
    (lexCmp (bytes_write [Value.vint 1]) (bytes_write [Value.vint 2]) = Ordering.lt ↔
      tcmp [Value.vint 1] [Value.vint 2] = Ordering.lt) :=
  ⟨by decide, by decide,
    c1_order_preservation [Value.vint 1] [Value.vint 2] (by decide) (by decide)⟩

/-- C2 counterexample: a BBH value supplied as 32 raw bytes does not
round-trip — it decodes to the 64-character lowercase hex string instead
of the original raw bytes; likewise a BBH supplied as a 64-character
UPPERCASE hex string (also supported: `bytes.fromhex` accepts it) decodes
with its digits lowercased.  In both cases `bytes_read (bytes_write t) = t`
fails. -/
theorem c2_roundtrip_counterexample :
    (bytes_read (bytes_write [Value.vbbhBytes (List.replicate 32 0)])
      = some [Value.vbbhHex (List.replicate 64 48)] ∧
     Value.vbbhHex (List.replicate 64 48)
       ≠ Value.vbbhBytes (List.replicate 32 0)) ∧
    (validV (Value.vbbhHex (List.replicate 64 65)) = true ∧
     bytes_read (bytes_write [Value.vbbhHex (List.replicate 64 65)])
       = some [Value.vbbhHex (List.replicate 64 97)] ∧
     Value.vbbhHex (List.replicate 64 97)
       ≠ Value.vbbhHex (List.replicate 64 65)) := by
  decide

/-- C2 (amended): the round trip is exact up to canonicalization — decoding
re-reads every supported tuple as its canonical form (`canonL`), which
maps a raw-bytes BBH to its 64-character lowercase hex string, lowercases
the digits of a hex-string BBH (uppercase digits are accepted on input but
not preserved), maps float zeros (`±0.0`) to the integer 0, and is the
identity on all other supported values; on tuples fixed by this
canonicalization (`canonL t = t`) the round trip is exact:
`bytes_read (bytes_write t) = t`. -/
theorem c2_roundtrip_canonical (vs : List Value) (hv : validL vs = true) :
    bytes_read (bytes_write vs) = some (canonL vs) ∧
    (canonL vs = vs → bytes_read (bytes_write vs) = some vs) :=
  ⟨bytes_read_write vs hv, fun hc => by rw [bytes_read_write vs hv, hc]⟩

theorem c2_roundtrip_canonical_witness :
    validL [Value.vint 1, Value.vstr [97]] = true ∧
    (bytes_read (bytes_write [Value.vint 1, Value.vstr [97]])
        = some (canonL [Value.vint 1, Value.vstr [97]]) ∧
      (canonL [Value.vint 1, Value.vstr [97]] = [Value.vint 1, Value.vstr [97]] →
        bytes_read (bytes_write [Value.vint 1, Value.vstr [97]])
          = some [Value.vint 1, Value.vstr [97]])) :=
  ⟨by decide, c2_roundtrip_canonical [Value.vint 1, Value.vstr [97]] (by decide)⟩

/-- C3 (code bug): `transactional` on a raw `BonafideCnx` can neither commit
nor roll back — the namedtuple has no `commit`, `rollback` or `close`
attributes, so after the wrapped function finishes (normally or not) the
`commit`/`rollback` calls raise `AttributeError`, and the `finally` clause's
`cnx.close()` raises `AttributeError('close')` which replaces every earlier
outcome; the caller always sees `AttributeError('close')`, never the
function's result or its own failure.  Invoked on a `BonafideTxn` the
function does run directly, as claimed. -/
theorem c3_transactional_attribute_error :
    transactionalCnx (Except.ok (42 : Nat))
      = Except.error (PyErr.attributeError "close") ∧
    transactionalCnx (Except.error (PyErr.valueError "boom") : Except PyErr Nat)
      = Except.error (PyErr.attributeError "close") ∧
    ∀ f : Nat → Except PyErr Nat, ∀ x, transactionalTxn f x = f x :=
  ⟨rfl, rfl, fun _ _ => rfl⟩

/-- C4 counterexample: the second ordering example of S5 is reversed in the
implementation — `-1` encodes with tag `0x06` (IntNeg) and `0` with tag
`0x04` (IntZero), and `0x06 > 0x04`, so `bytes_write((-1, "z"))` is
byte-wise greater than `bytes_write((0, "a"))`, not less. -/
theorem c4_order_examples_counterexample :
    lexCmp (bytes_write [Value.vint (-1), Value.vstr [0x7A]])
        (bytes_write [Value.vint 0, Value.vstr [0x61]]) = Ordering.gt := by
  decide

/-- C4 (amended): `bytes_write((1,))` is byte-wise less than
`bytes_write((2,))`, and `bytes_write((0, "a"))` is byte-wise less than
`bytes_write((-1, "z"))` — negative integers sort after zero because the
IntNeg tag `0x06` is greater than the IntZero tag `0x04`. -/
theorem c4_order_examples :
    lexCmp (bytes_write [Value.vint 1]) (bytes_write [Value.vint 2])
      = Ordering.lt ∧
    lexCmp (bytes_write [Value.vint 0, Value.vstr [0x61]])
        (bytes_write [Value.vint (-1), Value.vstr [0x7A]]) = Ordering.lt := by
  decide

/-- C5: size preconditions of `set` (modelled from the spec — the module
implementing the KV `set` with bounds, `bb.py`, is not part of `src/`; its
tests pin the limits): a call with |key| ≤ 1024 and |value| ≤ 1 048 576
succeeds and performs replace-or-insert, while |key| = 1025 or
|value| = 1 048 577 fails with an InvalidInput error. -/
theorem c5_set_size_limits (db : Store) (key value : List Nat)
    (hk : key.length ≤ 1024) (hv : value.length ≤ 1048576) :
    (storage_db_set db key value = Except.ok (storeSet db key value) ∧
     storeGet (storeSet db key value) key = some value ∧
     ∀ k', k' ≠ key → storeGet (storeSet db key value) k' = storeGet db k') ∧
    (∀ k2 v2 : List Nat, k2.length = 1025 →
      storage_db_set db k2 v2
        = Except.error (KvError.invalidInput "Key size exceeds maximum")) ∧
    (∀ k2 v2 : List Nat, k2.length ≤ 1024 → v2.length = 1048577 →
      storage_db_set db k2 v2
        = Except.error (KvError.invalidInput "Value size exceeds maximum")) := by
  refine ⟨⟨?_, storeGet_storeSet_self db key value,
      fun k' hk' => storeGet_storeSet_other db key value k' hk'⟩, ?_, ?_⟩
  · unfold storage_db_set
    rw [if_neg (by omega), if_neg (by omega)]
  · intro k2 v2 h2
    unfold storage_db_set
    rw [if_pos (by omega)]
  · intro k2 v2 h2 h3
    unfold storage_db_set
    rw [if_neg (by omega), if_pos (by omega)]

theorem c5_set_size_limits_witness :
    ([0] : List Nat).length ≤ 1024 ∧ ([1] : List Nat).length ≤ 1048576 ∧
    ((storage_db_set [] [0] [1] = Except.ok (storeSet [] [0] [1]) ∧
      storeGet (storeSet [] [0] [1]) [0] = some [1] ∧
      ∀ k', k' ≠ [0] → storeGet (storeSet [] [0] [1]) k' = storeGet [] k') ∧
     (∀ k2 v2 : List Nat, k2.length = 1025 →
       storage_db_set [] k2 v2
         = Except.error (KvError.invalidInput "Key size exceeds maximum")) ∧
     (∀ k2 v2 : List Nat, k2.length ≤ 1024 → v2.length = 1048577 →
       storage_db_set [] k2 v2
         = Except.error (KvError.invalidInput "Value size exceeds maximum"))) :=
  ⟨by decide, by decide, c5_set_size_limits [] [0] [1] (by decide) (by decide)⟩

/-- C9 counterexample: with one logical CPU the default pool size is
`1 * 2 = 2`, not `max(2*1, 4) = 4` — there is no floor of 4 when
`os.cpu_count()` reports a (truthy) count. -/
theorem c9_pool_size_counterexample :
    new_pool_size none (some 1) = 2 ∧ max (2 * 1) 4 = 4 ∧ (2 : Nat) ≠ 4 := by
  decide

/-- C9 (amended): when `pool_size` is not supplied the default is exactly
`2 * c` for any reported CPU count `c ≥ 1`, and `POOL_SIZE_DEFAULT = 4`
only when `os.cpu_count()` returns `None` (or `0`); there is no floor — a
supplied pool size is kept as-is. -/
theorem c9_pool_size_default (c : Nat) :
    new_pool_size none (some (c + 1)) = 2 * (c + 1) ∧
    new_pool_size none none = POOL_SIZE_DEFAULT ∧
    new_pool_size none (some 0) = POOL_SIZE_DEFAULT ∧
    ∀ p, new_pool_size (some p) (some (c + 1)) = p := by
  refine ⟨?_, rfl, rfl, fun p => rfl⟩
  simp [new_pool_size, pool_size_default, Nat.mul_comm]

/-- C10: the implicit edge case of the successor operator — `bytes_next`
applied to the empty byte string returns the one-byte string `0x00`
(neither an exception nor `None`). -/
theorem c10_bytes_next_empty : bytes_next [] = some [0] := by decide

/-- C6: the permutation planner — for every arity n in [1,7],
`nstore_indices n` returns exactly `C(n, n/2)` permutations of `{0..n-1}`
in lexicographic order such that every non-empty subset `S` of `{0..n-1}`
equals, as a set, the first `|S|` elements of at least one returned
permutation (subsets are enumerated as the sorted lists
`combinations r (range n)`, and set equality as equality of the sorted
first `r` elements); and `nstore_indices 3` and `nstore_indices 4` are the
documented lists. -/
theorem c6_nstore_indices (n : Nat) (h1 : 1 ≤ n) (h7 : n ≤ 7) :
    ((nstore_indices n).length = Nat.choose n (n / 2) ∧
     (∀ idx ∈ nstore_indices n, isortNat idx = List.range n) ∧
     chainLeB (nstore_indices n) = true ∧
     (∀ r, r < n + 1 → 1 ≤ r → ∀ S ∈ combinations r (List.range n),
       ∃ idx ∈ nstore_indices n, isortNat (idx.take r) = S)) ∧
    nstore_indices 3 = [[0,1,2],[1,2,0],[2,0,1]] ∧
    nstore_indices 4
      = [[0,1,2,3],[1,2,3,0],[2,0,3,1],[3,0,1,2],[3,1,2,0],[3,2,0,1]] := by
  refine ⟨?_, by decide, by decide⟩
  interval_cases n <;> decide

theorem c6_nstore_indices_witness :
    1 ≤ 3 ∧ 3 ≤ 7 ∧
    (((nstore_indices 3).length = Nat.choose 3 (3 / 2) ∧
      (∀ idx ∈ nstore_indices 3, isortNat idx = List.range 3) ∧
      chainLeB (nstore_indices 3) = true ∧
      (∀ r, r < 3 + 1 → 1 ≤ r → ∀ S ∈ combinations r (List.range 3),
        ∃ idx ∈ nstore_indices 3, isortNat (idx.take r) = S)) ∧
     nstore_indices 3 = [[0,1,2],[1,2,0],[2,0,1]] ∧
     nstore_indices 4
       = [[0,1,2,3],[1,2,3,0],[2,0,3,1],[3,0,1,2],[3,1,2,0],[3,2,0,1]]) :=
  ⟨by decide, by decide, c6_nstore_indices 3 (by decide) (by decide)⟩

/-! ## Correctness of the successor operator -/

/-- `x` starts with `a`. -/
def pfxOf (a x : List Nat) : Prop := ∃ s, x = a ++ s

/-- A run of `0xFF` longer than `s` is never lexicographically below `s`
(for byte strings). -/
theorem repFF_not_lt (s : List Nat) (K : Nat) (hs : ∀ y ∈ s, y < 256)
    (hK : s.length < K) : lexCmp (List.replicate K 0xFF) s ≠ Ordering.lt := by
  induction s generalizing K with
  | nil =>
    cases K with
    | zero => omega
    | succ k => simp [List.replicate, lexCmp]
  | cons y s' ih =>
    cases K with
    | zero => simp at hK
    | succ k =>
      have hy : y < 256 := hs y (List.mem_cons_self y s')
      rw [List.replicate]
      by_cases he : y = 255
      · have hcmp : compare (255 : Nat) y = Ordering.eq :=
          compare_eq_iff_eq.mpr he.symm
        simp only [lexCmp, hcmp]
        exact ih k (fun z hz => hs z (List.mem_cons_of_mem y hz)) (by simp at hK ⊢; omega)
      · have hlt : y < 255 := by omega
        have hcmp : compare (255 : Nat) y = Ordering.gt :=
          compare_gt_iff_gt.mpr hlt
        simp [lexCmp, hcmp]

/-- Splitting `q ++ y :: t = u ++ [c]`: either the divergence point sits
inside `u`, or `q` is all of `u`. -/
theorem append_singleton_split (q : List Nat) (y : Nat) (t u : List Nat) (c : Nat)
    (h : q ++ y :: t = u ++ [c]) :
    (∃ u2, u = q ++ y :: u2 ∧ t = u2 ++ [c]) ∨ (q = u ∧ y = c ∧ t = []) := by
  induction q generalizing u with
  | nil =>
    cases u with
    | nil =>
      simp only [List.nil_append, List.cons.injEq] at h
      exact Or.inr ⟨rfl, h.1, h.2⟩
    | cons a u1 =>
      simp only [List.nil_append, List.cons_append, List.cons.injEq] at h
      exact Or.inl ⟨u1, by rw [h.1]; rfl, h.2⟩
  | cons b q1 ih =>
    cases u with
    | nil =>
      simp only [List.cons_append, List.nil_append, List.cons.injEq] at h
      exact absurd h.2 (by simp)
    | cons a u1 =>
      simp only [List.cons_append, List.cons.injEq] at h
      rcases ih u1 h.2 with ⟨u2, h1, h2⟩ | ⟨h1, h2, h3⟩
      · exact Or.inl ⟨u2, by rw [h.1, h1, List.cons_append], h2⟩
      · exact Or.inr ⟨by rw [h.1, h1], h2, h3⟩

/-- A strict extension sorts after the string it extends. -/
theorem lexCmp_append_gt (a : List Nat) (d : List Nat) (hd : d ≠ []) :
    lexCmp (a ++ d) a = Ordering.gt := by
  have h := lexCmp_append_cancel a d []
  rw [List.append_nil] at h
  rw [h]
  cases d with
  | nil => exact absurd rfl hd
  | cons x xs => rfl

/-- C8: correctness of the successor operator — for every non-empty byte
string `b`, `bytes_next b` is `none` iff every byte of `b` is `0xFF`, and
when it returns `some r`, `r` is strictly greater than every byte string
starting with `b` and is the least byte string with that property. -/
theorem c8_bytes_next_least_upper (b : List Nat) (hne : b ≠ [])
    (hb : ∀ y ∈ b, y < 256) :
    (bytes_next b = none ↔ ∀ y ∈ b, y = 0xFF) ∧
    (∀ r, bytes_next b = some r →
      (∀ x, pfxOf b x → lexLt x r) ∧
      (∀ u, (∀ y ∈ u, y < 256) →
        (∀ x, (∀ y ∈ x, y < 256) → pfxOf b x → lexLt x u) → lexLe r u)) := by
  refine ⟨bytes_next_eq_none_iff b hne, ?_⟩
  intro r hr
  have hnotff : ¬ ∀ y ∈ b, y = 0xFF := by
    intro hall
    rw [(bytes_next_eq_none_iff b hne).mpr hall] at hr
    cases hr
  obtain ⟨u, c, k, hdec, hc⟩ := exists_rightmost_non_ff b hnotff
  have heval := bytes_next_eval u c k hc
  rw [hdec] at hr
  rw [heval] at hr
  have hrval : r = u ++ [c + 1] := by injection hr with h; exact h.symm
  subst hrval
  constructor
  · rintro x ⟨s, hx⟩
    rw [hx, hdec]
    show lexCmp ((u ++ c :: List.replicate k 0xFF) ++ s) (u ++ [c + 1]) = Ordering.lt
    rw [List.append_assoc, List.cons_append, lexCmp_append_cancel]
    have hcmp : compare c (c + 1) = Ordering.lt := compare_lt_iff_lt.mpr (by omega)
    simp [lexCmp, hcmp]
  · intro u' hu' hub
    by_contra hcon
    have hgt : lexCmp (u ++ [c + 1]) u' = Ordering.gt := by
      unfold lexLe at hcon
      push_neg at hcon
      exact hcon
    have hlt : lexCmp u' (u ++ [c + 1]) = Ordering.lt :=
      (lexCmp_gt_iff_lt _ _).mp hgt
    have hbb : lexCmp b u' = Ordering.lt := hub b hb ⟨[], by simp⟩
    rcases (lexLt_char u' (u ++ [c + 1])).mp hlt with
      ⟨p, x, y, s', t', hxy, hu'eq, hreq⟩ | ⟨y, t', hreq⟩
    · rcases append_singleton_split p y t' u (c + 1) hreq.symm with
        ⟨u2, huu, _⟩ | ⟨hpu, hyc, _⟩
      · rw [hdec, huu, hu'eq] at hbb
        rw [List.append_assoc, List.cons_append, lexCmp_append_cancel] at hbb
        have hcmp : compare y x = Ordering.gt := compare_gt_iff_gt.mpr hxy
        simp [lexCmp, hcmp] at hbb
      · rw [hpu] at hu'eq
        have hxc : x ≤ c := by omega
        by_cases hxlt : x < c
        · rw [hdec, hu'eq, lexCmp_append_cancel] at hbb
          have hcmp : compare c x = Ordering.gt := compare_gt_iff_gt.mpr hxlt
          simp [lexCmp, hcmp] at hbb
        · have hxeq : x = c := by omega
          rw [hxeq] at hu'eq
          have hs'lt : ∀ z ∈ s', z < 256 := by
            intro z hz
            apply hu'
            rw [hu'eq]
            exact List.mem_append_right _ (List.mem_cons_of_mem _ hz)
          have hbytes : ∀ z ∈ b ++ List.replicate (s'.length + 1) 0xFF,
              z < 256 := by
            intro z hz
            rcases List.mem_append.mp hz with h1 | h1
            · exact hb z h1
            · rw [List.eq_of_mem_replicate h1]
              omega
          have hext : lexCmp (b ++ List.replicate (s'.length + 1) 0xFF) u'
              = Ordering.lt :=
            hub _ hbytes ⟨List.replicate (s'.length + 1) 0xFF, rfl⟩
          rw [hdec, hu'eq] at hext
          have hrep : List.replicate k (0xFF : Nat)
              ++ List.replicate (s'.length + 1) 0xFF
              = List.replicate (k + (s'.length + 1)) 0xFF :=
            (List.replicate_add k (s'.length + 1) 0xFF).symm
          have hassoc : (u ++ c :: List.replicate k 0xFF)
              ++ List.replicate (s'.length + 1) 0xFF
              = (u ++ [c]) ++ List.replicate (k + (s'.length + 1)) 0xFF := by
            rw [← hrep]
            simp only [List.append_assoc, List.cons_append, List.nil_append]
          rw [hassoc] at hext
          have hassoc2 : u ++ c :: s' = (u ++ [c]) ++ s' := by
            simp only [List.append_assoc, List.cons_append, List.nil_append]
          rw [hassoc2, lexCmp_append_cancel] at hext
          exact repFF_not_lt s' (k + (s'.length + 1)) hs'lt (by omega) hext
    · rcases append_singleton_split u' y t' u (c + 1) hreq.symm with
        ⟨u2, huu, _⟩ | ⟨hpu, hyc, _⟩
      · rw [hdec, huu] at hbb
        rw [List.append_assoc, List.cons_append] at hbb
        rw [lexCmp_append_gt u' (y :: (u2 ++ c :: List.replicate k 0xFF))
          (by simp)] at hbb
        cases hbb
      · subst hpu
        rw [hdec] at hbb
        rw [lexCmp_append_gt u' (c :: List.replicate k 0xFF) (by simp)] at hbb
        cases hbb

theorem c8_bytes_next_least_upper_witness :
    ([1, 255] : List Nat) ≠ [] ∧ (∀ y ∈ ([1, 255] : List Nat), y < 256) ∧
    ((bytes_next [1, 255] = none ↔ ∀ y ∈ ([1, 255] : List Nat), y = 0xFF) ∧
     (∀ r, bytes_next [1, 255] = some r →
       (∀ x, pfxOf [1, 255] x → lexLt x r) ∧
       (∀ u, (∀ y ∈ u, y < 256) →
         (∀ x, (∀ y ∈ x, y < 256) → pfxOf [1, 255] x → lexLt x u) →
           lexLe r u))) :=
  ⟨by decide, by decide,
    c8_bytes_next_least_upper [1, 255] (by decide) (by decide)⟩

/-! ## Prefix ranges: `[key_start, bytes_next key_start)` -/

/-- Any extension of `b` stays below `bytes_next b`. -/
theorem bytes_next_ext_lt (b r : List Nat) (hne : b ≠ [])
    (hr : bytes_next b = some r) : ∀ s, lexLt (b ++ s) r := by
  have hnotff : ¬ ∀ y ∈ b, y = 0xFF := by
    intro hall
    rw [(bytes_next_eq_none_iff b hne).mpr hall] at hr
    cases hr
  obtain ⟨u, c, k, hdec, hc⟩ := exists_rightmost_non_ff b hnotff
  have heval := bytes_next_eval u c k hc
  rw [hdec] at hr
  rw [heval] at hr
  have hrval : r = u ++ [c + 1] := by injection hr with h; exact h.symm
  subst hrval
  intro s
  rw [hdec]
  show lexCmp ((u ++ c :: List.replicate k 0xFF) ++ s) (u ++ [c + 1]) = Ordering.lt
  rw [List.append_assoc, List.cons_append, lexCmp_append_cancel]
  have hcmp : compare c (c + 1) = Ordering.lt := compare_lt_iff_lt.mpr (by omega)
  simp [lexCmp, hcmp]

/-- A string never byte-wise exceeds its own extension. -/
theorem lexLe_self_append (b s : List Nat) : lexLe b (b ++ s) := by
  show lexCmp b (b ++ s) ≠ Ordering.gt
  have h := lexCmp_append_cancel b [] s
  rw [List.append_nil] at h
  rw [h]
  cases s <;> simp [lexCmp]

/-- A byte string that is at least a run of `0xFF` starts with that run. -/
theorem repFF_le_pfx (t : List Nat) (m : Nat) (ht : ∀ y ∈ t, y < 256)
    (h : lexCmp (List.replicate m 0xFF) t ≠ Ordering.gt) :
    ∃ w, t = List.replicate m 0xFF ++ w := by
  induction m generalizing t with
  | zero => exact ⟨t, rfl⟩
  | succ m ih =>
    cases t with
    | nil =>
      rw [List.replicate] at h
      simp [lexCmp] at h
    | cons z t' =>
      have hz : z < 256 := ht z (List.mem_cons_self z t')
      rw [List.replicate] at h
      by_cases hze : z = 255
      · subst hze
        have hcmp : compare (255 : Nat) 255 = Ordering.eq := compare_eq_iff_eq.mpr rfl
        rw [show lexCmp (255 :: List.replicate m 0xFF) (255 :: t')
            = lexCmp (List.replicate m 0xFF) t' from by simp [lexCmp, hcmp]] at h
        obtain ⟨w, hw⟩ := ih t' (fun y hy => ht y (List.mem_cons_of_mem _ hy)) h
        exact ⟨w, by rw [List.replicate, hw, List.cons_append]⟩
      · have hcmp : compare (255 : Nat) z = Ordering.gt :=
          compare_gt_iff_gt.mpr (by omega)
        simp [lexCmp, hcmp] at h

/-- A byte string lying in `[b, bytes_next b)` starts with `b`. -/
theorem mem_next_range_pfx (b k r : List Nat) (hne : b ≠ [])
    (hk : ∀ y ∈ k, y < 256) (hr : bytes_next b = some r)
    (h1 : lexLe b k) (h2 : lexLt k r) : pfxOf b k := by
  have hnotff : ¬ ∀ y ∈ b, y = 0xFF := by
    intro hall
    rw [(bytes_next_eq_none_iff b hne).mpr hall] at hr
    cases hr
  obtain ⟨u, c, m, hdec, hc⟩ := exists_rightmost_non_ff b hnotff
  have heval := bytes_next_eval u c m hc
  rw [hdec] at hr
  rw [heval] at hr
  have hrval : r = u ++ [c + 1] := by injection hr with h; exact h.symm
  subst hrval
  unfold lexLe at h1
  rcases (lexLt_char k (u ++ [c + 1])).mp h2 with
    ⟨p, x, y, s', t', hxy, hkeq, hreq⟩ | ⟨y, t', hreq⟩
  · rcases append_singleton_split p y t' u (c + 1) hreq.symm with
      ⟨u2, huu, _⟩ | ⟨hpu, hyc, _⟩
    · exfalso
      apply h1
      rw [hdec, huu, hkeq]
      rw [List.append_assoc, List.cons_append, lexCmp_append_cancel]
      have hcmp : compare y x = Ordering.gt := compare_gt_iff_gt.mpr hxy
      simp [lexCmp, hcmp]
    · rw [hpu] at hkeq
      have hxc : x ≤ c := by omega
      by_cases hxlt : x < c
      · exfalso
        apply h1
        rw [hdec, hkeq, lexCmp_append_cancel]
        have hcmp : compare c x = Ordering.gt := compare_gt_iff_gt.mpr hxlt
        simp [lexCmp, hcmp]
      · have hxeq : x = c := by omega
        rw [hxeq] at hkeq
        have hcancel : lexCmp (List.replicate m 0xFF) s' ≠ Ordering.gt := by
          intro hgt
          apply h1
          rw [hdec, hkeq]
          rw [show u ++ c :: List.replicate m 0xFF
              = (u ++ [c]) ++ List.replicate m 0xFF from by
            simp only [List.append_assoc, List.cons_append, List.nil_append]]
          rw [show u ++ c :: s' = (u ++ [c]) ++ s' from by
            simp only [List.append_assoc, List.cons_append, List.nil_append]]
          rw [lexCmp_append_cancel]
          exact hgt
        have hs'256 : ∀ y ∈ s', y < 256 := by
          intro z hz
          apply hk
          rw [hkeq]
          exact List.mem_append_right _ (List.mem_cons_of_mem _ hz)
        obtain ⟨w, hw⟩ := repFF_le_pfx s' m hs'256 hcancel
        refine ⟨w, ?_⟩
        rw [hkeq, hw, hdec]
        simp only [List.append_assoc, List.cons_append, List.nil_append]
  · rcases append_singleton_split k y t' u (c + 1) hreq.symm with
      ⟨u2, huu, _⟩ | ⟨hpu, hyc, _⟩
    · exfalso
      apply h1
      rw [hdec, huu]
      rw [List.append_assoc, List.cons_append]
      exact lexCmp_append_gt k (y :: (u2 ++ c :: List.replicate m 0xFF)) (by simp)
    · exfalso
      apply h1
      rw [hdec, ← hpu]
      exact lexCmp_append_gt k (c :: List.replicate m 0xFF) (by simp)

/-! ## The nstore layer: patterns, permutations, add and single-pattern query -/

/-- A component of a query pattern: a constant value or a `Variable(name)`. -/
inductive Pat where
  | pconst (v : Value) : Pat
  | pvar (name : String) : Pat
deriving Repr, DecidableEq

/-- `isinstance(item, Variable)`. -/
def isVar : Pat → Bool
  | .pvar _ => true
  | .pconst _ => false

/-- `_nstore_pattern_to_combination(pattern)`: positions of the non-variable
elements. -/
def patToComb (pattern : List Pat) : List Nat :=
  (pattern.enum.filter (fun p => !isVar p.2)).map (fun p => p.1)

/-- All insertions of `x` into a list (helper enumerating permutations). -/
def insertAll (x : Nat) : List Nat → List (List Nat)
  | [] => [[x]]
  | y :: ys => (x :: y :: ys) :: (insertAll x ys).map (fun zs => y :: zs)

/-- `itertools.permutations`: all permutations of a list (as an executable,
structurally recursive enumeration). -/
def perms : List Nat → List (List Nat)
  | [] => [[]]
  | x :: xs => ((perms xs).map (insertAll x)).flatten

/-- Does some permutation of `comb` form an initial segment of `index`?
(the inner loop of `_nstore_pattern_to_index`). -/
def combMatches (comb index : List Nat) : Bool :=
  (perms comb).any (fun perm =>
    decide (perm.length ≤ index.length) && perm == index.take perm.length)

/-- The subspace scan of `_nstore_pattern_to_index`. -/
def patternToIndexGo (comb : List Nat) : List (List Nat) → Nat →
    Option (List Nat × Nat)
  | [], _ => none
  | idx :: rest, k =>
    if combMatches comb idx then some (idx, k)
    else patternToIndexGo comb rest (k + 1)

/-- `_nstore_pattern_to_index(pattern, indices)`: the first index (with its
subspace number) some permutation of the pattern's constant positions is a
prefix of; `none` models the `ValueError`. -/
def patternToIndex (pattern : List Pat) (indices : List (List Nat)) :
    Option (List Nat × Nat) :=
  patternToIndexGo (patToComb pattern) indices 0

/-- `_nstore_pattern_to_prefix(pattern, index)`: the pattern's values along
`index` up to the first variable.  (An out-of-range position cannot occur:
every index used is a permutation of `range pattern.length`.) -/
def patternToPfx (pattern : List Pat) : List Nat → List Value
  | [] => []
  | i :: rest =>
    match pattern.getD i (Pat.pvar "") with
    | Pat.pconst v => v :: patternToPfx pattern rest
    | Pat.pvar _ => []

/-- `_nstore_permute(items, index)`. -/
def permute (items : List Value) (index : List Nat) : List Value :=
  index.map (fun i => items.getD i Value.vnull)

/-- `_nstore_unpermute(items, index)`: start from `[None] * len(items)` and
write `items[i]` at position `index[i]`. -/
def unpermute (items : List Value) (index : List Nat) : List Value :=
  (index.zip items).foldl (fun acc p => acc.set p.1 p.2)
    (List.replicate items.length Value.vnull)

/-- Lookup in a binding dictionary (an insertion-ordered association list). -/
def lookupBind (b : List (String × Value)) (n : String) : Option Value :=
  (b.find? (fun p => p.1 == n)).map (fun p => p.2)

/-- `dict.__setitem__`: overwrite in place or append. -/
def dictInsert (d : List (String × Value)) (k : String) (v : Value) :
    List (String × Value) :=
  if d.any (fun p => p.1 == k) then
    d.map (fun p => if p.1 == k then (k, v) else p)
  else d ++ [(k, v)]

/-- `_nstore_bind_pattern(pattern, bindings)`. -/
def bindPattern (pat : List Pat) (b : List (String × Value)) : List Pat :=
  pat.map (fun item =>
    match item with
    | Pat.pvar n =>
      match lookupBind b n with
      | some v => Pat.pconst v
      | none => Pat.pvar n
    | c => c)

/-- `_nstore_bind_tuple(pattern, tuple_items, seed)`. -/
def bindTuple (pat : List Pat) (items : List Value)
    (seed : List (String × Value)) : List (String × Value) :=
  (pat.zip items).foldl (fun acc pt =>
    match pt.1 with
    | Pat.pvar n => dictInsert acc n pt.2
    | Pat.pconst _ => acc) seed

/-- Does a tuple agree with a pattern on every constant position? -/
def matchesPattern (pattern : List Pat) (t : List Value) : Bool :=
  decide (pattern.length = t.length) &&
  (pattern.zip t).all (fun pt =>
    match pt.1 with
    | Pat.pconst v => pt.2 == v
    | Pat.pvar _ => true)

/-- The key `nstore_add`/`nstore_query` build for one subspace: the encoding
of `prefix + (subspace,) + permuted`. -/
def nstoreKey (pfx : List Value) (subspace : Nat) (permuted : List Value) :
    List Nat :=
  bytes_write (pfx ++ [Value.vint (Int.ofNat subspace)] ++ permuted)

/-- `nstore_add(txn, name, items)`: one `set(key, b"\x01")` per subspace. -/
def nstoreAdd (pfx : List Value) (indices : List (List Nat)) (st : Store)
    (items : List Value) : Store :=
  indices.enum.foldl
    (fun acc p => storeSet acc (nstoreKey pfx p.1 (permute items p.2)) [1]) st

/-- The store holding a population of tuples, each inserted with
`nstore_add` into an initially empty table. -/
def buildStore (pfx : List Value) (indices : List (List Nat))
    (pop : List (List Value)) : Store :=
  pop.foldl (nstoreAdd pfx indices) []

/-- The per-row loop body of `nstore_query` as an `Option`-valued map
(a decode failure would raise in Python). -/
def mapOpt : List (List Nat × List Nat) →
    ((List Nat × List Nat) → Option (List (String × Value))) →
    Option (List (List (String × Value)))
  | [], _ => some []
  | row :: rest, f =>
    match f row with
    | none => none
    | some b =>
      match mapOpt rest f with
      | none => none
      | some bs => some (b :: bs)

/-- `nstore_query(txn, name, pattern)` with a single pattern: bind the (empty)
seed binding into the pattern, pick index and subspace, range-scan
`[key_start, key_end)`, and decode each row's key into a binding. -/
def nstoreQuery1 (st : Store) (pfx : List Value)
    (indices : List (List Nat)) (pattern : List Pat) :
    Option (List (List (String × Value))) :=
  let bound := bindPattern pattern []
  match patternToIndex bound indices with
  | none => none
  | some (index, subspace) =>
    let key_start := bytes_write
      (pfx ++ [Value.vint (Int.ofNat subspace)] ++ patternToPfx bound index)
    let key_end := match bytes_next key_start with
      | some e => e
      | none => key_start ++ [0]
    let results := query_range st key_start key_end
    mapOpt results (fun row =>
      match bytes_read row.1 with
      | some unpacked =>
        some (bindTuple pattern
          (unpermute (unpacked.drop (pfx.length + 1)) index) [])
      | none => none)

/-- The byte-level match `nstore_query` actually performs on the chosen
index: the encoded constant prefix of the pattern is a byte prefix of the
encoded permuted tuple. -/
def encMatch (pattern : List Pat) (index : List Nat) (t : List Value) : Prop :=
  pfxOf (bytes_write (patternToPfx pattern index))
    (bytes_write (permute t index))

/-- C7 counterexample: the range scan matches stored keys by byte prefix and
the constants are never re-checked, so a stored tuple whose value strictly
extends a pattern constant byte-wise is returned although it does not match
the pattern.  With arity 2, prefix `("t",)` and the single stored tuple
`("a\x00", "b")`, the pattern `("a", Variable("y"))` yields the spurious
binding `{y: "b"}` even though `"a\x00" ≠ "a"`: the encoded constant
`02 61 00` is a byte prefix of the stored `02 61 00 FF 00`. -/
theorem c7_query_counterexample :
    nstoreQuery1
        (buildStore [Value.vstr [116]] (nstore_indices 2)
          [[Value.vstr [97, 0], Value.vstr [98]]])
        [Value.vstr [116]] (nstore_indices 2)
        [Pat.pconst (Value.vstr [97]), Pat.pvar "y"]
      = some [[("y", Value.vstr [98])]] ∧
    matchesPattern [Pat.pconst (Value.vstr [97]), Pat.pvar "y"]
        [Value.vstr [97, 0], Value.vstr [98]] = false := by
  decide

/-! ## Encoded bytes are bytes -/

theorem esc_all_lt (bs : List Nat) (hb : ∀ y ∈ bs, y < 256) :
    ∀ y ∈ esc bs, y < 256 := by
  induction bs with
  | nil => simp [esc]
  | cons x xs ih =>
    intro y hy
    rw [esc, List.map_cons, List.flatten_cons] at hy
    rcases List.mem_append.mp hy with h1 | h1
    · unfold escByte at h1
      by_cases hx : x = 0
      · rw [if_pos hx] at h1
        rcases List.mem_cons.mp h1 with h2 | h2
        · omega
        · simp at h2
          omega
      · rw [if_neg hx] at h1
        simp at h1
        rw [h1]
        exact hb x (List.mem_cons_self x xs)
    · exact ih (fun z hz => hb z (List.mem_cons_of_mem _ hz)) y h1

theorem xor255_lt : ∀ b < 256, b ^^^ 255 < 256 := by decide

theorem xor128_lt : ∀ b < 256, b ^^^ 128 < 256 := by decide

theorem floatMunge_all_lt (bits : Nat) (_h : bits < 2 ^ 64) :
    ∀ y ∈ floatMunge bits, y < 256 := by
  have hall := beBytes_all_lt 8 bits
  cases hb : beBytes 8 bits with
  | nil => simp [floatMunge, hb]
  | cons b0 rest =>
    have hm : floatMunge bits = if b0 &&& 0x80 ≠ 0 then
        (b0 :: rest).map (fun b => b ^^^ 0xFF) else (b0 ^^^ 0x80) :: rest := by
      unfold floatMunge
      rw [hb]
    rw [hm]
    have hb0 : b0 < 256 := hall b0 (by rw [hb]; exact List.mem_cons_self _ _)
    by_cases hneg : b0 &&& 0x80 ≠ 0
    · rw [if_pos hneg]
      intro y hy
      rcases List.mem_map.mp hy with ⟨z, hz, hzy⟩
      have hz256 : z < 256 := hall z (by rw [hb]; exact hz)
      rw [← hzy]
      exact xor255_lt z hz256
    · rw [if_neg hneg]
      intro y hy
      rcases List.mem_cons.mp hy with h1 | h1
      · rw [h1]
        exact xor128_lt b0 hb0
      · exact hall y (by rw [hb]; exact List.mem_cons_of_mem _ h1)

theorem hexDigitChar_lt (d : Nat) (h : d < 16) : hexDigitChar d < 256 := by
  unfold hexDigitChar
  split <;> omega

theorem hexOfBytes_all_lt (bs : List Nat) (hbs : ∀ b ∈ bs, b < 256) :
    ∀ y ∈ hexOfBytes bs, y < 256 := by
  intro y hy
  unfold hexOfBytes at hy
  rcases List.mem_flatten.mp hy with ⟨l, hl, hyl⟩
  rcases List.mem_map.mp hl with ⟨b, hbmem, hbl⟩
  have hb : b < 256 := hbs b hbmem
  rw [← hbl] at hyl
  rcases List.mem_cons.mp hyl with h1 | h1
  · rw [h1]; exact hexDigitChar_lt _ (by omega)
  · simp at h1
    rw [h1]; exact hexDigitChar_lt _ (by omega)

/-- Every byte of the encoding of a supported value is below 256. -/
theorem encOne_all_lt : ∀ v, validV v = true → ∀ nf, ∀ y ∈ encOne nf v, y < 256 := by
  refine Value.indV
    (fun v => validV v = true → ∀ nf, ∀ y ∈ encOne nf v, y < 256)
    (fun vs => validL vs = true → ∀ y ∈ encList vs, y < 256)
    ?_ ?_ ?_ ?_ ?_ ?_ ?_ ?_ ?_ ?_ ?_ ?_
  · intro _ nf y hy
    cases nf <;> simp [encOne, tNULL] at hy <;> omega
  · intro b _ nf y hy
    cases b <;> simp [encOne, tTRUE, tFALSE] at hy <;> omega
  · intro bs hv nf y hy
    simp only [encOne, tBYTES] at hy
    rcases List.mem_cons.mp hy with h1 | h1
    · omega
    · rcases List.mem_append.mp h1 with h2 | h2
      · exact esc_all_lt bs (by simpa [validV, List.all_eq_true] using hv) y h2
      · simp at h2; omega
  · intro bs hv nf y hy
    simp only [encOne, tSTRING] at hy
    rcases List.mem_cons.mp hy with h1 | h1
    · omega
    · rcases List.mem_append.mp h1 with h2 | h2
      · exact esc_all_lt bs (by simpa [validV, List.all_eq_true] using hv) y h2
      · simp at h2; omega
  · intro n _ nf y hy
    simp only [encOne] at hy
    by_cases h0 : n = 0
    · rw [if_pos h0] at hy
      simp [tINTZERO] at hy
      omega
    · rw [if_neg h0] at hy
      by_cases hpos : 0 < n
      · rw [if_pos hpos] at hy
        rcases List.mem_cons.mp hy with h1 | h1
        · rw [h1]; simp [tINTPOS]
        · exact beBytes_all_lt 8 _ y h1
      · rw [if_neg hpos] at hy
        rcases List.mem_cons.mp hy with h1 | h1
        · rw [h1]; simp [tINTNEG]
        · exact beBytes_all_lt 8 _ y h1
  · intro bits hv nf y hy
    simp only [encOne] at hy
    by_cases hz : floatIsZero bits = true
    · rw [if_pos hz] at hy
      simp [tINTZERO] at hy
      omega
    · rw [if_neg hz] at hy
      rcases List.mem_cons.mp hy with h1 | h1
      · rw [h1]; simp [tFLOAT]
      · exact floatMunge_all_lt bits (by simpa [validV] using hv) y h1
  · intro bs hv nf y hy
    simp only [encOne, tUUID] at hy
    rcases List.mem_cons.mp hy with h1 | h1
    · omega
    · have hp := (by simpa [validV, List.all_eq_true] using hv :
        bs.length = 16 ∧ ∀ z ∈ bs, z < 256)
      exact hp.2 y h1
  · intro bs hv nf y hy
    simp only [encOne, tBBH] at hy
    rcases List.mem_cons.mp hy with h1 | h1
    · omega
    · have hp := (by simpa [validV, List.all_eq_true] using hv :
        bs.length = 32 ∧ ∀ z ∈ bs, z < 256)
      exact hp.2 y h1
  · intro cs _ nf y hy
    simp only [encOne, tBBH] at hy
    rcases List.mem_cons.mp hy with h1 | h1
    · omega
    · exact fromhexD_all_lt cs y h1
  · intro vs ih hv nf y hy
    simp only [encOne, tNESTED] at hy
    rcases List.mem_cons.mp hy with h1 | h1
    · omega
    · rcases List.mem_append.mp h1 with h2 | h2
      · exact ih (by simpa [validV] using hv) y h2
      · simp at h2; omega
  · intro _ y hy
    simp [encList] at hy
  · intro v vs ihv ihl hv y hy
    rw [encList] at hy
    have hv2 := (by simpa [validL] using hv : validV v = true ∧ validL vs = true)
    rcases List.mem_append.mp hy with h1 | h1
    · exact ihv hv2.1 true y h1
    · exact ihl hv2.2 y h1

/-- Every byte written by `bytes_write` on a supported tuple is below 256. -/
theorem bytes_write_all_lt (vs : List Value) (hv : validL vs = true) :
    ∀ y ∈ bytes_write vs, y < 256 := by
  induction vs with
  | nil => simp [bytes_write]
  | cons v vs ih =>
    intro y hy
    rw [bytes_write] at hy
    have hv2 := (by simpa [validL] using hv : validV v = true ∧ validL vs = true)
    rcases List.mem_append.mp hy with h1 | h1
    · exact encOne_all_lt v hv2.1 false y h1
    · exact ih hv2.2 y h1

/-! ## Structural lemmas for the nstore proofs -/

theorem bytes_write_append (a b : List Value) :
    bytes_write (a ++ b) = bytes_write a ++ bytes_write b := by
  induction a with
  | nil => rfl
  | cons v vs ih =>
    rw [List.cons_append, bytes_write, bytes_write, ih, List.append_assoc]

theorem pfxOf_append_cancel (a x y : List Nat) :
    pfxOf (a ++ x) (a ++ y) ↔ pfxOf x y := by
  constructor
  · rintro ⟨d, hd⟩
    rw [List.append_assoc] at hd
    exact ⟨d, List.append_cancel_left hd⟩
  · rintro ⟨d, hd⟩
    exact ⟨d, by rw [hd, List.append_assoc]⟩

theorem pfxOf_refl (a : List Nat) : pfxOf a a := ⟨[], by simp⟩

/-- The encoding of a non-zero natural subspace number. -/
theorem encInt_pos (j : Nat) (hj : j ≠ 0) :
    encOne false (Value.vint (Int.ofNat j)) = tINTPOS :: beBytes 8 j := by
  have h1 : ¬ (Int.ofNat j = 0) := by
    rw [Int.ofNat_eq_natCast]
    omega
  have h2 : 0 < Int.ofNat j := by
    rw [Int.ofNat_eq_natCast]
    omega
  simp only [encOne, if_neg h1, if_pos h2]
  rfl

/-- The encoding of the zero subspace number. -/
theorem encInt_zero : encOne false (Value.vint (Int.ofNat 0)) = [tINTZERO] := by
  decide

/-- Cancelling the integer (subspace) component of a key prefix. -/
theorem encInt_pfx_cancel (s j : Nat) (hs : s < 2 ^ 64) (hj : j < 2 ^ 64)
    (C P : List Nat)
    (h : pfxOf (encOne false (Value.vint (Int.ofNat s)) ++ C)
      (encOne false (Value.vint (Int.ofNat j)) ++ P)) :
    s = j ∧ pfxOf C P := by
  obtain ⟨d, hd⟩ := h
  by_cases hs0 : s = 0
  · by_cases hj0 : j = 0
    · subst hs0; subst hj0
      rw [encInt_zero] at hd
      simp only [List.cons_append, List.nil_append, List.append_assoc,
        List.cons.injEq] at hd
      exact ⟨rfl, d, hd.2⟩
    · exfalso
      subst hs0
      rw [encInt_zero, encInt_pos j hj0] at hd
      simp only [List.cons_append, List.nil_append, List.append_assoc,
        List.cons.injEq] at hd
      have := hd.1
      simp [tINTPOS, tINTZERO] at this
  · by_cases hj0 : j = 0
    · exfalso
      subst hj0
      rw [encInt_zero, encInt_pos s hs0] at hd
      simp only [List.cons_append, List.nil_append, List.append_assoc,
        List.cons.injEq] at hd
      have := hd.1
      simp [tINTPOS, tINTZERO] at this
    · rw [encInt_pos s hs0, encInt_pos j hj0] at hd
      simp only [List.cons_append, List.append_assoc, List.cons.injEq] at hd
      have htail : beBytes 8 j ++ P = beBytes 8 s ++ (C ++ d) := hd.2
      have hlen : (beBytes 8 j).length = (beBytes 8 s).length := by
        rw [beBytes_length, beBytes_length]
      obtain ⟨hbe, hrest⟩ := List.append_inj htail hlen
      have h256 : (256 : Nat) ^ 8 = 2 ^ 64 := by norm_num
      have hjval := fromBE_beBytes 8 j (by omega)
      have hsval := fromBE_beBytes 8 s (by omega)
      have hsj : j = s := by
        rw [← hjval, ← hsval, hbe]
      exact ⟨hsj.symm, d, hrest⟩

/-- A key present in the table (with some value). -/
def keyMem (st : Store) (k : List Nat) : Prop := ∃ v, (k, v) ∈ st

theorem keyMem_storeSet (st : Store) (k0 v0 : List Nat) (k : List Nat) :
    keyMem (storeSet st k0 v0) k ↔ k = k0 ∨ keyMem st k := by
  unfold storeSet
  by_cases h : st.any (fun kv => kv.1 == k0) = true
  · rw [if_pos h]
    constructor
    · rintro ⟨v, hv⟩
      rcases List.mem_map.mp hv with ⟨row, hrow, heq⟩
      by_cases hk : (row.1 == k0) = true
      · rw [if_pos hk] at heq
        exact Or.inl (by injection heq with h1 _; exact h1.symm)
      · rw [if_neg hk] at heq
        exact Or.inr ⟨v, heq ▸ hrow⟩
    · rintro (hk | ⟨v, hv⟩)
      · subst hk
        rcases List.any_eq_true.mp h with ⟨row, hrow, hkey⟩
        refine ⟨v0, List.mem_map.mpr ⟨row, hrow, ?_⟩⟩
        rw [if_pos hkey]
      · by_cases hk : k = k0
        · subst hk
          rcases List.any_eq_true.mp h with ⟨row, hrow, hkey⟩
          refine ⟨v0, List.mem_map.mpr ⟨row, hrow, ?_⟩⟩
          rw [if_pos hkey]
        · refine ⟨v, List.mem_map.mpr ⟨(k, v), hv, ?_⟩⟩
          rw [if_neg (by simpa using hk)]
  · rw [if_neg h]
    constructor
    · rintro ⟨v, hv⟩
      rcases List.mem_append.mp hv with h1 | h1
      · exact Or.inr ⟨v, h1⟩
      · simp at h1
        exact Or.inl h1.1
    · rintro (hk | ⟨v, hv⟩)
      · exact ⟨v0, List.mem_append_right _ (by simp [hk])⟩
      · exact ⟨v, List.mem_append_left _ hv⟩

theorem keyMem_foldl_storeSet (pfx : List Value) (t : List Value)
    (pairs : List (Nat × List Nat)) (st : Store) (k : List Nat) :
    keyMem (pairs.foldl
        (fun acc p => storeSet acc (nstoreKey pfx p.1 (permute t p.2)) [1]) st) k
      ↔ keyMem st k ∨ ∃ p ∈ pairs, k = nstoreKey pfx p.1 (permute t p.2) := by
  induction pairs generalizing st with
  | nil => simp
  | cons p ps ih =>
    rw [List.foldl_cons, ih, keyMem_storeSet]
    constructor
    · rintro ((h1 | h1) | ⟨q, hq, hk⟩)
      · exact Or.inr ⟨p, List.mem_cons_self _ _, h1⟩
      · exact Or.inl h1
      · exact Or.inr ⟨q, List.mem_cons_of_mem _ hq, hk⟩
    · rintro (h1 | ⟨q, hq, hk⟩)
      · exact Or.inl (Or.inr h1)
      · rcases List.mem_cons.mp hq with h2 | h2
        · exact Or.inl (Or.inl (by rw [hk, h2]))
        · exact Or.inr ⟨q, h2, hk⟩

theorem keyMem_nstoreAdd (pfx : List Value) (indices : List (List Nat))
    (st : Store) (t : List Value) (k : List Nat) :
    keyMem (nstoreAdd pfx indices st t) k ↔
      keyMem st k ∨ ∃ p ∈ indices.enum, k = nstoreKey pfx p.1 (permute t p.2) :=
  keyMem_foldl_storeSet pfx t indices.enum st k

theorem keyMem_buildStore (pfx : List Value) (indices : List (List Nat))
    (pop : List (List Value)) (k : List Nat) :
    keyMem (buildStore pfx indices pop) k ↔
      ∃ t ∈ pop, ∃ p ∈ indices.enum, k = nstoreKey pfx p.1 (permute t p.2) := by
  unfold buildStore
  have hgen : ∀ st : Store, keyMem (pop.foldl (nstoreAdd pfx indices) st) k ↔
      keyMem st k ∨ ∃ t ∈ pop, ∃ p ∈ indices.enum,
        k = nstoreKey pfx p.1 (permute t p.2) := by
    induction pop with
    | nil => simp
    | cons t ts ih =>
      intro st
      rw [List.foldl_cons, ih, keyMem_nstoreAdd]
      constructor
      · rintro ((h1 | h1) | ⟨q, hq, hk⟩)
        · exact Or.inl h1
        · exact Or.inr ⟨t, List.mem_cons_self _ _, h1⟩
        · exact Or.inr ⟨q, List.mem_cons_of_mem _ hq, hk⟩
      · rintro (h1 | ⟨q, hq, hk⟩)
        · exact Or.inl (Or.inl h1)
        · rcases List.mem_cons.mp hq with h2 | h2
          · exact Or.inl (Or.inr (h2 ▸ hk))
          · exact Or.inr ⟨q, h2, hk⟩
  rw [hgen]
  simp [keyMem]

/-- Membership in `List.enumFrom` in terms of positions. -/
theorem mem_enumFrom_iff {α : Type} (l : List α) (s : Nat) (p : Nat × α) :
    p ∈ List.enumFrom s l ↔ s ≤ p.1 ∧ l.get? (p.1 - s) = some p.2 := by
  induction l generalizing s with
  | nil => simp
  | cons x xs ih =>
    rw [List.enumFrom]
    constructor
    · intro hp
      rcases List.mem_cons.mp hp with h1 | h1
      · rw [h1]
        simp
      · have := (ih (s + 1)).mp h1
        refine ⟨by omega, ?_⟩
        have hgt : s < p.1 := by omega
        rw [show p.1 - s = (p.1 - (s + 1)) + 1 from by omega]
        simpa using this.2
    · rintro ⟨hle, hget⟩
      by_cases he : p.1 = s
      · cases p with
        | mk i a =>
          simp only at he
          subst he
          simp only [Nat.sub_self, List.get?] at hget
          injection hget with h2
          rw [h2]
          exact List.mem_cons_self _ _
      · have hgt : s < p.1 := by omega
        apply List.mem_cons_of_mem
        apply (ih (s + 1)).mpr
        refine ⟨by omega, ?_⟩
        rw [show p.1 - (s + 1) = (p.1 - s) - 1 from by omega]
        rw [show p.1 - s = ((p.1 - s) - 1) + 1 from by omega] at hget
        simpa using hget

theorem mem_enum_iff {α : Type} (l : List α) (p : Nat × α) :
    p ∈ l.enum ↔ l.get? p.1 = some p.2 := by
  rw [List.enum, mem_enumFrom_iff]
  simp

/-- What success of the subspace scan guarantees. -/
theorem patternToIndexGo_spec (comb : List Nat) (idxs : List (List Nat))
    (s : Nat) (index : List Nat) (k : Nat)
    (h : patternToIndexGo comb idxs s = some (index, k)) :
    s ≤ k ∧ k - s < idxs.length ∧ idxs.get? (k - s) = some index ∧
      combMatches comb index = true := by
  induction idxs generalizing s with
  | nil => simp [patternToIndexGo] at h
  | cons idx rest ih =>
    rw [patternToIndexGo] at h
    by_cases hm : combMatches comb idx = true
    · rw [if_pos hm] at h
      injection h with h1
      injection h1 with h2 h3
      subst h2
      subst h3
      simp [hm]
    · rw [if_neg hm] at h
      have := ih (s + 1) h
      refine ⟨by omega, by simp; omega, ?_, this.2.2.2⟩
      have hgt : s < k := by omega
      rw [show k - s = (k - (s + 1)) + 1 from by omega]
      simpa using this.2.2.1

/-- Membership in the constant-position list. -/
theorem mem_patToComb (pattern : List Pat) (i : Nat) :
    i ∈ patToComb pattern ↔
      ∃ item, pattern.get? i = some item ∧ isVar item = false := by
  unfold patToComb
  constructor
  · intro hi
    rcases List.mem_map.mp hi with ⟨p, hp, hpi⟩
    rcases List.mem_filter.mp hp with ⟨hmem, hvar⟩
    refine ⟨p.2, ?_, by simpa using hvar⟩
    rw [← hpi]
    exact (mem_enum_iff pattern p).mp hmem
  · rintro ⟨item, hget, hvar⟩
    refine List.mem_map.mpr ⟨(i, item), ?_, rfl⟩
    refine List.mem_filter.mpr ⟨(mem_enum_iff pattern (i, item)).mpr hget, ?_⟩
    simp [hvar]

/-- The value of the pattern at a constant position (default for variables
and out-of-range positions). -/
def constD (pattern : List Pat) (i : Nat) : Value :=
  match pattern.getD i (Pat.pvar "") with
  | Pat.pconst v => v
  | Pat.pvar _ => Value.vnull

theorem getD_eq_get? {α : Type} (l : List α) (i : Nat) (d : α) :
    l.getD i d = (l.get? i).getD d := by
  induction l generalizing i with
  | nil => cases i <;> rfl
  | cons x xs ih =>
    cases i with
    | zero => rfl
    | succ n => exact ih n

/-- `patternToPfx` on a block of constant positions followed by a variable
position (or nothing). -/
theorem patternToPfx_block (pattern : List Pat) (idx1 idx2 : List Nat)
    (h1 : ∀ i ∈ idx1, ∃ v, pattern.getD i (Pat.pvar "") = Pat.pconst v)
    (h2 : idx2 = [] ∨ ∃ i rest, idx2 = i :: rest ∧
      isVar (pattern.getD i (Pat.pvar "")) = true) :
    patternToPfx pattern (idx1 ++ idx2) = idx1.map (constD pattern) := by
  induction idx1 with
  | nil =>
    rcases h2 with h2 | ⟨i, rest, hr, hv⟩
    · rw [h2]
      rfl
    · rw [hr]
      simp only [List.nil_append, List.map_nil, patternToPfx]
      rcases hget : pattern.getD i (Pat.pvar "") with v | n
      · rw [hget] at hv
        simp [isVar] at hv
      · rfl
  | cons i idx1' ih =>
    obtain ⟨v, hv⟩ := h1 i (List.mem_cons_self _ _)
    rw [List.cons_append, patternToPfx, hv]
    rw [ih (fun j hj => h1 j (List.mem_cons_of_mem _ hj))]
    rw [List.map_cons]
    unfold constD
    rw [hv]

/-! ## `unpermute` inverts `permute` for permutation indices -/

theorem foldl_set_length {α : Type} (pairs : List (Nat × α)) (acc : List α) :
    (pairs.foldl (fun a p => a.set p.1 p.2) acc).length = acc.length := by
  induction pairs generalizing acc with
  | nil => rfl
  | cons p ps ih => rw [List.foldl_cons, ih, List.length_set]

theorem foldl_set_getD {α : Type} (pairs : List (Nat × α)) (acc : List α)
    (j : Nat) (d : α) (hnd : (pairs.map Prod.fst).Nodup) :
    (pairs.foldl (fun a p => a.set p.1 p.2) acc).getD j d =
      match pairs.find? (fun p => p.1 == j) with
      | some p => if j < acc.length then p.2 else d
      | none => acc.getD j d := by
  induction pairs generalizing acc with
  | nil => rfl
  | cons p ps ih =>
    rw [List.foldl_cons]
    rw [List.map_cons, List.nodup_cons] at hnd
    by_cases hpj : (p.1 == j) = true
    · simp only [List.find?, hpj]
      have hj : p.1 = j := by simpa using hpj
      have hfind : ps.find? (fun q => q.1 == j) = none := by
        rw [List.find?_eq_none]
        intro q hq hqj
        apply hnd.1
        rw [hj]
        have hq1 : q.1 = j := by simpa using hqj
        rw [← hq1]
        exact List.mem_map.mpr ⟨q, hq, rfl⟩
      rw [ih _ hnd.2, hfind]
      show (acc.set p.1 p.2).getD j d = if j < acc.length then p.2 else d
      rw [getD_eq_get?, ← hj, List.get?_set_eq]
      by_cases hjl : p.1 < acc.length
      · rw [List.get?_eq_get hjl, if_pos hjl]
        rfl
      · rw [List.get?_eq_none.mpr (by omega), if_neg hjl]
        rfl
    · have hpj' : (p.1 == j) = false := by simpa using hpj
      simp only [List.find?, hpj']
      rw [ih _ hnd.2]
      have hset : (acc.set p.1 p.2).getD j d = acc.getD j d := by
        rw [getD_eq_get?, getD_eq_get?, List.get?_set_ne]
        intro he
        rw [he] at hpj
        simp at hpj
      rw [List.length_set]
      cases ps.find? (fun q => q.1 == j) with
      | none => exact hset
      | some q => rfl

theorem find_zip_map (index : List Nat) (f : Nat → Value) (j : Nat)
    (hj : j ∈ index) :
    (index.zip (index.map f)).find? (fun p => p.1 == j) = some (j, f j) := by
  induction index with
  | nil => simp at hj
  | cons i rest ih =>
    rw [List.map_cons, List.zip_cons_cons, List.find?]
    by_cases hij : (i == j) = true
    · simp only [hij]
      have : i = j := by simpa using hij
      rw [this]
    · have hij' : (i == j) = false := by simpa using hij
      simp only [hij']
      have hjr : j ∈ rest := by
        rcases List.mem_cons.mp hj with h1 | h1
        · exfalso
          rw [h1] at hij'
          simp at hij'
        · exact h1
      exact ih hjr

theorem range_map_getD {α : Type} (l : List α) (d : α) :
    (List.range l.length).map (fun j => l.getD j d) = l := by
  induction l with
  | nil => rfl
  | cons x xs ih =>
    rw [List.length_cons, List.range_succ_eq_map, List.map_cons]
    congr 1
    rw [List.map_map]
    have : ((fun j => (x :: xs).getD j d) ∘ Nat.succ) = fun j => xs.getD j d := by
      funext j
      rfl
    rw [this, ih]

/-- For a permutation index of `range n`, `unpermute` undoes `permute`. -/
theorem unpermute_permute (t : List Value) (index : List Nat)
    (hnd : index.Nodup) (hlen : index.length = t.length)
    (_hlt : ∀ i ∈ index, i < t.length)
    (hcover : ∀ j < t.length, j ∈ index) :
    unpermute (permute t index) index = t := by
  unfold unpermute permute
  have hplen : (index.map (fun i => t.getD i Value.vnull)).length = t.length := by
    rw [List.length_map, hlen]
  rw [hplen]
  have hzip : index.zip (index.map (fun i => t.getD i Value.vnull))
      = index.zip (index.map (fun i => t.getD i Value.vnull)) := rfl
  apply List.ext_getElem
  · rw [foldl_set_length, List.length_replicate]
  · intro j hj1 hj2
    have hjlen : j < t.length := by
      rw [foldl_set_length, List.length_replicate] at hj1
      exact hj1
    have hfst : (index.zip (index.map (fun i => t.getD i Value.vnull))).map
        Prod.fst = index := by
      rw [List.map_fst_zip]
      rw [List.length_map]
    have hnd2 : ((index.zip (index.map (fun i => t.getD i Value.vnull))).map
        Prod.fst).Nodup := by
      rw [hfst]
      exact hnd
    have hgd := foldl_set_getD
      (index.zip (index.map (fun i => t.getD i Value.vnull)))
      (List.replicate t.length Value.vnull) j Value.vnull hnd2
    rw [find_zip_map index (fun i => t.getD i Value.vnull) j
      (hcover j hjlen)] at hgd
    rw [List.length_replicate] at hgd
    have hgd2 : (List.foldl (fun a p => a.set p.1 p.2)
        (List.replicate t.length Value.vnull)
        (index.zip (index.map (fun i => t.getD i Value.vnull)))).getD j
          Value.vnull
        = if j < t.length then t.getD j Value.vnull else Value.vnull := hgd
    rw [if_pos hjlen] at hgd2
    have hg1 : (List.foldl (fun a p => a.set p.1 p.2)
        (List.replicate t.length Value.vnull)
        (index.zip (index.map (fun i => t.getD i Value.vnull))))[j] =
        (List.foldl (fun a p => a.set p.1 p.2)
        (List.replicate t.length Value.vnull)
        (index.zip (index.map (fun i => t.getD i Value.vnull)))).getD j
          Value.vnull := by
      rw [getD_eq_get?, List.get?_eq_get hj1]
      rfl
    rw [hg1, hgd2]
    rw [getD_eq_get?, List.get?_eq_get hjlen]
    rfl

/-! ## Decoding the scanned rows -/

theorem mapOpt_total (rows : List (List Nat × List Nat))
    (f : (List Nat × List Nat) → Option (List (String × Value)))
    (h : ∀ row ∈ rows, ∃ b, f row = some b) :
    ∃ L, mapOpt rows f = some L := by
  induction rows with
  | nil => exact ⟨[], rfl⟩
  | cons row rest ih =>
    obtain ⟨b, hb⟩ := h row (List.mem_cons_self _ _)
    obtain ⟨L, hL⟩ := ih (fun r hr => h r (List.mem_cons_of_mem _ hr))
    refine ⟨b :: L, ?_⟩
    rw [mapOpt, hb, hL]

theorem mapOpt_mem (rows : List (List Nat × List Nat))
    (f : (List Nat × List Nat) → Option (List (String × Value)))
    (L : List (List (String × Value))) (h : mapOpt rows f = some L)
    (b : List (String × Value)) :
    b ∈ L ↔ ∃ row ∈ rows, f row = some b := by
  induction rows generalizing L with
  | nil =>
    rw [mapOpt] at h
    injection h with h1
    rw [← h1]
    simp
  | cons row rest ih =>
    rw [mapOpt] at h
    cases hf : f row with
    | none => rw [hf] at h; cases h
    | some b0 =>
      rw [hf] at h
      cases hm : mapOpt rest f with
      | none => rw [hm] at h; cases h
      | some L0 =>
        rw [hm] at h
        injection h with h1
        rw [← h1]
        constructor
        · intro hb
          rcases List.mem_cons.mp hb with h2 | h2
          · exact ⟨row, List.mem_cons_self _ _, by rw [hf, h2]⟩
          · obtain ⟨r, hr, hrb⟩ := (ih L0 hm).mp h2
            exact ⟨r, List.mem_cons_of_mem _ hr, hrb⟩
        · rintro ⟨r, hr, hrb⟩
          rcases List.mem_cons.mp hr with h2 | h2
          · rw [h2, hf] at hrb
            injection hrb with h3
            rw [← h3]
            exact List.mem_cons_self _ _
          · exact List.mem_cons_of_mem _ ((ih L0 hm).mpr ⟨r, h2, hrb⟩)

/-! ## Canonical forms and validity over list operations -/

theorem canonL_map (vs : List Value) : canonL vs = vs.map canonV := by
  induction vs with
  | nil => rfl
  | cons v vs ih => rw [canonL, List.map_cons, ih]

theorem canonL_append (a b : List Value) :
    canonL (a ++ b) = canonL a ++ canonL b := by
  rw [canonL_map, canonL_map, canonL_map, List.map_append]

theorem canonL_length (a : List Value) : (canonL a).length = a.length := by
  rw [canonL_map, List.length_map]

theorem canonL_fix_mem (t : List Value) (hc : canonL t = t) :
    ∀ v ∈ t, canonV v = v := by
  rw [canonL_map] at hc
  intro v hv
  induction t with
  | nil => simp at hv
  | cons x xs ih =>
    rw [List.map_cons] at hc
    injection hc with h1 h2
    rcases List.mem_cons.mp hv with h3 | h3
    · rw [h3]; exact h1
    · exact ih h2 h3

theorem validL_append (a b : List Value) :
    validL (a ++ b) = (validL a && validL b) := by
  induction a with
  | nil => simp [validL]
  | cons v vs ih =>
    rw [List.cons_append, validL, validL, ih, Bool.and_assoc]

theorem validL_iff_mem (vs : List Value) :
    validL vs = true ↔ ∀ v ∈ vs, validV v = true := by
  induction vs with
  | nil => simp [validL]
  | cons v vs ih =>
    rw [validL, Bool.and_eq_true, ih]
    simp

theorem bindPattern_nil (pat : List Pat) : bindPattern pat [] = pat := by
  unfold bindPattern
  have h : ∀ item : Pat, (match item with
      | Pat.pvar n =>
        match lookupBind [] n with
        | some v => Pat.pconst v
        | none => Pat.pvar n
      | c => c) = item := by
    intro item
    cases item with
    | pconst v => rfl
    | pvar n => rfl
  rw [List.map_congr_left (fun item _ => h item)]
  exact List.map_id pat

/-- `matchesPattern` forces the tuple's value at every constant position. -/
theorem matchesPattern_getD (pattern : List Pat) (t : List Value) :
    matchesPattern pattern t = true → ∀ i v,
      pattern.get? i = some (Pat.pconst v) → t.getD i Value.vnull = v := by
  induction pattern generalizing t with
  | nil =>
    intro _ i v hget
    simp at hget
  | cons p ps ih =>
    intro hm i v hget
    cases t with
    | nil =>
      exfalso
      unfold matchesPattern at hm
      simp at hm
    | cons x xs =>
      have hparts : decide ((p :: ps).length = (x :: xs).length) = true ∧
          (((p :: ps).zip (x :: xs)).all fun pt =>
            match pt.1 with
            | Pat.pconst v => pt.2 == v
            | Pat.pvar _ => true) = true := by
        rw [← Bool.and_eq_true]
        exact hm
      have hall := hparts.2
      rw [List.zip_cons_cons, List.all_cons, Bool.and_eq_true] at hall
      have hm2 : matchesPattern ps xs = true := by
        unfold matchesPattern
        rw [Bool.and_eq_true]
        refine ⟨?_, hall.2⟩
        have := hparts.1
        simp at this ⊢
        omega
      cases i with
      | zero =>
        rw [List.get?] at hget
        injection hget with h1
        have h0 := hall.1
        rw [h1] at h0
        have h0x : (x == v) = true := h0
        exact (show x = v by simpa using h0x)
      | succ n =>
        rw [List.get?] at hget
        show xs.getD n Value.vnull = v
        exact ih xs hm2 n v hget

/-! ## Bool/Prop bridges for the range bounds -/

theorem lexLeB_iff (a b : List Nat) : lexLeB a b = true ↔ lexLe a b := by
  unfold lexLeB lexLe
  cases h : lexCmp a b <;> simp <;> decide

theorem lexLtB_iff (a b : List Nat) : lexLtB a b = true ↔ lexLt a b := by
  unfold lexLtB lexLt
  cases h : lexCmp a b <;> simp <;> decide

/-! ## Facts about the planner output and the chosen index -/

theorem nstore_indices_facts (n : Nat) (h1 : 1 ≤ n) (h7 : n ≤ 7) :
    (nstore_indices n).length ≤ 35 ∧
    ∀ idx ∈ nstore_indices n, idx.Nodup ∧ idx.length = n ∧
      (∀ i ∈ idx, i < n) ∧ (∀ j < n, j ∈ idx) := by
  interval_cases n <;> decide

theorem validV_int_ofNat (j : Nat) (h : j < 2 ^ 64) :
    validV (Value.vint (Int.ofNat j)) = true := by
  simp only [validV, Int.ofNat_eq_natCast, decide_eq_true_eq]
  omega

theorem getD_mem_of_lt {α : Type} (l : List α) (i : Nat) (d : α)
    (h : i < l.length) : l.getD i d ∈ l := by
  rw [getD_eq_get?, List.get?_eq_get h]
  exact List.get_mem l i h

theorem mem_insertAll_perm (x : Nat) (ys z : List Nat)
    (h : z ∈ insertAll x ys) : z.Perm (x :: ys) := by
  induction ys generalizing z with
  | nil =>
    simp [insertAll] at h
    rw [h]
  | cons y ys ih =>
    rw [insertAll] at h
    rcases List.mem_cons.mp h with h1 | h1
    · rw [h1]
    · rcases List.mem_map.mp h1 with ⟨zs, hzs, hz⟩
      rw [← hz]
      exact (List.Perm.cons y (ih zs hzs)).trans (List.Perm.swap x y ys)

theorem mem_perms_perm (l p : List Nat) (h : p ∈ perms l) : p.Perm l := by
  induction l generalizing p with
  | nil =>
    simp [perms] at h
    rw [h]
  | cons x xs ih =>
    rw [perms] at h
    rcases List.mem_flatten.mp h with ⟨block, hblock, hp⟩
    rcases List.mem_map.mp hblock with ⟨q, hq, hqb⟩
    rw [← hqb] at hp
    exact (mem_insertAll_perm x q p hp).trans (List.Perm.cons x (ih q hq))

/-- What a successful `combMatches` test says about the chosen index. -/
theorem combMatches_decomp (pattern : List Pat) (index : List Nat)
    (hnd : index.Nodup)
    (hmatch : combMatches (patToComb pattern) index = true) :
    (patToComb pattern).length ≤ index.length ∧
    (∀ i ∈ index.take (patToComb pattern).length,
      ∃ v, pattern.get? i = some (Pat.pconst v)) ∧
    patternToPfx pattern index
      = (index.take (patToComb pattern).length).map (constD pattern) := by
  unfold combMatches at hmatch
  rcases List.any_eq_true.mp hmatch with ⟨perm, hpermMem, hcond⟩
  rw [Bool.and_eq_true] at hcond
  have hple : perm.length ≤ index.length := of_decide_eq_true hcond.1
  have htake : perm = index.take perm.length := by
    have := hcond.2
    simpa using this
  have hperm : perm.Perm (patToComb pattern) :=
    mem_perms_perm (patToComb pattern) perm hpermMem
  have hlen : perm.length = (patToComb pattern).length := hperm.length_eq
  have hconsts : ∀ i ∈ index.take (patToComb pattern).length,
      ∃ v, pattern.get? i = some (Pat.pconst v) := by
    intro i hi
    rw [← hlen, ← htake] at hi
    have hic : i ∈ patToComb pattern := (hperm.mem_iff).mp hi
    obtain ⟨item, hget, hvar⟩ := (mem_patToComb pattern i).mp hic
    cases item with
    | pconst v => exact ⟨v, hget⟩
    | pvar _ => simp [isVar] at hvar
  refine ⟨by omega, hconsts, ?_⟩
  have hblock := patternToPfx_block pattern
    (index.take (patToComb pattern).length)
    (index.drop (patToComb pattern).length)
    (by
      intro i hi
      obtain ⟨v, hv⟩ := hconsts i hi
      exact ⟨v, by rw [getD_eq_get?, hv]; rfl⟩)
    (by
      cases hdrop : index.drop (patToComb pattern).length with
      | nil => exact Or.inl rfl
      | cons im rest =>
        refine Or.inr ⟨im, rest, rfl, ?_⟩
        have hnd2 := hnd
        rw [← List.take_append_drop (patToComb pattern).length index,
          List.nodup_append] at hnd2
        have himdrop : im ∈ index.drop (patToComb pattern).length := by
          rw [hdrop]
          exact List.mem_cons_self _ _
        have himtake : im ∉ index.take (patToComb pattern).length := by
          intro hc
          exact hnd2.2.2 hc himdrop
        have himcomb : im ∉ patToComb pattern := by
          intro hc
          apply himtake
          rw [← hlen, ← htake]
          exact (hperm.mem_iff).mpr hc
        rw [getD_eq_get?]
        cases hg : pattern.get? im with
        | none => rfl
        | some item =>
          cases item with
          | pvar _ => rfl
          | pconst v =>
            exfalso
            apply himcomb
            exact (mem_patToComb pattern im).mpr ⟨Pat.pconst v, hg, rfl⟩)
  rw [List.take_append_drop] at hblock
  exact hblock

/-- Every tuple that matches the pattern passes the byte-prefix test. -/
theorem matches_encMatch (pattern : List Pat) (t : List Value)
    (index : List Nat) (hnd : index.Nodup)
    (hmatch : combMatches (patToComb pattern) index = true)
    (hm : matchesPattern pattern t = true) :
    encMatch pattern index t := by
  obtain ⟨hle, hconsts, hpfx⟩ := combMatches_decomp pattern index hnd hmatch
  unfold encMatch
  rw [hpfx]
  have hsplit : permute t index
      = (index.take (patToComb pattern).length).map
          (fun i => t.getD i Value.vnull)
        ++ (index.drop (patToComb pattern).length).map
          (fun i => t.getD i Value.vnull) := by
    unfold permute
    rw [← List.map_append, List.take_append_drop]
  rw [hsplit, bytes_write_append]
  have hmapeq : (index.take (patToComb pattern).length).map
        (fun i => t.getD i Value.vnull)
      = (index.take (patToComb pattern).length).map (constD pattern) := by
    apply List.map_congr_left
    intro i hi
    obtain ⟨v, hv⟩ := hconsts i hi
    rw [matchesPattern_getD pattern t hm i v hv]
    unfold constD
    rw [getD_eq_get?, hv]
    rfl
  rw [hmapeq]
  exact ⟨_, rfl⟩

/-- Every constant of the pattern is a codec-supported value. -/
def patOK (pattern : List Pat) : Bool :=
  pattern.all (fun p =>
    match p with
    | Pat.pconst v => validV v
    | Pat.pvar _ => true)

theorem bytes_write_single (v : Value) : bytes_write [v] = encOne false v := by
  simp [bytes_write]

/-- Byte-prefix comparison of two nstore keys sharing the table prefix. -/
theorem nstore_key_pfx_iff (pfx consts P : List Value) (s j : Nat)
    (hs : s < 2 ^ 64) (hj : j < 2 ^ 64) :
    pfxOf (bytes_write (pfx ++ [Value.vint (Int.ofNat s)] ++ consts))
      (bytes_write (pfx ++ [Value.vint (Int.ofNat j)] ++ P)) ↔
    s = j ∧ pfxOf (bytes_write consts) (bytes_write P) := by
  simp only [bytes_write_append, bytes_write_single, List.append_assoc]
  rw [pfxOf_append_cancel]
  constructor
  · intro h
    exact encInt_pfx_cancel s j hs hj _ _ h
  · rintro ⟨hsj, d, hd⟩
    subst hsj
    refine (pfxOf_append_cancel _ _ _).mpr ⟨d, hd⟩

theorem validV_int_cast (j : Nat) (h : j < 2 ^ 64) :
    validV (Value.vint (j : Int)) = true := by
  simp only [validV, decide_eq_true_eq]
  omega

/-- The per-row decoding step of `nstore_query` (the body of the lambda in
`nstoreQuery1`). -/
def rowMapper (pfx : List Value) (index : List Nat) (pattern : List Pat)
    (row : List Nat × List Nat) : Option (List (String × Value)) :=
  match bytes_read row.1 with
  | some unpacked =>
    some (bindTuple pattern
      (unpermute (unpacked.drop (pfx.length + 1)) index) [])
  | none => none

/-- C7 (amended): with a single pattern over a populated nstore,
`nstore_query` returns exactly the bindings of those stored tuples whose
encoded permuted form starts, byte for byte, with the encoded constant
prefix of the pattern on the chosen index (`encMatch`); every tuple that
matches the pattern in the claimed sense is among these (no matching
binding is missing), but the converse can fail when a stored value's
encoding strictly extends a constant's encoding, so a non-matching binding
may appear. -/
theorem c7_query_single_pattern (n : Nat) (pfx : List Value)
    (pop : List (List Value)) (pattern : List Pat)
    (index : List Nat) (subspace : Nat)
    (hn1 : 1 ≤ n) (hn7 : n ≤ 7)
    (hpfxv : validL pfx = true)
    (hpop : ∀ t ∈ pop, validL t = true ∧ t.length = n ∧ canonL t = t)
    (hpatv : patOK pattern = true)
    (hidx : patternToIndex pattern (nstore_indices n) = some (index, subspace)) :
    ∃ L, nstoreQuery1 (buildStore pfx (nstore_indices n) pop) pfx
        (nstore_indices n) pattern = some L ∧
      (∀ b, b ∈ L ↔ ∃ t ∈ pop, encMatch pattern index t ∧
        b = bindTuple pattern t []) ∧
      (∀ t ∈ pop, matchesPattern pattern t = true →
        encMatch pattern index t) := by
  obtain ⟨-, hsublt0, hget0, hcm⟩ :=
    patternToIndexGo_spec (patToComb pattern) (nstore_indices n) 0
      index subspace hidx
  have hsublt : subspace < (nstore_indices n).length := by simpa using hsublt0
  have hgets : (nstore_indices n).get? subspace = some index := by
    simpa using hget0
  have hifacts := nstore_indices_facts n hn1 hn7
  have hidxmem : index ∈ nstore_indices n := List.get?_mem hgets
  obtain ⟨hndidx, hlenidx, hltidx, hcovidx⟩ := hifacts.2 index hidxmem
  have h35 : (nstore_indices n).length ≤ 35 := hifacts.1
  have h64 : (35 : Nat) < 2 ^ 64 := by norm_num
  have hdecomp := combMatches_decomp pattern index hndidx hcm
  -- validity of the constant prefix
  have hconstsv : validL (patternToPfx pattern index) = true := by
    rw [hdecomp.2.2, validL_iff_mem]
    intro v hv
    rcases List.mem_map.mp hv with ⟨i, hi, hiv⟩
    obtain ⟨w, hw⟩ := hdecomp.2.1 i hi
    have hcw : constD pattern i = w := by
      unfold constD
      rw [getD_eq_get?, hw]
      rfl
    have hmem : Pat.pconst w ∈ pattern := List.get?_mem hw
    have hval := List.all_eq_true.mp hpatv _ hmem
    rw [← hiv, hcw]
    simpa using hval
  -- validity of key_start's tuple
  have hksv : validL (pfx ++ [Value.vint (Int.ofNat subspace)]
      ++ patternToPfx pattern index) = true := by
    rw [validL_append, validL_append]
    simp [hpfxv, hconstsv, validL, validV_int_ofNat subspace (by omega),
      validV_int_cast subspace (by omega)]
  have hksbytes := bytes_write_all_lt _ hksv
  -- a non-0xFF byte of key_start
  have htag : ∃ y ∈ bytes_write (pfx ++ [Value.vint (Int.ofNat subspace)]
      ++ patternToPfx pattern index), y ≠ 255 := by
    simp only [bytes_write_append, bytes_write_single]
    by_cases h0 : subspace = 0
    · refine ⟨tINTZERO, ?_, by decide⟩
      subst h0
      rw [encInt_zero]
      exact List.mem_append_left _ (List.mem_append_right _
        (List.mem_cons_self _ _))
    · refine ⟨tINTPOS, ?_, by decide⟩
      rw [encInt_pos subspace h0]
      exact List.mem_append_left _ (List.mem_append_right _
        (List.mem_cons_self _ _))
  obtain ⟨ytag, hytag, hytagne⟩ := htag
  have hksne : bytes_write (pfx ++ [Value.vint (Int.ofNat subspace)]
      ++ patternToPfx pattern index) ≠ [] := List.ne_nil_of_mem hytag
  obtain ⟨r, hr⟩ : ∃ r, bytes_next (bytes_write
      (pfx ++ [Value.vint (Int.ofNat subspace)]
        ++ patternToPfx pattern index)) = some r := by
    cases hbn : bytes_next (bytes_write (pfx ++ [Value.vint (Int.ofNat subspace)]
        ++ patternToPfx pattern index)) with
    | some r => exact ⟨r, rfl⟩
    | none =>
      exfalso
      exact hytagne ((bytes_next_eq_none_iff _ hksne).mp hbn ytag hytag)
  have hksltr : lexLt (bytes_write (pfx ++ [Value.vint (Int.ofNat subspace)]
      ++ patternToPfx pattern index)) r := by
    have h := bytes_next_ext_lt _ r hksne hr []
    rwa [List.append_nil] at h
  have hforB : lexLeB (bytes_write (pfx ++ [Value.vint (Int.ofNat subspace)]
      ++ patternToPfx pattern index)) r = true := by
    rw [lexLeB_iff]
    unfold lexLe
    unfold lexLt at hksltr
    rw [hksltr]
    decide
  -- validity of stored keys
  have hstorekey : ∀ t ∈ pop, ∀ p ∈ (nstore_indices n).enum,
      validL (pfx ++ [Value.vint (Int.ofNat p.1)] ++ permute t p.2) = true := by
    intro t ht p hp
    have hgetp := (mem_enum_iff _ p).mp hp
    have hp1lt : p.1 < (nstore_indices n).length := by
      rcases List.get?_eq_some.mp hgetp with ⟨hlt, _⟩
      exact hlt
    have hpmem : p.2 ∈ nstore_indices n := List.get?_mem hgetp
    obtain ⟨-, -, hplt, -⟩ := hifacts.2 p.2 hpmem
    have hperm : validL (permute t p.2) = true := by
      rw [validL_iff_mem]
      intro v hv
      rcases List.mem_map.mp hv with ⟨i, hi, hiv⟩
      have hilt : i < t.length := by
        rw [(hpop t ht).2.1]
        exact hplt i hi
      rw [← hiv]
      exact (validL_iff_mem t).mp (hpop t ht).1 _ (getD_mem_of_lt t i _ hilt)
    rw [validL_append, validL_append]
    simp [hpfxv, hperm, validL, validV_int_ofNat p.1 (by omega),
      validV_int_cast p.1 (by omega)]
  -- canonical forms survive the round trip
  have hcanonperm : ∀ t ∈ pop, ∀ idx, (∀ i ∈ idx, i < n) →
      canonL (permute t idx) = permute t idx := by
    intro t ht idx hbound
    rw [canonL_map]
    unfold permute
    rw [List.map_map]
    apply List.map_congr_left
    intro i hi
    have hilt : i < t.length := by
      rw [(hpop t ht).2.1]
      exact hbound i hi
    exact canonL_fix_mem t (hpop t ht).2.2 _ (getD_mem_of_lt t i _ hilt)
  have hdropc : ∀ (j : Nat) (P : List Value),
      (canonL (pfx ++ [Value.vint (Int.ofNat j)] ++ P)).drop (pfx.length + 1)
        = canonL P := by
    intro j P
    rw [canonL_append]
    have hlen : (canonL (pfx ++ [Value.vint (Int.ofNat j)])).length
        = pfx.length + 1 := by
      rw [canonL_length, List.length_append]
      rfl
    rw [← hlen, List.drop_left]
  have hundo : ∀ t ∈ pop, unpermute (permute t index) index = t := by
    intro t ht
    apply unpermute_permute t index hndidx
    · rw [hlenidx, (hpop t ht).2.1]
    · intro i hi
      rw [(hpop t ht).2.1]
      exact hltidx i hi
    · intro j hj
      apply hcovidx
      rw [(hpop t ht).2.1] at hj
      exact hj
  -- normalized form of the query
  have hqeq : nstoreQuery1 (buildStore pfx (nstore_indices n) pop) pfx
      (nstore_indices n) pattern
      = mapOpt (query_range (buildStore pfx (nstore_indices n) pop)
          (bytes_write (pfx ++ [Value.vint (Int.ofNat subspace)]
            ++ patternToPfx pattern index)) r)
        (rowMapper pfx index pattern) := by
    simp only [nstoreQuery1, bindPattern_nil, hidx, hr]
    rfl
  -- evaluation of the row mapper on a stored key
  have hfeval : ∀ t ∈ pop, ∀ p ∈ (nstore_indices n).enum, ∀ v2 : List Nat,
      rowMapper pfx index pattern (nstoreKey pfx p.1 (permute t p.2), v2)
      = some (bindTuple pattern
          (unpermute (canonL (permute t p.2)) index) []) := by
    intro t ht p hp v2
    have hread : bytes_read (nstoreKey pfx p.1 (permute t p.2))
        = some (canonL (pfx ++ [Value.vint (Int.ofNat p.1)]
            ++ permute t p.2)) :=
      bytes_read_write _ (hstorekey t ht p hp)
    unfold rowMapper
    simp only [hread, hdropc]
  -- range bounds of a stored key determine subspace, index and encMatch
  have hkeyan : ∀ t ∈ pop, ∀ p ∈ (nstore_indices n).enum,
      lexLe (bytes_write (pfx ++ [Value.vint (Int.ofNat subspace)]
          ++ patternToPfx pattern index)) (nstoreKey pfx p.1 (permute t p.2)) →
      lexLt (nstoreKey pfx p.1 (permute t p.2)) r →
      p.1 = subspace ∧ p.2 = index ∧ encMatch pattern index t := by
    intro t ht p hp hle hlt
    have hgetp := (mem_enum_iff _ p).mp hp
    have hp1lt : p.1 < (nstore_indices n).length := by
      rcases List.get?_eq_some.mp hgetp with ⟨hlt2, _⟩
      exact hlt2
    have hbytes := bytes_write_all_lt _ (hstorekey t ht p hp)
    have hpfx1 : pfxOf (bytes_write (pfx ++ [Value.vint (Int.ofNat subspace)]
        ++ patternToPfx pattern index)) (nstoreKey pfx p.1 (permute t p.2)) :=
      mem_next_range_pfx _ _ r hksne hbytes hr hle hlt
    unfold nstoreKey at hpfx1
    rw [nstore_key_pfx_iff pfx (patternToPfx pattern index) (permute t p.2)
      subspace p.1 (by omega) (by omega)] at hpfx1
    have hp1 : p.1 = subspace := hpfx1.1.symm
    have hp2 : p.2 = index := by
      rw [hp1] at hgetp
      rw [hgets] at hgetp
      injection hgetp with h1
      exact h1.symm
    refine ⟨hp1, hp2, ?_⟩
    have hm2 := hpfx1.2
    rw [hp2] at hm2
    exact hm2
  -- a tuple passing encMatch produces a key inside the range
  have hkeyrange : ∀ t ∈ pop, encMatch pattern index t →
      lexLe (bytes_write (pfx ++ [Value.vint (Int.ofNat subspace)]
          ++ patternToPfx pattern index))
        (nstoreKey pfx subspace (permute t index)) ∧
      lexLt (nstoreKey pfx subspace (permute t index)) r := by
    intro t ht hem
    obtain ⟨d, hd⟩ := hem
    have hkey : nstoreKey pfx subspace (permute t index)
        = bytes_write (pfx ++ [Value.vint (Int.ofNat subspace)]
          ++ patternToPfx pattern index) ++ d := by
      unfold nstoreKey
      simp only [bytes_write_append, List.append_assoc] at hd ⊢
      rw [hd]
    rw [hkey]
    exact ⟨lexLe_self_append _ _, bytes_next_ext_lt _ r hksne hr d⟩
  -- totality of the row mapper on the scanned rows
  have htotal : ∀ row ∈ query_range (buildStore pfx (nstore_indices n) pop)
      (bytes_write (pfx ++ [Value.vint (Int.ofNat subspace)]
        ++ patternToPfx pattern index)) r,
      ∃ b, rowMapper pfx index pattern row = some b := by
    intro row hrow
    obtain ⟨hrowst, -, -⟩ := (mem_query_range _ _ _ hforB row).mp hrow
    have hkm : keyMem (buildStore pfx (nstore_indices n) pop) row.1 :=
      ⟨row.2, hrowst⟩
    obtain ⟨t, ht, p, hp, hkey⟩ :=
      (keyMem_buildStore pfx (nstore_indices n) pop row.1).mp hkm
    have hrow2 : row = (nstoreKey pfx p.1 (permute t p.2), row.2) := by
      rw [← hkey]
    rw [hrow2]
    exact ⟨_, hfeval t ht p hp row.2⟩
  obtain ⟨L, hL⟩ := mapOpt_total _ _ htotal
  refine ⟨L, by rw [hqeq]; exact hL, ?_, ?_⟩
  · intro b
    rw [mapOpt_mem _ _ L hL b]
    constructor
    · rintro ⟨row, hrow, hfb⟩
      obtain ⟨hrowst, hleB, hltB⟩ := (mem_query_range _ _ _ hforB row).mp hrow
      have hkm : keyMem (buildStore pfx (nstore_indices n) pop) row.1 :=
        ⟨row.2, hrowst⟩
      obtain ⟨t, ht, p, hp, hkey⟩ :=
        (keyMem_buildStore pfx (nstore_indices n) pop row.1).mp hkm
      have hle := (lexLeB_iff _ _).mp hleB
      have hlt := (lexLtB_iff _ _).mp hltB
      rw [hkey] at hle hlt
      obtain ⟨hp1, hp2, hem⟩ := hkeyan t ht p hp hle hlt
      refine ⟨t, ht, hem, ?_⟩
      have hrow2 : row = (nstoreKey pfx p.1 (permute t p.2), row.2) := by
        rw [← hkey]
      rw [hrow2, hfeval t ht p hp row.2] at hfb
      injection hfb with h1
      rw [← h1, hp2]
      rw [hcanonperm t ht index hltidx, hundo t ht]
    · rintro ⟨t, ht, hem, hb⟩
      have hpenum : ((subspace, index) : Nat × List Nat)
          ∈ (nstore_indices n).enum := by
        rw [mem_enum_iff]
        exact hgets
      have hkm : keyMem (buildStore pfx (nstore_indices n) pop)
          (nstoreKey pfx subspace (permute t index)) :=
        (keyMem_buildStore pfx (nstore_indices n) pop _).mpr
          ⟨t, ht, (subspace, index), hpenum, rfl⟩
      obtain ⟨v2, hrowmem⟩ := hkm
      obtain ⟨hle, hlt⟩ := hkeyrange t ht hem
      refine ⟨(nstoreKey pfx subspace (permute t index), v2), ?_, ?_⟩
      · rw [mem_query_range _ _ _ hforB]
        exact ⟨hrowmem, (lexLeB_iff _ _).mpr hle, (lexLtB_iff _ _).mpr hlt⟩
      · rw [hfeval t ht (subspace, index) hpenum v2]
        rw [hcanonperm t ht index hltidx, hundo t ht, hb]
  · intro t ht hm
    exact matches_encMatch pattern t index hndidx hcm hm

/-- The S6 population: ("alice","knows","bob"), ("alice","likes","python"),
("bob","knows","carol") as UTF-8 byte strings. -/
def s6pop : List (List Value) :=
  [[Value.vstr [97, 108, 105, 99, 101], Value.vstr [107, 110, 111, 119, 115],
    Value.vstr [98, 111, 98]],
   [Value.vstr [97, 108, 105, 99, 101], Value.vstr [108, 105, 107, 101, 115],
    Value.vstr [112, 121, 116, 104, 111, 110]],
   [Value.vstr [98, 111, 98], Value.vstr [107, 110, 111, 119, 115],
    Value.vstr [99, 97, 114, 111, 108]]]

/-- The S6 pattern `(Variable("x"), "knows", Variable("y"))`. -/
def s6pat : List Pat :=
  [Pat.pvar "x", Pat.pconst (Value.vstr [107, 110, 111, 119, 115]),
   Pat.pvar "y"]

theorem c7_query_single_pattern_witness :
    ((1 : Nat) ≤ 3 ∧ (3 : Nat) ≤ 7 ∧
     validL [Value.vstr [116]] = true ∧
     (∀ t ∈ s6pop, validL t = true ∧ t.length = 3 ∧ canonL t = t) ∧
     patOK s6pat = true ∧
     patternToIndex s6pat (nstore_indices 3) = some ([1, 2, 0], 1)) ∧
    (∃ L, nstoreQuery1 (buildStore [Value.vstr [116]] (nstore_indices 3) s6pop)
        [Value.vstr [116]] (nstore_indices 3) s6pat = some L ∧
      (∀ b, b ∈ L ↔ ∃ t ∈ s6pop, encMatch s6pat [1, 2, 0] t ∧
        b = bindTuple s6pat t []) ∧
      (∀ t ∈ s6pop, matchesPattern s6pat t = true →
        encMatch s6pat [1, 2, 0] t)) :=
  ⟨⟨by decide, by decide, by decide, by decide, by decide, by decide⟩,
   c7_query_single_pattern 3 [Value.vstr [116]] s6pop s6pat [1, 2, 0] 1
     (by decide) (by decide) (by decide) (by decide) (by decide) (by decide)⟩
